import Mathlib

/-!
# Block manager of dymint (`block/manager.go`)

A shallow embedding of the block manager: the apply path (`applyBlock`), the
producer (`produceBlock`, `gossipBlock`), and the DA sync path
(`fetchBatch`, `processNextDABatch`, `syncUntilTarget`, `updateStateIndex`).

The manager is sequentialised: every function takes the manager state and the
outcomes of the external calls it makes (store failures, executor results,
signer, gossip, DA and SL answers) and returns the new manager state, the
list of external calls it made, in order, and the returned error.

Machine integers (`uint64`) are naturals; additions and subtractions that can
wrap are reduced modulo `2 ^ 64` explicitly.
-/

namespace Dymint

/-! ## Data model -/

abbrev Bytes := List Nat

/-- A `[32]byte` digest. -/
abbrev Hash := List Nat

/-- The zero value `[32]byte{}`. -/
def zeroHash : Hash := List.replicate 32 0

abbrev Signature := Bytes

/-- Opaque ABCI responses of one block. -/
abbrev Responses := Bytes

/-- Opaque validator set. -/
abbrev ValidatorSet := Bytes

/-- Number of values of a `uint64`. -/
def uint64Size : Nat := 18446744073709551616

/-- Go conversion `uint64(x)` of an `int64`. -/
def toUint64 (x : Int) : Nat := (x % (uint64Size : Int)).toNat

/-- Wrapping `uint64` addition. -/
def addU64 (a b : Nat) : Nat := (a + b) % uint64Size

/-- Wrapping `uint64` subtraction. -/
def subU64 (a b : Nat) : Nat := (a % uint64Size + uint64Size - b % uint64Size) % uint64Size

/-- Errors returned by the manager and by its collaborators. -/
inductive Err
  | fail (code : Nat)
  | notFound
  | batchNotFound
  | lastCommitLoad (cause : Err)
  | lastBlockLoad (cause : Err)
  | daRetrieve (message : Bytes)
  | daTimeout (message : Bytes)
  | indexOutOfRange
  | daSubmit (message : Bytes)
  | cancelled
deriving DecidableEq, Repr

structure Header where
  height : Nat
  chainId : Bytes
  appHash : Hash
  lastHeaderHash : Hash
  dataHash : Hash
deriving DecidableEq, Repr

structure Commit where
  height : Nat
  headerHash : Hash
  signatures : List Signature
deriving DecidableEq, Repr

structure Block where
  header : Header
  txs : List Bytes
  lastCommit : Commit
deriving DecidableEq, Repr

/-- The fields of `types.State` the manager reads or writes. -/
structure State where
  lastBlockHeight : Nat
  appHash : Hash
  validators : ValidatorSet
  nextValidators : ValidatorSet
  lastResultsHash : Hash
  slStateIndex : Nat
deriving DecidableEq, Repr

/-! ## Store -/

/-- Modelled from the spec: the persistent store (package `store` is not part
of the sources). It is the typed key-value facade of the store contract:
blocks and commits by height, block responses and validators by height, the
saved state, and the visible height. -/
structure Store where
  height : Nat
  blocks : Nat → Option Block
  commits : Nat → Option Commit
  responses : Nat → Option Responses
  validators : Nat → Option ValidatorSet
  state : Option State

/-- Modelled from the spec: `store.LoadBlock(h)`; fails when no block is saved
at `h`. -/
def Store.loadBlock (s : Store) (h : Nat) : Except Err Block :=
  match s.blocks h with
  | some b => .ok b
  | none => .error .notFound

/-- Modelled from the spec: `store.LoadCommit(h)`; fails when no commit is
saved at `h`. -/
def Store.loadCommit (s : Store) (h : Nat) : Except Err Commit :=
  match s.commits h with
  | some c => .ok c
  | none => .error .notFound

/-- Modelled from the spec: a successful `store.SaveBlock(block, commit, nil)`
persists the block and its commit under the block's header height. -/
def Store.saveBlock (s : Store) (b : Block) (c : Commit) : Store :=
  { s with
    blocks := fun h => if h = b.header.height then some b else s.blocks h
    commits := fun h => if h = b.header.height then some c else s.commits h }

/-- Modelled from the spec: `store.SetHeight(h)`. -/
def Store.setHeight (s : Store) (h : Nat) : Store := { s with height := h }

/-- One pending write of a store write-batch. -/
inductive Write
  | responses (height : Nat) (r : Responses)
  | state (s : State)
  | validators (height : Nat) (v : ValidatorSet)
deriving DecidableEq, Repr

/-- Modelled from the spec: the effect of one write on the store. -/
def Store.applyWrite (s : Store) : Write → Store
  | .responses h r => { s with responses := fun k => if k = h then some r else s.responses k }
  | .state st => { s with state := some st }
  | .validators h v => { s with validators := fun k => if k = h then some v else s.validators k }

/-- Modelled from the spec: `batch.Commit()` applies the pending writes of the
write-batch, in order. -/
def Store.commitBatch (s : Store) (ws : List Write) : Store := ws.foldl Store.applyWrite s

/-! ## Manager state, external calls -/

/-- The shared state of `Manager` and the two configuration values read by
the functions below (`conf.BlockBatchSize`, `genesis.InitialHeight`). -/
structure Manager where
  lastState : State
  store : Store
  syncTarget : Nat
  batchInProcess : Bool
  blockBatchSize : Nat
  initialHeight : Int

/-- The calls a manager function makes to its collaborators, and the
internal hand-offs (`applyBlock` invoked, submitter spawned, batch creation
and submission started). -/
inductive Call
  | saveBlock (b : Block) (c : Commit)
  | getProposer
  | execApplyBlock (s : State) (b : Block) (c : Commit)
  | execCommit (s : State) (b : Block) (r : Responses)
  | newBatch
  | saveBlockResponses (height : Nat) (r : Responses)
  | updateState (s : State)
  | saveValidators (height : Nat) (v : ValidatorSet)
  | batchDiscard
  | batchCommit
  | setHeight (height : Nat)
  | loadCommit (height : Nat)
  | loadBlock (height : Nat)
  | createBlock (height : Nat) (lastCommit : Commit) (lastHeaderHash : Hash) (s : State)
  | marshalHeader (h : Header)
  | sign (bytes : Bytes)
  | marshalGossip (b : Block) (c : Commit)
  | gossip (bytes : Bytes)
  | applyBlock (b : Block) (c : Commit)
  | spawnSubmitNextBatch
  | retrieveBatches (daHeight : Nat)
  | slRetrieveBatch (index : Nat)
  | getLatestBatch
  | syncTargetDiodeSet (endHeight : Nat)
  | createNextDABatch (startHeight endHeight : Nat)
  | submitBatchToDA (startHeight endHeight : Nat)
  | submitBatchToSL (startHeight endHeight : Nat)
deriving DecidableEq, Repr

/-- Result of a manager function: new state, calls made, returned error. -/
structure Outcome where
  m : Manager
  calls : List Call
  err : Option Err

/-- Outcomes of the external calls of one `applyBlock`.
`execCommit` returns the state it was handed through the pointer `&newState`,
as the executor left it. -/
structure ApplyEnv where
  saveBlock : Option Err
  execApplyBlock : State → Block → Commit → Except Err (State × Responses)
  execCommit : State → Block → Responses → Except Err State
  saveBlockResponses : Option Err
  updateState : Option Err
  saveValidators : Option Err
  batchCommit : Option Err

/-! ## `applyBlock` -/

/-- The method `Manager.applyBlock`. -/
def applyBlock (env : ApplyEnv) (m : Manager) (block : Block) (commit : Commit) : Outcome :=
  if block.header.height > m.store.height then
    match env.saveBlock with
    | some e => ⟨m, [.saveBlock block commit], some e⟩
    | none =>
      let m1 : Manager := { m with store := m.store.saveBlock block commit }
      let t1 : List Call :=
        [.saveBlock block commit, .getProposer, .execApplyBlock m.lastState block commit]
      match env.execApplyBlock m.lastState block commit with
      | .error e => ⟨m1, t1, some e⟩
      | .ok (newState0, responses) =>
        let t2 := t1 ++ [.execCommit newState0 block responses]
        match env.execCommit newState0 block responses with
        | .error e => ⟨m1, t2, some e⟩
        | .ok newState =>
          let t3 := t2 ++ [.newBatch, .saveBlockResponses block.header.height responses]
          match env.saveBlockResponses with
          | some e => ⟨m1, t3 ++ [.batchDiscard], some e⟩
          | none =>
            let batch1 : List Write := [.responses block.header.height responses]
            -- m.lastState = newState
            let m2 : Manager := { m1 with lastState := newState }
            let t4 := t3 ++ [.updateState m2.lastState]
            match env.updateState with
            | some e => ⟨m2, t4 ++ [.batchDiscard], some e⟩
            | none =>
              let batch2 := batch1 ++ [.state m2.lastState]
              let t5 := t4 ++ [.saveValidators block.header.height m2.lastState.validators]
              match env.saveValidators with
              | some e => ⟨m2, t5 ++ [.batchDiscard], some e⟩
              | none =>
                let batch3 := batch2 ++ [.validators block.header.height m2.lastState.validators]
                let t6 := t5 ++ [.batchCommit]
                match env.batchCommit with
                | some e => ⟨m2, t6, some e⟩
                | none =>
                  let m3 : Manager := { m2 with store := m2.store.commitBatch batch3 }
                  ⟨{ m3 with store := m3.store.setHeight block.header.height },
                    t6 ++ [.setHeight block.header.height], none⟩
  else
    ⟨m, [], none⟩

/-! ## `gossipBlock` and `produceBlock` -/

/-- Outcomes of the two fallible steps of `gossipBlock`:
`GossipedBlock.MarshalBinary` and `p2pClient.GossipBlock`. -/
structure GossipEnv where
  marshalBinary : Block → Commit → Except Err Bytes
  gossipBlock : Bytes → Option Err

/-- The method `Manager.gossipBlock`. -/
def gossipBlock (env : GossipEnv) (m : Manager) (block : Block) (commit : Commit) : Outcome :=
  match env.marshalBinary block commit with
  | .error e => ⟨m, [.marshalGossip block commit], some e⟩
  | .ok gossipedBlockBytes =>
    match env.gossipBlock gossipedBlockBytes with
    | some e => ⟨m, [.marshalGossip block commit, .gossip gossipedBlockBytes], some e⟩
    | none => ⟨m, [.marshalGossip block commit, .gossip gossipedBlockBytes], none⟩

/-- Collaborators of `produceBlock`: the header digest `Header.Hash`, the
executor's `CreateBlock`, `ToABCIHeaderPB(header).Marshal`, the proposer key's
`Sign`, and the environments of the gossip and of the apply. -/
structure ProduceEnv where
  headerHash : Header → Hash
  createBlock : Nat → Commit → Hash → State → Block
  marshalHeader : Header → Except Err Bytes
  sign : Bytes → Except Err Signature
  gossip : GossipEnv
  apply : ApplyEnv

/-- First part of `Manager.produceBlock` (the `if newHeight == initialHeight`
statement): the last commit and the last header hash, with the store loads
made, or the wrapped load error. -/
def produceBlock.loadLast (env : ProduceEnv) (m : Manager) :
    Except Err (Commit × Hash) × List Call :=
  let height := m.store.height
  let newHeight := addU64 height 1
  if newHeight = toUint64 m.initialHeight then
    (.ok ({ height := height, headerHash := zeroHash, signatures := [] }, zeroHash), [])
  else
    match m.store.loadCommit height with
    | .error e => (.error (.lastCommitLoad e), [.loadCommit height])
    | .ok lastCommit =>
      match m.store.loadBlock height with
      | .error e => (.error (.lastBlockLoad e), [.loadCommit height, .loadBlock height])
      | .ok lastBlock =>
        (.ok (lastCommit, env.headerHash lastBlock.header),
          [.loadCommit height, .loadBlock height])

/-- Second part of `Manager.produceBlock`: the pending block and its commit
when the store has a block at `newHeight`, otherwise a newly created and
signed block. -/
def produceBlock.selectBlock (env : ProduceEnv) (m : Manager) (lastCommit : Commit)
    (lastHeaderHash : Hash) : Except Err (Block × Commit) × List Call :=
  let newHeight := addU64 m.store.height 1
  match m.store.loadBlock newHeight with
  | .ok pendingBlock =>
    match m.store.loadCommit newHeight with
    | .error e => (.error e, [.loadBlock newHeight, .loadCommit newHeight])
    | .ok commit => (.ok (pendingBlock, commit), [.loadBlock newHeight, .loadCommit newHeight])
  | .error _ =>
    let block := env.createBlock newHeight lastCommit lastHeaderHash m.lastState
    let t : List Call :=
      [.loadBlock newHeight, .createBlock newHeight lastCommit lastHeaderHash m.lastState,
        .marshalHeader block.header]
    match env.marshalHeader block.header with
    | .error e => (.error e, t)
    | .ok abciHeaderBytes =>
      match env.sign abciHeaderBytes with
      | .error e => (.error e, t ++ [.sign abciHeaderBytes])
      | .ok sign =>
        (.ok (block, { height := block.header.height
                       headerHash := env.headerHash block.header
                       signatures := [sign] }),
          t ++ [.sign abciHeaderBytes])

/-- Last part of `Manager.produceBlock`: gossip, apply, and the batch
trigger. -/
def produceBlock.publish (env : ProduceEnv) (m : Manager) (block : Block) (commit : Commit) :
    Outcome :=
  let g := gossipBlock env.gossip m block commit
  match g.err with
  | some e => ⟨g.m, g.calls, some e⟩
  | none =>
    let a := applyBlock env.apply g.m block commit
    let t := g.calls ++ [.applyBlock block commit] ++ a.calls
    match a.err with
    | some e => ⟨a.m, t, some e⟩
    | none =>
      let syncTarget := a.m.syncTarget
      if subU64 block.header.height syncTarget ≥ a.m.blockBatchSize
          ∧ a.m.batchInProcess = false then
        ⟨{ a.m with batchInProcess := true }, t ++ [.spawnSubmitNextBatch], none⟩
      else
        ⟨a.m, t, none⟩

/-- The method `Manager.produceBlock`. -/
def produceBlock (env : ProduceEnv) (m : Manager) : Outcome :=
  match produceBlock.loadLast env m with
  | (.error e, t1) => ⟨m, t1, some e⟩
  | (.ok (lastCommit, lastHeaderHash), t1) =>
    match produceBlock.selectBlock env m lastCommit lastHeaderHash with
    | (.error e, t2) => ⟨m, t1 ++ t2, some e⟩
    | (.ok (block, commit), t2) =>
      let r := produceBlock.publish env m block commit
      ⟨r.m, t1 ++ t2 ++ r.calls, r.err⟩

/-! ## DA sync path -/

/-- Status codes of the DA client (`da.StatusCode`). -/
inductive StatusCode
  | unknown
  | success
  | timeout
  | error
deriving DecidableEq, Repr

/-- The type `types.Batch`. -/
structure Batch where
  startHeight : Nat
  endHeight : Nat
  blocks : List Block
  commits : List Commit
deriving DecidableEq, Repr

/-- The type `da.ResultRetrieveBatch`. -/
structure ResultRetrieveBatch where
  code : StatusCode
  message : Bytes
  batches : List Batch
deriving DecidableEq, Repr

/-- The fields of `settlement.ResultRetrieveBatch` the manager reads. -/
structure SLBatch where
  startHeight : Nat
  endHeight : Nat
  stateIndex : Nat
  daHeight : Nat
deriving DecidableEq, Repr

/-- Answers of the DA retriever, and the outcomes of the external calls of the
`k`-th `applyBlock` made while processing (counted from 0). -/
structure DAEnv where
  retrieveBatches : Nat → ResultRetrieveBatch
  apply : Nat → ApplyEnv

/-- The method `Manager.fetchBatch`. -/
def fetchBatch (env : DAEnv) (daHeight : Nat) : ResultRetrieveBatch × Option Err :=
  let batchRes := env.retrieveBatches daHeight
  match batchRes.code with
  | .error => (batchRes, some (.daRetrieve batchRes.message))
  | .timeout => (batchRes, some (.daTimeout batchRes.message))
  | _ => (batchRes, none)

/-- Inner loop of `processNextDABatch`: `for i, block := range batch.Blocks`,
from index `i`, `k` being the number of `applyBlock` calls made so far.
An index `i` outside `batch.Commits` is the run-time panic, reported as
`Err.indexOutOfRange`. -/
def processNextDABatch.blocks (env : DAEnv) (commits : List Commit) :
    List Block → Nat → Nat → Manager → Outcome × Nat
  | [], _, k, m => (⟨m, [], none⟩, k)
  | block :: rest, i, k, m =>
    match commits[i]? with
    | none => (⟨m, [], some .indexOutOfRange⟩, k)
    | some commit =>
      let a := applyBlock (env.apply k) m block commit
      match a.err with
      | some e => (⟨a.m, .applyBlock block commit :: a.calls, some e⟩, k + 1)
      | none =>
        let r := processNextDABatch.blocks env commits rest (i + 1) (k + 1) a.m
        (⟨r.1.m, .applyBlock block commit :: a.calls ++ r.1.calls, r.1.err⟩, r.2)

/-- Outer loop of `processNextDABatch`: `for _, batch := range batchResp.Batches`. -/
def processNextDABatch.batches (env : DAEnv) : List Batch → Nat → Manager → Outcome
  | [], _, m => ⟨m, [], none⟩
  | batch :: rest, k, m =>
    let r := processNextDABatch.blocks env batch.commits batch.blocks 0 k m
    match r.1.err with
    | some e => ⟨r.1.m, r.1.calls, some e⟩
    | none =>
      let r2 := processNextDABatch.batches env rest r.2 r.1.m
      ⟨r2.m, r.1.calls ++ r2.calls, r2.err⟩

/-- The method `Manager.processNextDABatch`. -/
def processNextDABatch (env : DAEnv) (m : Manager) (daHeight : Nat) : Outcome :=
  match fetchBatch env daHeight with
  | (_, some e) => ⟨m, [.retrieveBatches daHeight], some e⟩
  | (batchResp, none) =>
    let r := processNextDABatch.batches env batchResp.batches 0 m
    ⟨r.m, .retrieveBatches daHeight :: r.calls, r.err⟩

/-- The method `Manager.updateStateIndex`; `updateState` is the outcome of
`store.UpdateState(m.lastState, nil)`. -/
def updateStateIndex (updateState : Option Err) (m : Manager) (stateIndex : Nat) : Outcome :=
  let m1 : Manager := { m with lastState := { m.lastState with slStateIndex := stateIndex } }
  match updateState with
  | some e => ⟨m1, [.updateState m1.lastState], some e⟩
  | none =>
    ⟨{ m1 with store := m1.store.applyWrite (.state m1.lastState) },
      [.updateState m1.lastState], none⟩

/-- What the environment answers during one iteration of the loop of
`syncUntilTarget`. -/
structure SyncEnv where
  retrieveBatch : Nat → Except Err SLBatch
  da : DAEnv
  updateState : Option Err

/-- How a run of `syncUntilTarget` ended: it returned, it panicked, or the
environment script was used up with the loop still running. -/
inductive SyncStatus
  | returned
  | panicked
  | running
deriving DecidableEq, Repr

structure SyncOutcome where
  m : Manager
  calls : List Call
  status : SyncStatus

/-- The loop `for currentHeight < syncTarget` of `syncUntilTarget`, one
`SyncEnv` per iteration. -/
def syncUntilTarget.loop (syncTarget : Nat) : List SyncEnv → Manager → Nat → SyncOutcome
  | [], m, currentHeight =>
    if currentHeight < syncTarget then ⟨m, [], .running⟩ else ⟨m, [], .returned⟩
  | e :: rest, m, currentHeight =>
    if currentHeight < syncTarget then
      let index := addU64 m.lastState.slStateIndex 1
      match e.retrieveBatch index with
      | .error _ =>
        let r := syncUntilTarget.loop syncTarget rest m currentHeight
        ⟨r.m, .slRetrieveBatch index :: r.calls, r.status⟩
      | .ok resultRetrieveBatch =>
        let p := processNextDABatch e.da m resultRetrieveBatch.daHeight
        match p.err with
        | some .indexOutOfRange => ⟨p.m, .slRetrieveBatch index :: p.calls, .panicked⟩
        | some _ => ⟨p.m, .slRetrieveBatch index :: p.calls, .returned⟩
        | none =>
          let u := updateStateIndex e.updateState p.m resultRetrieveBatch.stateIndex
          match u.err with
          | some _ => ⟨u.m, .slRetrieveBatch index :: p.calls ++ u.calls, .returned⟩
          | none =>
            let r := syncUntilTarget.loop syncTarget rest u.m u.m.store.height
            ⟨r.m, .slRetrieveBatch index :: p.calls ++ u.calls ++ r.calls, r.status⟩
    else
      ⟨m, [], .returned⟩

/-- The method `Manager.syncUntilTarget`. -/
def syncUntilTarget (envs : List SyncEnv) (m : Manager) (syncTarget : Nat) : SyncOutcome :=
  syncUntilTarget.loop syncTarget envs m m.store.height

/-! ## Sync target: `waitForSync`, `updateSyncParams`, the sync-target loop -/

/-- The loop `for m.store.Height() < syncTarget { m.isSyncedCond.Wait() }` of
`waitForSync`. The list holds the manager states found at the successive
wake-ups, as the other loops left them; `none` when the wait is still blocked
after the last of them. -/
def waitForSync.wait : List Manager → Manager → Option Manager
  | [], m => if m.store.height < m.syncTarget then none else some m
  | w :: rest, m => if m.store.height < m.syncTarget then waitForSync.wait rest w else some m

/-- The method `Manager.waitForSync`; `latest` is what `getLatestBatchFromSL`
returned (one attempt at `settlementClient.RetrieveBatch()`). `none` when the
call is still blocked in its wait. -/
def waitForSync (latest : Except Err SLBatch) (wakeups : List Manager) (m : Manager) :
    Option Outcome :=
  match latest with
  | .error e =>
    if e = .batchNotFound then
      some ⟨{ m with syncTarget := toUint64 (m.initialHeight - 1) }, [.getLatestBatch], none⟩
    else
      some ⟨m, [.getLatestBatch], some e⟩
  | .ok resultRetrieveBatch =>
    match waitForSync.wait wakeups { m with syncTarget := resultRetrieveBatch.endHeight } with
    | none => none
    | some m2 => some ⟨m2, [.getLatestBatch], none⟩

/-- The start of `Manager.ProduceBlockLoop`, up to its first call of
`produceBlock` (cancellation of the context aside): the manager state in which
that call is made. The error of `waitForSync` is logged and nothing else. -/
def ProduceBlockLoop.firstProduceState (latest : Except Err SLBatch) (wakeups : List Manager)
    (m : Manager) : Option Manager :=
  match waitForSync latest wakeups m with
  | none => none
  | some r => some r.m

/-- The method `Manager.updateSyncParams`. -/
def updateSyncParams (m : Manager) (endHeight : Nat) : Outcome :=
  ⟨{ m with syncTarget := endHeight }, [.syncTargetDiodeSet endHeight], none⟩

/-- Start of `Manager.SyncTargetLoop`: the latest batch of the SL seeds the
sync target; a failed query is logged. -/
def SyncTargetLoop.start (latest : Except Err SLBatch) (m : Manager) : Outcome :=
  match latest with
  | .error _ => ⟨m, [.getLatestBatch], none⟩
  | .ok resultRetrieveBatch =>
    let u := updateSyncParams m resultRetrieveBatch.endHeight
    ⟨u.m, .getLatestBatch :: u.calls, none⟩

/-- The case `event := <-subscription.Out()` of `Manager.SyncTargetLoop`:
handling of one "new settlement batch accepted" event. -/
def SyncTargetLoop.onAccepted (m : Manager) (endHeight : Nat) : Outcome :=
  let u := updateSyncParams m endHeight
  ⟨{ u.m with batchInProcess := false }, u.calls, none⟩

/-! ## Batch submitter -/

/-- The loop `for height := startHeight; height <= endHeight; height++` of
`createNextDABatch`, with the blocks and commits appended so far. `fuel` bounds
the number of iterations; `none` when it is used up. -/
def createNextDABatch.loop (s : Store) (startHeight endHeight : Nat) :
    Nat → Nat → List Block → List Commit → Option (Except Err Batch)
  | 0, height, blocks, commits =>
    if height ≤ endHeight then none
    else some (.ok { startHeight := startHeight, endHeight := endHeight,
                     blocks := blocks, commits := commits })
  | fuel + 1, height, blocks, commits =>
    if height ≤ endHeight then
      match s.loadBlock height with
      | .error e => some (.error e)
      | .ok block =>
        match s.loadCommit height with
        | .error e => some (.error e)
        | .ok commit =>
          createNextDABatch.loop s startHeight endHeight fuel (addU64 height 1)
            (blocks ++ [block]) (commits ++ [commit])
    else
      some (.ok { startHeight := startHeight, endHeight := endHeight,
                  blocks := blocks, commits := commits })

/-- The method `Manager.createNextDABatch`. -/
def createNextDABatch (fuel : Nat) (m : Manager) (startHeight endHeight : Nat) :
    Option (Except Err Batch) :=
  createNextDABatch.loop m.store startHeight endHeight fuel startHeight [] []

/-- The type `da.ResultSubmitBatch`. -/
structure ResultSubmitBatch where
  code : StatusCode
  message : Bytes
  daHeight : Nat
deriving DecidableEq, Repr

/-- The type `settlement.ResultSubmitBatch`; the settlement package has the
same status codes as the DA package. -/
structure SLResultSubmitBatch where
  code : StatusCode
  message : Bytes
deriving DecidableEq, Repr

/-- The method `Manager.submitBatchToDA`: `retry.Do` around `dalc.SubmitBatch`.
The list holds the results of the attempts made; the first success is
returned, and when no attempt succeeds the retry gives up with an error. -/
def submitBatchToDA : List ResultSubmitBatch → Except Err ResultSubmitBatch
  | [] => .error .cancelled
  | res :: rest =>
    if res.code = .success then .ok res
    else
      match rest with
      | [] => .error (.daSubmit res.message)
      | _ => submitBatchToDA rest

/-- The method `Manager.submitBatchToSL`: `retry.Do` around
`settlementClient.SubmitBatch`; `none` stands for the panic raised when no
attempt succeeds. -/
def submitBatchToSL : List SLResultSubmitBatch → Option SLResultSubmitBatch
  | [] => none
  | res :: rest => if res.code = .success then some res else submitBatchToSL rest

/-- What the DA and the SL answer to the attempts of one batch submission, and
the bound on the iterations of `createNextDABatch`. -/
structure SubmitEnv where
  fuel : Nat
  daResults : Batch → List ResultSubmitBatch
  slResults : Batch → ResultSubmitBatch → List SLResultSubmitBatch

/-- How `submitNextBatch` ended. -/
inductive SubmitStatus
  | createFailed (e : Err)
  | daFailed (e : Err)
  | submitted
  | panicked
  | unfinished
deriving DecidableEq, Repr

/-- Result of `submitNextBatch`: the manager, the calls made, how it ended,
and the batch it assembled, if any. -/
structure SubmitOutcome where
  m : Manager
  calls : List Call
  status : SubmitStatus
  batch : Option Batch

/-- The first height `submitNextBatch` assembles: `syncTarget + 1`. -/
def submitNextBatch.startHeight (m : Manager) : Nat := addU64 m.syncTarget 1

/-- The last height `submitNextBatch` assembles:
`startHeight + conf.BlockBatchSize - 1`. -/
def submitNextBatch.endHeight (m : Manager) : Nat :=
  subU64 (addU64 (submitNextBatch.startHeight m) m.blockBatchSize) 1

/-- The method `Manager.submitNextBatch`. -/
def submitNextBatch (env : SubmitEnv) (m : Manager) : SubmitOutcome :=
  let startHeight := submitNextBatch.startHeight m
  let endHeight := submitNextBatch.endHeight m
  let t : List Call := [.createNextDABatch startHeight endHeight]
  match createNextDABatch env.fuel m startHeight endHeight with
  | none => ⟨m, t, .unfinished, none⟩
  | some (.error e) => ⟨m, t, .createFailed e, none⟩
  | some (.ok nextBatch) =>
    match submitBatchToDA (env.daResults nextBatch) with
    | .error e => ⟨m, t ++ [.submitBatchToDA startHeight endHeight], .daFailed e, some nextBatch⟩
    | .ok resultSubmitToDA =>
      let t2 := t ++ [.submitBatchToDA startHeight endHeight,
        .submitBatchToSL startHeight endHeight]
      match submitBatchToSL (env.slResults nextBatch resultSubmitToDA) with
      | none => ⟨m, t2, .panicked, some nextBatch⟩
      | some _ => ⟨m, t2, .submitted, some nextBatch⟩

/-! ## The manager as a step system -/

/-- The manager together with the batch submissions under way: `running`
counts the spawned submitters that have not ended, `awaiting` lists the end
heights of the batches they submitted to the SL for which no acceptance event
has been handled yet. -/
structure Sys where
  m : Manager
  running : Nat
  awaiting : List Nat

/-- The steps of the system: a call of `produceBlock`, the run of a spawned
submitter from its start to its end, the handling of an SL acceptance event by
the sync-target loop, a gossiped block handed to `applyBlock`, and a call of
`syncUntilTarget`. -/
inductive Event
  | produce (env : ProduceEnv)
  | submitterRuns (env : SubmitEnv)
  | accepted (endHeight : Nat)
  | applyGossiped (env : ApplyEnv) (block : Block) (commit : Commit)
  | syncUntil (envs : List SyncEnv) (syncTarget : Nat)

/-- One step of the system; `none` when the step cannot be taken (no submitter
to run) or when the process ends in it (panic of `submitBatchToSL`, batch
creation cut short). The handler of the sync-target loop runs on every
acceptance event, whichever batch it is about; the event closes a submission of
this node when a batch of its end height awaits acceptance. -/
def Sys.step (s : Sys) : Event → Option Sys
  | .produce env =>
    some { m := (produceBlock env s.m).m
           running :=
             if (produceBlock env s.m).calls.contains .spawnSubmitNextBatch then s.running + 1
             else s.running
           awaiting := s.awaiting }
  | .submitterRuns env =>
    if s.running = 0 then none
    else
      match (submitNextBatch env s.m).status with
      | .submitted =>
        some { m := (submitNextBatch env s.m).m, running := s.running - 1,
               awaiting := s.awaiting ++ [submitNextBatch.endHeight s.m] }
      | .createFailed _ =>
        some { m := (submitNextBatch env s.m).m, running := s.running - 1,
               awaiting := s.awaiting }
      | .daFailed _ =>
        some { m := (submitNextBatch env s.m).m, running := s.running - 1,
               awaiting := s.awaiting }
      | .panicked => none
      | .unfinished => none
  | .accepted endHeight =>
    some { m := (SyncTargetLoop.onAccepted s.m endHeight).m, running := s.running,
           awaiting := s.awaiting.erase endHeight }
  | .applyGossiped env block commit =>
    some { s with m := (applyBlock env s.m block commit).m }
  | .syncUntil envs syncTarget =>
    some { s with m := (syncUntilTarget envs s.m syncTarget).m }

/-- The states reached by a list of steps. -/
def Sys.run : Sys → List Event → Option Sys
  | s, [] => some s
  | s, ev :: rest =>
    match s.step ev with
    | none => none
    | some s2 => Sys.run s2 rest

/-- The system as `NewManager` leaves it: `batchInProcess` false, no submission
under way. -/
def Sys.init (m : Manager) : Sys :=
  { m := { m with batchInProcess := false }, running := 0, awaiting := [] }

/-- At most one submission is under way, and none when `batchInProcess` is
false. -/
def Sys.inv (s : Sys) : Prop :=
  s.running + s.awaiting.length ≤ 1 ∧
    (s.m.batchInProcess = false → s.running + s.awaiting.length = 0)

/-- The acceptance event of end height `endHeight` is this node's own: a batch
of that end height, submitted by this node, awaits acceptance, or no submission
of this node is under way. -/
def Sys.acceptanceDue (s : Sys) (endHeight : Nat) : Bool :=
  s.awaiting.contains endHeight || (s.running == 0 && s.awaiting.isEmpty)

/-- Every acceptance event of the run is handled in a state in which it is this
node's own. -/
def Sys.acceptancesDue : Sys → List Event → Bool
  | _, [] => true
  | s, ev :: rest =>
    (match ev with
      | .accepted endHeight => s.acceptanceDue endHeight
      | _ => true) &&
    (match s.step ev with
      | none => true
      | some s2 => Sys.acceptancesDue s2 rest)

/-! ## Kinds of calls -/

/-- Calls to the store and to the executor made by `applyBlock`. -/
def Call.isStoreOrExecutor : Call → Bool
  | .saveBlock _ _ | .getProposer | .execApplyBlock _ _ _ | .execCommit _ _ _ | .newBatch
  | .saveBlockResponses _ _ | .updateState _ | .saveValidators _ _ | .batchDiscard
  | .batchCommit | .setHeight _ => true
  | _ => false

/-- Reads of the store by height. -/
def Call.isLoad : Call → Bool
  | .loadCommit _ | .loadBlock _ => true
  | _ => false

/-- Creation of a block by the executor and signing of its header. -/
def Call.isCreateOrSign : Call → Bool
  | .createBlock _ _ _ _ | .marshalHeader _ | .sign _ => true
  | _ => false

/-! ## Concrete states used to exercise the theorems -/

/-- A store with no content and height `h`. -/
def emptyStore (h : Nat) : Store :=
  { height := h, blocks := fun _ => none, commits := fun _ => none,
    responses := fun _ => none, validators := fun _ => none, state := none }

def genesisState : State :=
  { lastBlockHeight := 0, appHash := zeroHash, validators := [1], nextValidators := [1],
    lastResultsHash := zeroHash, slStateIndex := 0 }

/-- A manager over an empty store of height `h`, batch size 3. -/
def managerAt (h : Nat) (initialHeight : Int) : Manager :=
  { lastState := genesisState, store := emptyStore h, syncTarget := 0,
    batchInProcess := false, blockBatchSize := 3, initialHeight := initialHeight }

/-- A block with header height `h` and no transactions. -/
def blockAt (h : Nat) : Block :=
  { header := { height := h, chainId := [7], appHash := zeroHash,
                lastHeaderHash := zeroHash, dataHash := zeroHash },
    txs := [],
    lastCommit := { height := h - 1, headerHash := zeroHash, signatures := [] } }

def commitAt (h : Nat) : Commit :=
  { height := h, headerHash := [h], signatures := [[9]] }

/-- An environment in which every call of `applyBlock` succeeds; the executor
records the block height and extends the application hash. -/
def envOk : ApplyEnv :=
  { saveBlock := none
    execApplyBlock := fun s b _ =>
      .ok ({ s with lastBlockHeight := b.header.height, appHash := 1 :: s.appHash }, [0])
    execCommit := fun s _ _ => .ok s
    saveBlockResponses := none
    updateState := none
    saveValidators := none
    batchCommit := none }

/-! ## The availability invariant of the store -/

/-- Height `h` is served by the store: `LoadBlock(h)` and `LoadCommit(h)` succeed
and the loaded block has header height `h`. -/
def Store.serves (s : Store) (h : Nat) : Bool :=
  match s.loadBlock h, s.loadCommit h with
  | .ok b, .ok _ => b.header.height == h
  | _, _ => false

/-- Every height from `genesis.InitialHeight` up to the store height is served
by the store. -/
def Manager.blocksAvailable (m : Manager) : Prop :=
  ∀ h, h ≤ m.store.height → m.initialHeight ≤ (h : Int) → m.store.serves h = true

instance (m : Manager) : Decidable m.blocksAvailable := by
  unfold Manager.blocksAvailable
  infer_instance

/-- A manager of height 5 whose store holds the blocks and commits 1 to 5. -/
def managerWithFive : Manager :=
  { managerAt 5 1 with
    store :=
      { emptyStore 5 with
        blocks := fun h => if 1 ≤ h ∧ h ≤ 5 then some (blockAt h) else none
        commits := fun h => if 1 ≤ h ∧ h ≤ 5 then some (commitAt h) else none } }

/-- Collaborators of the producer that never fail: the executor builds an
empty block at the requested height on top of the last header hash, the header
is marshalled to its height, the signer prefixes a zero, the gossip passes. -/
def produceEnvOk : ProduceEnv :=
  { headerHash := fun h => [h.height, 1]
    createBlock := fun h lc lhh _ =>
      { header := { height := h, chainId := [7], appHash := zeroHash, lastHeaderHash := lhh,
                    dataHash := zeroHash },
        txs := [], lastCommit := lc }
    marshalHeader := fun h => .ok [h.height]
    sign := fun bytes => .ok (0 :: bytes)
    gossip := { marshalBinary := fun b c => .ok [b.header.height, c.height]
                gossipBlock := fun _ => none }
    apply := envOk }

/-- A manager at height 1 (initial height 1) whose store holds blocks and
commits 1 and 2: block 2 is pending, saved but not yet applied. -/
def managerPending : Manager :=
  { managerAt 1 1 with
    store :=
      { emptyStore 1 with
        blocks := fun h => if 1 ≤ h ∧ h ≤ 2 then some (blockAt h) else none
        commits := fun h => if 1 ≤ h ∧ h ≤ 2 then some (commitAt h) else none } }

/-- A manager at height 1 whose store holds the pending block and commit 2 but
no commit at height 1. -/
def managerPendingNoLast : Manager :=
  { managerAt 1 1 with
    store :=
      { emptyStore 1 with
        blocks := fun h => if h = 2 then some (blockAt h) else none
        commits := fun h => if h = 2 then some (commitAt h) else none } }

/-- The producer's collaborators with a p2p publish that fails. -/
def produceEnvGossipFails : ProduceEnv :=
  { produceEnvOk with
    gossip := { marshalBinary := fun b c => .ok [b.header.height, c.height]
                gossipBlock := fun _ => some (.fail 9) } }

/-- For `n` successive calls of `produceBlock`, whether each spawned the batch
submitter. -/
def produceSpawns (env : ProduceEnv) : Nat → Manager → List Bool
  | 0, _ => []
  | n + 1, m =>
    (produceBlock env m).calls.contains .spawnSubmitNextBatch ::
      produceSpawns env n (produceBlock env m).m

/-- A producer at store height 0 whose sync target is already 5 (the SL is
ahead of the node), batch size 3, no batch in process. -/
def managerBehind : Manager := { managerAt 0 1 with syncTarget := 5 }

/-- A submitter environment in which the DA and the SL accept at once. -/
def submitEnvOk : SubmitEnv :=
  { fuel := 100
    daResults := fun _ => [{ code := .success, message := [], daHeight := 1 }]
    slResults := fun _ _ => [{ code := .success, message := [] }] }

/-- A store that holds one block and one commit, at the largest `uint64`. -/
def managerAtLargestHeight : Manager :=
  { managerAt 0 1 with
    store :=
      { emptyStore 0 with
        blocks := fun h => if h = 18446744073709551615 then some (blockAt h) else none
        commits := fun h => if h = 18446744073709551615 then some (commitAt h) else none } }

/-- Scenario S1 as steps: three blocks produced, the submitter spawned at the
third runs to its end, the SL accepts the batch of end height 3, one more block
is produced. -/
def coldStartEvents : List Event :=
  [.produce produceEnvOk, .produce produceEnvOk, .produce produceEnvOk,
    .submitterRuns submitEnvOk, .accepted 3, .produce produceEnvOk]

/-- Three blocks produced and the submitter spawned at the third still running
when an acceptance event of end height 3 is handled: the SL has accepted a
batch that is not this submitter's, which has not submitted yet. Then three more
blocks are produced and both submitters run. -/
def earlyAcceptanceEvents : List Event :=
  [.produce produceEnvOk, .produce produceEnvOk, .produce produceEnvOk, .accepted 3,
    .produce produceEnvOk, .produce produceEnvOk, .produce produceEnvOk,
    .submitterRuns submitEnvOk, .submitterRuns submitEnvOk]

/-- A manager whose sync target is 10, at store height 0. -/
def managerTargetTen : Manager := { managerAt 0 1 with syncTarget := 10 }

/-- Assumption on the executor (package `state`, not part of the sources):
`ApplyBlock` and `Commit` hand back the SL state index of the state they are
given. -/
def ApplyEnv.keepsIndex (env : ApplyEnv) : Prop :=
  (∀ s b c s2 r, env.execApplyBlock s b c = .ok (s2, r) → s2.slStateIndex = s.slStateIndex) ∧
    (∀ s b r s2, env.execCommit s b r = .ok s2 → s2.slStateIndex = s.slStateIndex)

/-- The blocks `lo + 1` to `lo + n` with their commits, as one batch. -/
def batchOfHeights (lo n : Nat) : Batch :=
  { startHeight := lo + 1, endHeight := lo + n
    blocks := (List.range n).map (fun i => blockAt (lo + 1 + i))
    commits := (List.range n).map (fun i => commitAt (lo + 1 + i)) }

/-- Scenario S2: the SL holds batch 1 (blocks 1 to 5, DA height 1) and batch 2
(blocks 6 to 10, DA height 2); the DA returns them; every apply succeeds. -/
def syncEnvTwoBatches : SyncEnv :=
  { retrieveBatch := fun index =>
      if index = 1 then .ok { startHeight := 1, endHeight := 5, stateIndex := 1, daHeight := 1 }
      else if index = 2 then
        .ok { startHeight := 6, endHeight := 10, stateIndex := 2, daHeight := 2 }
      else .error .batchNotFound
    da :=
      { retrieveBatches := fun daHeight =>
          if daHeight = 1 then { code := .success, message := [], batches := [batchOfHeights 0 5] }
          else if daHeight = 2 then
            { code := .success, message := [], batches := [batchOfHeights 5 5] }
          else { code := .error, message := [], batches := [] }
        apply := fun _ => envOk }
    updateState := none }

/-- Scenario S4: as `syncEnvTwoBatches`, with a DA that times out. -/
def syncEnvTimeout : SyncEnv :=
  { syncEnvTwoBatches with
    da := { retrieveBatches := fun _ => { code := .timeout, message := [], batches := [] }
            apply := fun _ => envOk } }

/-! ## The DA batches as one sequence of pairs -/

/-- The blocks of the batches, in order, each paired with the commit at the
same index of its batch. -/
def batchPairs : List Batch → List (Block × Commit)
  | [] => []
  | batch :: rest => batch.blocks.zip batch.commits ++ batchPairs rest

/-- Specification of `process_next_da_batch` after the fetch, in the spec's
words: call `applyBlock` on the pairs in order, the `k`-th call in the `k`-th
environment, and stop at the first error. -/
def applyInOrder (env : Nat → ApplyEnv) : List (Block × Commit) → Nat → Manager → Outcome
  | [], _, m => ⟨m, [], none⟩
  | (block, commit) :: rest, k, m =>
    match (applyBlock (env k) m block commit).err with
    | some e =>
      ⟨(applyBlock (env k) m block commit).m,
        .applyBlock block commit :: (applyBlock (env k) m block commit).calls, some e⟩
    | none =>
      ⟨(applyInOrder env rest (k + 1) (applyBlock (env k) m block commit).m).m,
        .applyBlock block commit :: (applyBlock (env k) m block commit).calls ++
          (applyInOrder env rest (k + 1) (applyBlock (env k) m block commit).m).calls,
        (applyInOrder env rest (k + 1) (applyBlock (env k) m block commit).m).err⟩

/-- The pairs handed to `applyBlock`, in the order of the calls. -/
def appliedPairs : List Call → List (Block × Commit)
  | [] => []
  | .applyBlock block commit :: rest => (block, commit) :: appliedPairs rest
  | _ :: rest => appliedPairs rest

/-- A DA answer with two batches: blocks 6, 7 and blocks 8, 9 with their
commits. -/
def daEnvTwoBatches : DAEnv :=
  { retrieveBatches := fun _ =>
      { code := .success, message := [], batches := [batchOfHeights 5 2, batchOfHeights 7 2] }
    apply := fun k => if k = 2 then { envOk with saveBlock := some (.fail 8) } else envOk }

/-! ## Genesis chunks (`node/node.go`) -/

/-- A Go `string`: a sequence of bytes. -/
abbrev GoString := Bytes

/-- The constant `genesisChunkSize`: 16 MiB. -/
def genesisChunkSize : Nat := 16 * 1024 * 1024

/-- The fields of `tmtypes.GenesisDoc` used here. -/
structure GenesisDoc where
  chainId : Bytes
  initialHeight : Int
  appState : Bytes
deriving DecidableEq, Repr

/-- The two fields of `Node` that `initGenesisChunks` reads and writes. Only
`initGenesisChunks` writes `genChunks`, by appending, so a nil slice is the empty
list. -/
structure Node where
  genesis : Option GenesisDoc
  genChunks : List GoString
deriving DecidableEq, Repr

/-- The standard library's `base64.StdEncoding`: `EncodeToString` and
`DecodeString`. -/
structure Codec where
  encodeToString : Bytes → GoString
  decodeString : GoString → Option Bytes

/-- The Go slice expression `data[i:j]`. -/
def sliceBytes (data : Bytes) (i j : Nat) : Bytes := (data.take j).drop i

/-- The loop `for i := 0; i < len(data); i += genesisChunkSize` of
`initGenesisChunks`, from offset `i`, with the chunks appended so far; `size` is
`genesisChunkSize`. `fuel` bounds the number of iterations. The offsets are
indices into `data`, so the `int` additions do not wrap. -/
def initGenesisChunks.loop (codec : Codec) (size : Nat) (data : Bytes) :
    Nat → Nat → List GoString → List GoString
  | 0, _, genChunks => genChunks
  | fuel + 1, i, genChunks =>
    if i < data.length then
      let end0 := i + size
      let end1 := if end0 > data.length then data.length else end0
      initGenesisChunks.loop codec size data fuel (i + size)
        (genChunks ++ [codec.encodeToString (sliceBytes data i end1)])
    else genChunks

/-- The method `Node.initGenesisChunks`; `marshal` is `json.Marshal` on the
genesis document. The loop is given `len(data)` iterations, which it never
uses up, its step being positive. -/
def initGenesisChunks (codec : Codec) (marshal : GenesisDoc → Except Err Bytes) (n : Node) :
    Node × Option Err :=
  if n.genChunks ≠ [] then (n, none)
  else
    match n.genesis with
    | none => (n, none)
    | some genesis =>
      match marshal genesis with
      | .error e => (n, some e)
      | .ok data =>
        ({ n with
           genChunks :=
             initGenesisChunks.loop codec genesisChunkSize data data.length 0 n.genChunks },
          none)

/-- The method `Node.GetGenesisChunks`. -/
def GetGenesisChunks (codec : Codec) (marshal : GenesisDoc → Except Err Bytes) (n : Node) :
    Node × Except Err (List GoString) :=
  match initGenesisChunks codec marshal n with
  | (n2, some e) => (n2, .error e)
  | (n2, none) => (n2, .ok n2.genChunks)

/-- The slices `data[i:end]` the loop of `initGenesisChunks` encodes, from
offset `i` on. -/
def initGenesisChunks.slices (size : Nat) (data : Bytes) : Nat → Nat → List Bytes
  | 0, _ => []
  | fuel + 1, i =>
    if i < data.length then
      sliceBytes data i (if i + size > data.length then data.length else i + size) ::
        initGenesisChunks.slices size data fuel (i + size)
    else []

/-- The character of a 6-bit value in the standard base64 alphabet. -/
def base64Char (v : Nat) : Nat :=
  if v < 26 then 65 + v
  else if v < 52 then 97 + (v - 26)
  else if v < 62 then 48 + (v - 52)
  else if v = 62 then 43
  else 47

/-- The 6-bit value of a character of the standard base64 alphabet. -/
def base64Value (c : Nat) : Option Nat :=
  if 65 ≤ c ∧ c ≤ 90 then some (c - 65)
  else if 97 ≤ c ∧ c ≤ 122 then some (c - 97 + 26)
  else if 48 ≤ c ∧ c ≤ 57 then some (c - 48 + 52)
  else if c = 43 then some 62
  else if c = 47 then some 63
  else none

/-- Standard base64 encoding with padding (RFC 4648), as `base64.StdEncoding`;
used to run the examples. -/
def base64Encode : Bytes → GoString
  | a :: b :: c :: rest =>
    base64Char (a / 4) :: base64Char (a % 4 * 16 + b / 16) ::
      base64Char (b % 16 * 4 + c / 64) :: base64Char (c % 64) :: base64Encode rest
  | [a, b] => [base64Char (a / 4), base64Char (a % 4 * 16 + b / 16), base64Char (b % 16 * 4), 61]
  | [a] => [base64Char (a / 4), base64Char (a % 4 * 16), 61, 61]
  | [] => []

/-- Standard base64 decoding with padding; used to run the examples. -/
def base64Decode : GoString → Option Bytes
  | [] => some []
  | w :: x :: y :: z :: rest =>
    match base64Value w, base64Value x with
    | some v0, some v1 =>
      if y = 61 ∧ z = 61 ∧ rest = [] then some [v0 * 4 + v1 / 16]
      else
        match base64Value y with
        | none => none
        | some v2 =>
          if z = 61 ∧ rest = [] then some [v0 * 4 + v1 / 16, v1 % 16 * 16 + v2 / 4]
          else
            match base64Value z, base64Decode rest with
            | some v3, some tail =>
              some ((v0 * 4 + v1 / 16) :: (v1 % 16 * 16 + v2 / 4) :: (v2 % 4 * 64 + v3) :: tail)
            | _, _ => none
    | _, _ => none
  | _ => none

/-- The codec of the examples. -/
def base64Codec : Codec := { encodeToString := base64Encode, decodeString := base64Decode }

/-- A genesis document of the examples. -/
def genesisExample : GenesisDoc :=
  { chainId := [100, 121, 109, 105, 110, 116], initialHeight := 1, appState := [] }

/-- The 21 bytes of `{"chain_id":"dymint"}`, taken as the JSON encoding of
`genesisExample` in the examples. -/
def genesisJson : Bytes :=
  [123, 34, 99, 104, 97, 105, 110, 95, 105, 100, 34, 58, 34, 100, 121, 109, 105, 110, 116, 34, 125]

/-- A node as `NewNode` leaves it: the genesis document set, no chunk cached. -/
def nodeExample : Node := { genesis := some genesisExample, genChunks := [] }

/-- A DA answer whose batch has a block and no commit. -/
def daEnvMissingCommit : DAEnv :=
  { retrieveBatches := fun _ =>
      { code := .success, message := [],
        batches := [{ startHeight := 6, endHeight := 6, blocks := [blockAt 6], commits := [] }] }
    apply := fun _ => envOk }

/-! ## Lemmas on `applyBlock` -/

theorem commitBatch_height (s : Store) (w1 w2 w3 : Write) :
    (s.commitBatch [w1, w2, w3]).height = s.height := by
  cases w1 <;> cases w2 <;> cases w3 <;> rfl

theorem commitBatch_blocks (s : Store) (w1 w2 w3 : Write) :
    (s.commitBatch [w1, w2, w3]).blocks = s.blocks := by
  cases w1 <;> cases w2 <;> cases w3 <;> rfl

theorem commitBatch_commits (s : Store) (w1 w2 w3 : Write) :
    (s.commitBatch [w1, w2, w3]).commits = s.commits := by
  cases w1 <;> cases w2 <;> cases w3 <;> rfl

/-- Below the guard `applyBlock` does nothing. -/
theorem applyBlock_of_le (env : ApplyEnv) (m : Manager) (block : Block) (commit : Commit)
    (h : block.header.height ≤ m.store.height) :
    applyBlock env m block commit = ⟨m, [], none⟩ := by
  unfold applyBlock
  rw [if_neg (Nat.not_lt.mpr h)]

/-- The store height after `applyBlock`: unchanged, or the block's height after
a successful apply of a block above the store height. -/
theorem applyBlock_height_cases (env : ApplyEnv) (m : Manager) (block : Block)
    (commit : Commit) :
    ((applyBlock env m block commit).m.store.height = m.store.height ∧
        ((applyBlock env m block commit).err = none → block.header.height ≤ m.store.height)) ∨
      (m.store.height < block.header.height ∧ (applyBlock env m block commit).err = none ∧
        (applyBlock env m block commit).m.store.height = block.header.height) := by
  by_cases hg : block.header.height > m.store.height
  · cases h1 : env.saveBlock with
    | some e => left; simp [applyBlock, hg, h1]
    | none =>
      cases h2 : env.execApplyBlock m.lastState block commit with
      | error e => left; simp [applyBlock, hg, h1, h2, Store.saveBlock]
      | ok p =>
        obtain ⟨s0, r⟩ := p
        cases h3 : env.execCommit s0 block r with
        | error e => left; simp [applyBlock, hg, h1, h2, h3, Store.saveBlock]
        | ok s1 =>
          cases h4 : env.saveBlockResponses with
          | some e => left; simp [applyBlock, hg, h1, h2, h3, h4, Store.saveBlock]
          | none =>
            cases h5 : env.updateState with
            | some e => left; simp [applyBlock, hg, h1, h2, h3, h4, h5, Store.saveBlock]
            | none =>
              cases h6 : env.saveValidators with
              | some e => left; simp [applyBlock, hg, h1, h2, h3, h4, h5, h6, Store.saveBlock]
              | none =>
                cases h7 : env.batchCommit with
                | some e =>
                  left; simp [applyBlock, hg, h1, h2, h3, h4, h5, h6, h7, Store.saveBlock]
                | none =>
                  right
                  simp [applyBlock, hg, h1, h2, h3, h4, h5, h6, h7, Store.setHeight]
  · left
    rw [applyBlock_of_le env m block commit (Nat.not_lt.mp hg)]
    exact ⟨rfl, fun _ => Nat.not_lt.mp hg⟩

/-- The state a successful `applyBlock` of a block above the store height
leaves: the block and commit saved, the write-batch committed, the executor's
new state installed and the height set. -/
theorem applyBlock_success (env : ApplyEnv) (m : Manager) (block : Block) (commit : Commit)
    (hg : m.store.height < block.header.height)
    (hok : (applyBlock env m block commit).err = none) :
    ∃ s0 r s1, env.execApplyBlock m.lastState block commit = .ok (s0, r) ∧
      env.execCommit s0 block r = .ok s1 ∧
      (applyBlock env m block commit).m =
        { m with
          lastState := s1
          store := (((m.store.saveBlock block commit).commitBatch
            [.responses block.header.height r, .state s1,
              .validators block.header.height s1.validators]).setHeight block.header.height) } := by
  have hg2 : block.header.height > m.store.height := hg
  cases h1 : env.saveBlock with
  | some e => simp [applyBlock, hg2, h1] at hok
  | none =>
    cases h2 : env.execApplyBlock m.lastState block commit with
    | error e => simp [applyBlock, hg2, h1, h2] at hok
    | ok p =>
      obtain ⟨s0, r⟩ := p
      cases h3 : env.execCommit s0 block r with
      | error e => simp [applyBlock, hg2, h1, h2, h3] at hok
      | ok s1 =>
        cases h4 : env.saveBlockResponses with
        | some e => simp [applyBlock, hg2, h1, h2, h3, h4] at hok
        | none =>
          cases h5 : env.updateState with
          | some e => simp [applyBlock, hg2, h1, h2, h3, h4, h5] at hok
          | none =>
            cases h6 : env.saveValidators with
            | some e => simp [applyBlock, hg2, h1, h2, h3, h4, h5, h6] at hok
            | none =>
              cases h7 : env.batchCommit with
              | some e => simp [applyBlock, hg2, h1, h2, h3, h4, h5, h6, h7] at hok
              | none =>
                refine ⟨s0, r, s1, rfl, h3, ?_⟩
                simp [applyBlock, hg2, h1, h2, h3, h4, h5, h6, h7]

/-- After a successful `applyBlock` of a block above the store height, the
store serves exactly the block's height in addition to what it served. -/
theorem applyBlock_success_serves (env : ApplyEnv) (m : Manager) (block : Block)
    (commit : Commit) (hg : m.store.height < block.header.height)
    (hok : (applyBlock env m block commit).err = none) (h : Nat) :
    (applyBlock env m block commit).m.store.serves h =
      if h = block.header.height then true else m.store.serves h := by
  obtain ⟨s0, r, s1, _, _, hm⟩ := applyBlock_success env m block commit hg hok
  rw [hm]
  by_cases hh : h = block.header.height
  · subst hh
    simp [Store.serves, Store.loadBlock, Store.loadCommit, Store.setHeight, Store.saveBlock,
      commitBatch_blocks, commitBatch_commits]
  · simp [Store.serves, Store.loadBlock, Store.loadCommit, Store.setHeight, Store.saveBlock,
      commitBatch_blocks, commitBatch_commits, hh]

theorem applyBlock_height_le (env : ApplyEnv) (m : Manager) (block : Block) (commit : Commit) :
    m.store.height ≤ (applyBlock env m block commit).m.store.height := by
  rcases applyBlock_height_cases env m block commit with ⟨h, _⟩ | ⟨hg, _, h⟩
  · exact Nat.le_of_eq h.symm
  · rw [h]; exact Nat.le_of_lt hg

theorem applyBlock_calls_kind (env : ApplyEnv) (m : Manager) (block : Block)
    (commit : Commit) :
    ∀ x ∈ (applyBlock env m block commit).calls, x.isStoreOrExecutor = true := by
  by_cases hg : block.header.height > m.store.height
  · cases h1 : env.saveBlock with
    | some e => simp [applyBlock, hg, h1, Call.isStoreOrExecutor]
    | none =>
      cases h2 : env.execApplyBlock m.lastState block commit with
      | error e => simp [applyBlock, hg, h1, h2, Call.isStoreOrExecutor]
      | ok p =>
        obtain ⟨s0, r⟩ := p
        cases h3 : env.execCommit s0 block r with
        | error e => simp [applyBlock, hg, h1, h2, h3, Call.isStoreOrExecutor]
        | ok s1 =>
          cases h4 : env.saveBlockResponses with
          | some e => simp [applyBlock, hg, h1, h2, h3, h4, Call.isStoreOrExecutor]
          | none =>
            cases h5 : env.updateState with
            | some e => simp [applyBlock, hg, h1, h2, h3, h4, h5, Call.isStoreOrExecutor]
            | none =>
              cases h6 : env.saveValidators with
              | some e => simp [applyBlock, hg, h1, h2, h3, h4, h5, h6, Call.isStoreOrExecutor]
              | none =>
                cases h7 : env.batchCommit with
                | some e =>
                  simp [applyBlock, hg, h1, h2, h3, h4, h5, h6, h7, Call.isStoreOrExecutor]
                | none =>
                  simp [applyBlock, hg, h1, h2, h3, h4, h5, h6, h7, Call.isStoreOrExecutor]
  · rw [applyBlock_of_le env m block commit (Nat.not_lt.mp hg)]
    intro x hx
    cases hx

/-! ## Lemmas on the producer and on the sync path -/

theorem gossipBlock_m (env : GossipEnv) (m : Manager) (block : Block) (commit : Commit) :
    (gossipBlock env m block commit).m = m := by
  unfold gossipBlock
  split
  · rfl
  · split <;> rfl

theorem publish_height_le (env : ProduceEnv) (m : Manager) (block : Block) (commit : Commit) :
    m.store.height ≤ (produceBlock.publish env m block commit).m.store.height := by
  have ha := applyBlock_height_le env.apply m block commit
  unfold produceBlock.publish
  simp only [gossipBlock_m]
  split
  · exact Nat.le_refl _
  · split
    · exact ha
    · split
      · exact ha
      · exact ha

theorem produceBlock_height_le (env : ProduceEnv) (m : Manager) :
    m.store.height ≤ (produceBlock env m).m.store.height := by
  unfold produceBlock
  split
  · exact Nat.le_refl _
  · split
    · exact Nat.le_refl _
    · exact publish_height_le env m _ _

theorem blocks_height_le (env : DAEnv) (commits : List Commit) (blocks : List Block) :
    ∀ (i k : Nat) (m : Manager),
      m.store.height ≤
        (processNextDABatch.blocks env commits blocks i k m).1.m.store.height := by
  induction blocks with
  | nil => intro i k m; exact Nat.le_refl _
  | cons block rest ih =>
    intro i k m
    unfold processNextDABatch.blocks
    split
    · exact Nat.le_refl _
    · rename_i commit _
      have ha := applyBlock_height_le (env.apply k) m block commit
      dsimp only
      split
      · exact ha
      · exact Nat.le_trans ha (ih (i + 1) (k + 1) _)

theorem batches_height_le (env : DAEnv) (batches : List Batch) :
    ∀ (k : Nat) (m : Manager),
      m.store.height ≤ (processNextDABatch.batches env batches k m).m.store.height := by
  induction batches with
  | nil => intro k m; exact Nat.le_refl _
  | cons batch rest ih =>
    intro k m
    have hb := blocks_height_le env batch.commits batch.blocks 0 k m
    unfold processNextDABatch.batches
    dsimp only
    split
    · exact hb
    · exact Nat.le_trans hb (ih _ _)

theorem processNextDABatch_height_le (env : DAEnv) (m : Manager) (daHeight : Nat) :
    m.store.height ≤ (processNextDABatch env m daHeight).m.store.height := by
  unfold processNextDABatch
  split
  · exact Nat.le_refl _
  · exact batches_height_le env _ 0 m

theorem updateStateIndex_height (u : Option Err) (m : Manager) (stateIndex : Nat) :
    (updateStateIndex u m stateIndex).m.store.height = m.store.height := by
  unfold updateStateIndex
  split <;> rfl

theorem syncLoop_height_le (syncTarget : Nat) (envs : List SyncEnv) :
    ∀ (m : Manager) (currentHeight : Nat),
      m.store.height ≤
        (syncUntilTarget.loop syncTarget envs m currentHeight).m.store.height := by
  induction envs with
  | nil =>
    intro m currentHeight
    unfold syncUntilTarget.loop
    split <;> exact Nat.le_refl _
  | cons e rest ih =>
    intro m currentHeight
    unfold syncUntilTarget.loop
    split
    · dsimp only
      split
      · exact ih m currentHeight
      · rename_i res _
        have hp := processNextDABatch_height_le e.da m res.daHeight
        have hu := updateStateIndex_height e.updateState
          (processNextDABatch e.da m res.daHeight).m res.stateIndex
        split
        · exact hp
        · exact hp
        · split
          · rw [hu]; exact hp
          · exact Nat.le_trans (Nat.le_trans hp (Nat.le_of_eq hu.symm)) (ih _ _)
    · exact Nat.le_refl _

/-- The three ways `produceBlock` runs: the load of the last commit or block
fails, the selection of the block fails, or the selected pair is published. -/
theorem produceBlock_cases (env : ProduceEnv) (m : Manager) :
    (∃ e t1, produceBlock.loadLast env m = (.error e, t1) ∧
        produceBlock env m = ⟨m, t1, some e⟩) ∨
      (∃ lc lhh t1 e t2, produceBlock.loadLast env m = (.ok (lc, lhh), t1) ∧
        produceBlock.selectBlock env m lc lhh = (.error e, t2) ∧
        produceBlock env m = ⟨m, t1 ++ t2, some e⟩) ∨
      (∃ lc lhh t1 b c t2, produceBlock.loadLast env m = (.ok (lc, lhh), t1) ∧
        produceBlock.selectBlock env m lc lhh = (.ok (b, c), t2) ∧
        produceBlock env m =
          ⟨(produceBlock.publish env m b c).m, t1 ++ t2 ++ (produceBlock.publish env m b c).calls,
            (produceBlock.publish env m b c).err⟩) := by
  unfold produceBlock
  rcases h1 : produceBlock.loadLast env m with ⟨r1, t1⟩
  rcases r1 with e | ⟨lc, lhh⟩
  · left; exact ⟨e, t1, rfl, rfl⟩
  · right
    rcases h2 : produceBlock.selectBlock env m lc lhh with ⟨r2, t2⟩
    rcases r2 with e | ⟨b, c⟩
    · left; exact ⟨lc, lhh, t1, e, t2, rfl, by simp [h2]⟩
    · right; exact ⟨lc, lhh, t1, b, c, t2, rfl, by simp [h2]⟩

/-- The loads of the first part of `produceBlock` are loads at the store
height. -/
theorem loadLast_calls (env : ProduceEnv) (m : Manager) :
    ∀ x ∈ (produceBlock.loadLast env m).2,
      x = .loadCommit m.store.height ∨ x = .loadBlock m.store.height := by
  unfold produceBlock.loadLast
  dsimp only
  split
  · simp
  · split
    · simp
    · split <;> simp

/-- What the first part of `produceBlock` returns on success. -/
theorem loadLast_ok (env : ProduceEnv) (m : Manager) (lc : Commit) (lhh : Hash)
    (t1 : List Call) (h : produceBlock.loadLast env m = (.ok (lc, lhh), t1)) :
    (addU64 m.store.height 1 = toUint64 m.initialHeight ∧
        lc = { height := m.store.height, headerHash := zeroHash, signatures := [] } ∧
        lhh = zeroHash) ∨
      (addU64 m.store.height 1 ≠ toUint64 m.initialHeight ∧
        m.store.loadCommit m.store.height = .ok lc ∧
        ∃ lb, m.store.loadBlock m.store.height = .ok lb ∧ lhh = env.headerHash lb.header) := by
  unfold produceBlock.loadLast at h
  dsimp only at h
  by_cases hi : addU64 m.store.height 1 = toUint64 m.initialHeight
  · rw [if_pos hi] at h
    left
    simp only [Prod.mk.injEq, Except.ok.injEq] at h
    exact ⟨hi, h.1.1.symm, h.1.2.symm⟩
  · rw [if_neg hi] at h
    right
    cases hc : m.store.loadCommit m.store.height with
    | error e => simp [hc] at h
    | ok c0 =>
      cases hb : m.store.loadBlock m.store.height with
      | error e => simp [hc, hb] at h
      | ok lb =>
        simp only [hc, hb, Prod.mk.injEq, Except.ok.injEq] at h
        exact ⟨hi, by rw [h.1.1], lb, rfl, h.1.2.symm⟩

/-- What the first part of `produceBlock` returns on failure. -/
theorem loadLast_error (env : ProduceEnv) (m : Manager) (e : Err) (t1 : List Call)
    (h : produceBlock.loadLast env m = (.error e, t1)) :
    addU64 m.store.height 1 ≠ toUint64 m.initialHeight ∧
      ((∃ e0, m.store.loadCommit m.store.height = .error e0 ∧ e = .lastCommitLoad e0) ∨
        (∃ e0, m.store.loadBlock m.store.height = .error e0 ∧ e = .lastBlockLoad e0)) := by
  unfold produceBlock.loadLast at h
  dsimp only at h
  by_cases hi : addU64 m.store.height 1 = toUint64 m.initialHeight
  · rw [if_pos hi] at h
    simp at h
  · rw [if_neg hi] at h
    refine ⟨hi, ?_⟩
    cases hc : m.store.loadCommit m.store.height with
    | error e0 =>
      simp only [hc, Prod.mk.injEq, Except.error.injEq] at h
      exact Or.inl ⟨e0, rfl, h.1.symm⟩
    | ok c0 =>
      cases hb : m.store.loadBlock m.store.height with
      | error e0 =>
        simp only [hc, hb, Prod.mk.injEq, Except.error.injEq] at h
        exact Or.inr ⟨e0, rfl, h.1.symm⟩
      | ok lb => simp [hc, hb] at h

/-- The second part of `produceBlock` when the store has a block at the new
height: that block with the commit stored at the same height, after two loads
and nothing else. -/
theorem selectBlock_pending (env : ProduceEnv) (m : Manager) (lc : Commit) (lhh : Hash)
    (pending : Block) (hp : m.store.loadBlock (addU64 m.store.height 1) = .ok pending) :
    (∀ e, m.store.loadCommit (addU64 m.store.height 1) = .error e →
        produceBlock.selectBlock env m lc lhh =
          (.error e, [.loadBlock (addU64 m.store.height 1),
            .loadCommit (addU64 m.store.height 1)])) ∧
      (∀ c, m.store.loadCommit (addU64 m.store.height 1) = .ok c →
        produceBlock.selectBlock env m lc lhh =
          (.ok (pending, c), [.loadBlock (addU64 m.store.height 1),
            .loadCommit (addU64 m.store.height 1)])) := by
  constructor
  · intro e he
    simp [produceBlock.selectBlock, hp, he]
  · intro c hc
    simp [produceBlock.selectBlock, hp, hc]

/-- The second part of `produceBlock` when the store has no block at the new
height: the block is the executor's, the commit carries the block's height,
the header hash and the one signature of the marshalled header. -/
theorem selectBlock_created (env : ProduceEnv) (m : Manager) (lc : Commit) (lhh : Hash)
    (e0 : Err) (hp : m.store.loadBlock (addU64 m.store.height 1) = .error e0)
    (b : Block) (c : Commit) (t2 : List Call)
    (h : produceBlock.selectBlock env m lc lhh = (.ok (b, c), t2)) :
    b = env.createBlock (addU64 m.store.height 1) lc lhh m.lastState ∧
      ∃ bytes sig, env.marshalHeader b.header = .ok bytes ∧ env.sign bytes = .ok sig ∧
        c = { height := b.header.height, headerHash := env.headerHash b.header,
              signatures := [sig] } ∧
        t2 = [.loadBlock (addU64 m.store.height 1),
          .createBlock (addU64 m.store.height 1) lc lhh m.lastState,
          .marshalHeader b.header, .sign bytes] := by
  unfold produceBlock.selectBlock at h
  simp only [hp] at h
  cases hm : env.marshalHeader
      (env.createBlock (addU64 m.store.height 1) lc lhh m.lastState).header with
  | error e => simp [hm] at h
  | ok bytes =>
    cases hs : env.sign bytes with
    | error e => simp [hm, hs] at h
    | ok sig =>
      simp only [hm, hs, Prod.mk.injEq, Except.ok.injEq] at h
      obtain ⟨⟨hb, hc⟩, ht⟩ := h
      subst hb
      exact ⟨rfl, bytes, sig, hm, hs, hc.symm, by simpa using ht.symm⟩

/-- Every `CreateBlock` call of the second part of `produceBlock` is at the new
height, with the last commit, last header hash and state it was given. -/
theorem selectBlock_createBlock_call (env : ProduceEnv) (m : Manager) (lc : Commit)
    (lhh : Hash) (h : Nat) (lc1 : Commit) (lhh1 : Hash) (st : State)
    (hx : Call.createBlock h lc1 lhh1 st ∈ (produceBlock.selectBlock env m lc lhh).2) :
    h = addU64 m.store.height 1 ∧ lc1 = lc ∧ lhh1 = lhh ∧ st = m.lastState := by
  unfold produceBlock.selectBlock at hx
  dsimp only at hx
  split at hx
  · split at hx <;> simp at hx
  · split at hx
    · simpa using hx
    · split at hx <;> simpa using hx

/-- The calls of the second part of `produceBlock` are loads, the creation of a
block and the signing of its header. -/
theorem selectBlock_calls_kind (env : ProduceEnv) (m : Manager) (lc : Commit) (lhh : Hash) :
    ∀ x ∈ (produceBlock.selectBlock env m lc lhh).2,
      x.isLoad = true ∨ x.isCreateOrSign = true := by
  unfold produceBlock.selectBlock
  dsimp only
  split
  · split <;> simp [Call.isLoad]
  · split
    · simp [Call.isLoad, Call.isCreateOrSign]
    · split <;> simp [Call.isLoad, Call.isCreateOrSign]

theorem gossipBlock_calls (env : GossipEnv) (m : Manager) (block : Block) (commit : Commit) :
    (gossipBlock env m block commit).calls = [.marshalGossip block commit] ∨
      ∃ bytes, env.marshalBinary block commit = .ok bytes ∧
        (gossipBlock env m block commit).calls = [.marshalGossip block commit, .gossip bytes] := by
  unfold gossipBlock
  split
  · left; rfl
  · rename_i bytes hb
    right
    refine ⟨bytes, hb, ?_⟩
    split <;> rfl

/-- When the gossip fails, the last part of `produceBlock` returns the gossip
error, with the manager untouched and no call besides those of the gossip. -/
theorem publish_gossip_error (env : ProduceEnv) (m : Manager) (block : Block)
    (commit : Commit) (e : Err) (h : (gossipBlock env.gossip m block commit).err = some e) :
    produceBlock.publish env m block commit =
      ⟨m, (gossipBlock env.gossip m block commit).calls, some e⟩ := by
  unfold produceBlock.publish
  simp [h, gossipBlock_m]

/-- When the gossip succeeds, the last part of `produceBlock` applies the pair:
its calls are those of the gossip, the hand-off to `applyBlock`, the calls of
`applyBlock`, and possibly the spawn of the submitter; store and `lastState`
are those `applyBlock` leaves, and so is the error. -/
theorem publish_gossip_ok (env : ProduceEnv) (m : Manager) (block : Block)
    (commit : Commit) (h : (gossipBlock env.gossip m block commit).err = none) :
    (∃ post, (post = [] ∨ post = [Call.spawnSubmitNextBatch]) ∧
        (produceBlock.publish env m block commit).calls =
          (gossipBlock env.gossip m block commit).calls ++ [.applyBlock block commit] ++
            (applyBlock env.apply m block commit).calls ++ post) ∧
      (produceBlock.publish env m block commit).m.store =
        (applyBlock env.apply m block commit).m.store ∧
      (produceBlock.publish env m block commit).m.lastState =
        (applyBlock env.apply m block commit).m.lastState ∧
      (produceBlock.publish env m block commit).err =
        (applyBlock env.apply m block commit).err := by
  unfold produceBlock.publish
  simp only [h, gossipBlock_m]
  cases ha : (applyBlock env.apply m block commit).err with
  | some e => exact ⟨⟨[], Or.inl rfl, by simp⟩, rfl, rfl, rfl⟩
  | none =>
    dsimp only
    split
    · exact ⟨⟨[.spawnSubmitNextBatch], Or.inr rfl, rfl⟩, rfl, rfl, rfl⟩
    · exact ⟨⟨[], Or.inl rfl, by simp⟩, rfl, rfl, rfl⟩

/-- The calls of the last part of `produceBlock` are the gossip of the pair,
its application, store and executor calls, and the spawn of the submitter. -/
theorem publish_calls_kind (env : ProduceEnv) (m : Manager) (block : Block)
    (commit : Commit) :
    ∀ x ∈ (produceBlock.publish env m block commit).calls,
      x = .marshalGossip block commit ∨ (∃ bytes, x = .gossip bytes) ∨
        x = .applyBlock block commit ∨ x.isStoreOrExecutor = true ∨
        x = .spawnSubmitNextBatch := by
  intro x hx
  have hg := gossipBlock_calls env.gossip m block commit
  have hgx : ∀ y ∈ (gossipBlock env.gossip m block commit).calls,
      y = .marshalGossip block commit ∨ ∃ bytes, y = .gossip bytes := by
    intro y hy
    rcases hg with hg | ⟨bytes, _, hg⟩
    · rw [hg] at hy; simp at hy; exact Or.inl hy
    · rw [hg] at hy; simp at hy
      rcases hy with hy | hy
      · exact Or.inl hy
      · exact Or.inr ⟨bytes, hy⟩
  cases hge : (gossipBlock env.gossip m block commit).err with
  | some e =>
    rw [publish_gossip_error env m block commit e hge] at hx
    rcases hgx x hx with h1 | h1
    · exact Or.inl h1
    · exact Or.inr (Or.inl h1)
  | none =>
    obtain ⟨⟨post, hpost, hcalls⟩, _, _, _⟩ := publish_gossip_ok env m block commit hge
    rw [hcalls] at hx
    simp only [List.mem_append, List.mem_singleton] at hx
    rcases hx with ((hx | hx) | hx) | hx
    · rcases hgx x hx with h1 | h1
      · exact Or.inl h1
      · exact Or.inr (Or.inl h1)
    · exact Or.inr (Or.inr (Or.inl hx))
    · exact Or.inr (Or.inr (Or.inr (Or.inl (applyBlock_calls_kind _ _ _ _ x hx))))
    · rcases hpost with hp | hp
      · rw [hp] at hx; cases hx
      · rw [hp] at hx; simp at hx
        exact Or.inr (Or.inr (Or.inr (Or.inr hx)))

/-- Every `CreateBlock` call of `produceBlock` is made at the new height on the
current `lastState`, with the last commit and header hash of the first part. -/
theorem produceBlock_createBlock_call (env : ProduceEnv) (m : Manager) (h : Nat)
    (lc : Commit) (lhh : Hash) (st : State)
    (hx : Call.createBlock h lc lhh st ∈ (produceBlock env m).calls) :
    h = addU64 m.store.height 1 ∧ st = m.lastState ∧
      ∃ t1, produceBlock.loadLast env m = (.ok (lc, lhh), t1) := by
  have hload : ∀ t1, (produceBlock.loadLast env m).2 = t1 →
      Call.createBlock h lc lhh st ∉ t1 := by
    intro t1 ht hmem
    rw [← ht] at hmem
    rcases loadLast_calls env m _ hmem with h1 | h1 <;> cases h1
  rcases produceBlock_cases env m with ⟨e, t1, h1, hp⟩ | ⟨lc0, lhh0, t1, e, t2, h1, h2, hp⟩ |
    ⟨lc0, lhh0, t1, b, c, t2, h1, h2, hp⟩
  · rw [hp] at hx
    exact absurd hx (hload t1 (by rw [h1]))
  · rw [hp] at hx
    simp only [List.mem_append] at hx
    rcases hx with hx | hx
    · exact absurd hx (hload t1 (by rw [h1]))
    · have hs := selectBlock_createBlock_call env m lc0 lhh0 h lc lhh st (by rw [h2]; exact hx)
      obtain ⟨ha, hb, hc, hd⟩ := hs
      subst hb hc
      exact ⟨ha, hd, t1, h1⟩
  · rw [hp] at hx
    simp only [List.mem_append] at hx
    rcases hx with (hx | hx) | hx
    · exact absurd hx (hload t1 (by rw [h1]))
    · have hs := selectBlock_createBlock_call env m lc0 lhh0 h lc lhh st (by rw [h2]; exact hx)
      obtain ⟨ha, hb, hc, hd⟩ := hs
      subst hb hc
      exact ⟨ha, hd, t1, h1⟩
    · rcases publish_calls_kind _ _ _ _ _ hx with h1 | ⟨_, h1⟩ | h1 | h1 | h1 <;> cases h1

/-- When the store has no block at the new height and the first part of
`produceBlock` succeeds, `CreateBlock` is called with its results. -/
theorem produceBlock_calls_createBlock (env : ProduceEnv) (m : Manager) (lc : Commit)
    (lhh : Hash) (t1 : List Call) (e0 : Err)
    (h1 : produceBlock.loadLast env m = (.ok (lc, lhh), t1))
    (hp : m.store.loadBlock (addU64 m.store.height 1) = .error e0) :
    Call.createBlock (addU64 m.store.height 1) lc lhh m.lastState ∈
      (produceBlock env m).calls := by
  have hsel : Call.createBlock (addU64 m.store.height 1) lc lhh m.lastState ∈
      (produceBlock.selectBlock env m lc lhh).2 := by
    unfold produceBlock.selectBlock
    simp only [hp]
    split
    · simp
    · split <;> simp
  rcases produceBlock_cases env m with ⟨e, t, h, _⟩ | ⟨lc0, lhh0, t, e, t2, h, h2, hpb⟩ |
    ⟨lc0, lhh0, t, b, c, t2, h, h2, hpb⟩
  · rw [h1] at h; simp at h
  · rw [h1] at h
    simp only [Prod.mk.injEq, Except.ok.injEq] at h
    obtain ⟨⟨ha, hb⟩, _⟩ := h
    subst ha hb
    rw [hpb, ← show (produceBlock.selectBlock env m lc lhh).2 = t2 by rw [h2]]
    exact List.mem_append_right _ hsel
  · rw [h1] at h
    simp only [Prod.mk.injEq, Except.ok.injEq] at h
    obtain ⟨⟨ha, hb⟩, _⟩ := h
    subst ha hb
    rw [hpb, ← show (produceBlock.selectBlock env m lc lhh).2 = t2 by rw [h2]]
    exact List.mem_append_left _ (List.mem_append_right _ hsel)

theorem isLoad_not_createOrSign (x : Call) (h : x.isLoad = true) :
    x.isCreateOrSign = false := by
  cases x <;> simp_all [Call.isLoad, Call.isCreateOrSign]

theorem storeOrExecutor_not_createOrSign (x : Call) (h : x.isStoreOrExecutor = true) :
    x.isCreateOrSign = false := by
  cases x <;> simp_all [Call.isStoreOrExecutor, Call.isCreateOrSign]

theorem loadLast_calls_isLoad (env : ProduceEnv) (m : Manager) :
    ∀ x ∈ (produceBlock.loadLast env m).2, x.isLoad = true := by
  intro x hx
  rcases loadLast_calls env m x hx with h | h <;> rw [h] <;> rfl

theorem publish_calls_not_createOrSign (env : ProduceEnv) (m : Manager) (block : Block)
    (commit : Commit) :
    ∀ x ∈ (produceBlock.publish env m block commit).calls, x.isCreateOrSign = false := by
  intro x hx
  rcases publish_calls_kind env m block commit x hx with h | ⟨_, h⟩ | h | h | h
  · rw [h]; rfl
  · rw [h]; rfl
  · rw [h]; rfl
  · exact storeOrExecutor_not_createOrSign x h
  · rw [h]; rfl

/-- How `produceBlock` runs when the store has a block at the new height. -/
theorem produceBlock_pending_cases (env : ProduceEnv) (m : Manager) (pending : Block)
    (hp : m.store.loadBlock (addU64 m.store.height 1) = .ok pending) :
    (∃ e t1, produceBlock.loadLast env m = (.error e, t1) ∧
        produceBlock env m = ⟨m, t1, some e⟩) ∨
      (∃ lc lhh t1 e, produceBlock.loadLast env m = (.ok (lc, lhh), t1) ∧
        m.store.loadCommit (addU64 m.store.height 1) = .error e ∧
        produceBlock env m =
          ⟨m, t1 ++ [.loadBlock (addU64 m.store.height 1),
            .loadCommit (addU64 m.store.height 1)], some e⟩) ∨
      (∃ lc lhh t1 c, produceBlock.loadLast env m = (.ok (lc, lhh), t1) ∧
        m.store.loadCommit (addU64 m.store.height 1) = .ok c ∧
        produceBlock env m =
          ⟨(produceBlock.publish env m pending c).m,
            t1 ++ [.loadBlock (addU64 m.store.height 1),
              .loadCommit (addU64 m.store.height 1)] ++
              (produceBlock.publish env m pending c).calls,
            (produceBlock.publish env m pending c).err⟩) := by
  rcases h1 : produceBlock.loadLast env m with ⟨r1, t1⟩
  rcases r1 with e | ⟨lc, lhh⟩
  · left
    exact ⟨e, t1, rfl, by simp [produceBlock, h1]⟩
  · right
    cases hc : m.store.loadCommit (addU64 m.store.height 1) with
    | error e =>
      left
      refine ⟨lc, lhh, t1, e, rfl, rfl, ?_⟩
      simp [produceBlock, h1, (selectBlock_pending env m lc lhh pending hp).1 e hc]
    | ok c =>
      right
      refine ⟨lc, lhh, t1, c, rfl, rfl, ?_⟩
      simp [produceBlock, h1, (selectBlock_pending env m lc lhh pending hp).2 c hc]

theorem publish_marshalGossip_mem (env : ProduceEnv) (m : Manager) (block : Block)
    (commit : Commit) :
    Call.marshalGossip block commit ∈ (produceBlock.publish env m block commit).calls := by
  have hgossipMem : Call.marshalGossip block commit ∈
      (gossipBlock env.gossip m block commit).calls := by
    rcases gossipBlock_calls env.gossip m block commit with h | ⟨_, _, h⟩ <;> rw [h] <;> simp
  cases hge : (gossipBlock env.gossip m block commit).err with
  | some e =>
    rw [publish_gossip_error env m block commit e hge]
    exact hgossipMem
  | none =>
    obtain ⟨⟨post, _, hcalls⟩, _⟩ := publish_gossip_ok env m block commit hge
    rw [hcalls]
    simp only [List.mem_append]
    exact Or.inl (Or.inl (Or.inl hgossipMem))

/-- A call of `produceBlock` that is neither a load nor part of the creation
and signing of a block belongs to the last part, run on the selected pair. -/
theorem produceBlock_publish_call (env : ProduceEnv) (m : Manager) (x : Call)
    (hx : x ∈ (produceBlock env m).calls) (hl : x.isLoad = false)
    (hc : x.isCreateOrSign = false) :
    ∃ lc lhh t1 b c t2, produceBlock.loadLast env m = (.ok (lc, lhh), t1) ∧
      produceBlock.selectBlock env m lc lhh = (.ok (b, c), t2) ∧
      produceBlock env m =
        ⟨(produceBlock.publish env m b c).m, t1 ++ t2 ++ (produceBlock.publish env m b c).calls,
          (produceBlock.publish env m b c).err⟩ ∧
      x ∈ (produceBlock.publish env m b c).calls := by
  have hnot1 : ∀ t1, (produceBlock.loadLast env m).2 = t1 → x ∉ t1 := by
    intro t1 ht hmem
    rw [← ht] at hmem
    have := loadLast_calls_isLoad env m x hmem
    rw [this] at hl; cases hl
  have hnot2 : ∀ lc lhh t2, (produceBlock.selectBlock env m lc lhh).2 = t2 → x ∉ t2 := by
    intro lc lhh t2 ht hmem
    rw [← ht] at hmem
    rcases selectBlock_calls_kind env m lc lhh x hmem with h | h
    · rw [h] at hl; cases hl
    · rw [h] at hc; cases hc
  rcases produceBlock_cases env m with ⟨e, t1, h1, hp⟩ | ⟨lc, lhh, t1, e, t2, h1, h2, hp⟩ |
    ⟨lc, lhh, t1, b, c, t2, h1, h2, hp⟩
  · rw [hp] at hx
    exact absurd hx (hnot1 t1 (by rw [h1]))
  · rw [hp] at hx
    simp only [List.mem_append] at hx
    rcases hx with hx | hx
    · exact absurd hx (hnot1 t1 (by rw [h1]))
    · exact absurd hx (hnot2 lc lhh t2 (by rw [h2]))
  · refine ⟨lc, lhh, t1, b, c, t2, h1, h2, hp, ?_⟩
    rw [hp] at hx
    simp only [List.mem_append] at hx
    rcases hx with (hx | hx) | hx
    · exact absurd hx (hnot1 t1 (by rw [h1]))
    · exact absurd hx (hnot2 lc lhh t2 (by rw [h2]))
    · exact hx

/-- The pair `produceBlock` gossips, and the pair it applies, is the pair
selected by its second part. -/
theorem produceBlock_published_pair (env : ProduceEnv) (m : Manager) (b : Block) (c : Commit)
    (hx : Call.marshalGossip b c ∈ (produceBlock env m).calls ∨
      Call.applyBlock b c ∈ (produceBlock env m).calls) :
    ∃ lc lhh t1 t2, produceBlock.loadLast env m = (.ok (lc, lhh), t1) ∧
      produceBlock.selectBlock env m lc lhh = (.ok (b, c), t2) ∧
      produceBlock env m =
        ⟨(produceBlock.publish env m b c).m, t1 ++ t2 ++ (produceBlock.publish env m b c).calls,
          (produceBlock.publish env m b c).err⟩ := by
  rcases hx with hx | hx
  · obtain ⟨lc, lhh, t1, b0, c0, t2, h1, h2, hp, hmem⟩ :=
      produceBlock_publish_call env m _ hx rfl rfl
    rcases publish_calls_kind env m b0 c0 _ hmem with h | ⟨_, h⟩ | h | h | h
    · cases h; exact ⟨lc, lhh, t1, t2, h1, h2, hp⟩
    · cases h
    · cases h
    · cases h
    · cases h
  · obtain ⟨lc, lhh, t1, b0, c0, t2, h1, h2, hp, hmem⟩ :=
      produceBlock_publish_call env m _ hx rfl rfl
    rcases publish_calls_kind env m b0 c0 _ hmem with h | ⟨_, h⟩ | h | h | h
    · cases h
    · cases h
    · cases h; exact ⟨lc, lhh, t1, t2, h1, h2, hp⟩
    · cases h
    · cases h

/-- `applyBlock` writes `lastState` and the store only. -/
theorem applyBlock_frame (env : ApplyEnv) (m : Manager) (block : Block) (commit : Commit) :
    (applyBlock env m block commit).m.syncTarget = m.syncTarget ∧
      (applyBlock env m block commit).m.batchInProcess = m.batchInProcess ∧
      (applyBlock env m block commit).m.blockBatchSize = m.blockBatchSize ∧
      (applyBlock env m block commit).m.initialHeight = m.initialHeight := by
  by_cases hg : block.header.height > m.store.height
  · cases h1 : env.saveBlock with
    | some e => simp [applyBlock, hg, h1]
    | none =>
      cases h2 : env.execApplyBlock m.lastState block commit with
      | error e => simp [applyBlock, hg, h1, h2]
      | ok p =>
        obtain ⟨s0, r⟩ := p
        cases h3 : env.execCommit s0 block r with
        | error e => simp [applyBlock, hg, h1, h2, h3]
        | ok s1 =>
          cases h4 : env.saveBlockResponses with
          | some e => simp [applyBlock, hg, h1, h2, h3, h4]
          | none =>
            cases h5 : env.updateState with
            | some e => simp [applyBlock, hg, h1, h2, h3, h4, h5]
            | none =>
              cases h6 : env.saveValidators with
              | some e => simp [applyBlock, hg, h1, h2, h3, h4, h5, h6]
              | none =>
                cases h7 : env.batchCommit with
                | some e => simp [applyBlock, hg, h1, h2, h3, h4, h5, h6, h7]
                | none => simp [applyBlock, hg, h1, h2, h3, h4, h5, h6, h7, Store.setHeight]
  · rw [applyBlock_of_le env m block commit (Nat.not_lt.mp hg)]
    exact ⟨rfl, rfl, rfl, rfl⟩

/-- The batch trigger at the end of `produceBlock`, after a successful gossip
and a successful apply. -/
theorem publish_trigger (env : ProduceEnv) (m : Manager) (block : Block) (commit : Commit)
    (hok : (produceBlock.publish env m block commit).err = none) :
    (subU64 block.header.height m.syncTarget ≥ m.blockBatchSize ∧ m.batchInProcess = false →
        (produceBlock.publish env m block commit).m.batchInProcess = true ∧
        Call.spawnSubmitNextBatch ∈ (produceBlock.publish env m block commit).calls) ∧
      (¬ (subU64 block.header.height m.syncTarget ≥ m.blockBatchSize ∧
            m.batchInProcess = false) →
        (produceBlock.publish env m block commit).m.batchInProcess = m.batchInProcess ∧
        Call.spawnSubmitNextBatch ∉ (produceBlock.publish env m block commit).calls) := by
  obtain ⟨hst, hbp, hbs, _⟩ := applyBlock_frame env.apply m block commit
  have hnotApply : Call.spawnSubmitNextBatch ∉ (applyBlock env.apply m block commit).calls := by
    intro h
    have := applyBlock_calls_kind env.apply m block commit _ h
    cases this
  have hnotGossip : Call.spawnSubmitNextBatch ∉ (gossipBlock env.gossip m block commit).calls := by
    intro h
    rcases gossipBlock_calls env.gossip m block commit with hc | ⟨_, _, hc⟩ <;>
      rw [hc] at h <;> simp at h
  cases hge : (gossipBlock env.gossip m block commit).err with
  | some e =>
    rw [publish_gossip_error env m block commit e hge] at hok
    cases hok
  | none =>
    cases hae : (applyBlock env.apply m block commit).err with
    | some e =>
      rw [(publish_gossip_ok env m block commit hge).2.2.2, hae] at hok
      cases hok
    | none =>
      unfold produceBlock.publish
      simp only [hge, gossipBlock_m, hae, hst, hbp, hbs]
      constructor
      · intro hc
        rw [if_pos hc]
        exact ⟨rfl, by simp⟩
      · intro hc
        rw [if_neg hc]
        refine ⟨hbp, ?_⟩
        simp only [List.mem_append, List.mem_singleton, reduceCtorEq, or_false, not_or]
        exact ⟨hnotGossip, hnotApply⟩

theorem subU64_of_le (a b : Nat) (hb : b ≤ a) (ha : a < uint64Size) : subU64 a b = a - b := by
  unfold subU64 uint64Size at *
  omega

/-- `produceBlock` changes neither the sync target nor the configuration. -/
theorem publish_frame (env : ProduceEnv) (m : Manager) (block : Block) (commit : Commit) :
    (produceBlock.publish env m block commit).m.syncTarget = m.syncTarget ∧
      (produceBlock.publish env m block commit).m.blockBatchSize = m.blockBatchSize ∧
      (produceBlock.publish env m block commit).m.initialHeight = m.initialHeight := by
  obtain ⟨hst, _, hbs, hi⟩ := applyBlock_frame env.apply m block commit
  unfold produceBlock.publish
  simp only [gossipBlock_m]
  split
  · exact ⟨rfl, rfl, rfl⟩
  · split
    · exact ⟨hst, hbs, hi⟩
    · split
      · exact ⟨hst, hbs, hi⟩
      · exact ⟨hst, hbs, hi⟩

/-- Without wrap-around of the subtraction in the batch trigger, and with a
batch size of at least one, the heights the spawned submitter assembles are all
at most the store height. -/
theorem produceBlock_spawn_range_applied (env : ProduceEnv) (m : Manager) (block : Block)
    (commit : Commit)
    (happlied : Call.applyBlock block commit ∈ (produceBlock env m).calls)
    (hok : (produceBlock env m).err = none)
    (hst : m.syncTarget ≤ block.header.height)
    (hH : block.header.height < uint64Size)
    (hsize : 1 ≤ m.blockBatchSize)
    (hspawn : subU64 block.header.height m.syncTarget ≥ m.blockBatchSize) :
    submitNextBatch.startHeight (produceBlock env m).m = m.syncTarget + 1 ∧
      submitNextBatch.endHeight (produceBlock env m).m = m.syncTarget + m.blockBatchSize ∧
      m.syncTarget + m.blockBatchSize ≤ (produceBlock env m).m.store.height := by
  obtain ⟨lc, lhh, t1, t2, h1, h2, hp⟩ :=
    produceBlock_published_pair env m block commit (Or.inr happlied)
  have hpub : (produceBlock.publish env m block commit).err = none := by
    rw [hp] at hok; exact hok
  obtain ⟨hfst, hfbs, _⟩ := publish_frame env m block commit
  have hgossip : (gossipBlock env.gossip m block commit).err = none := by
    cases hge : (gossipBlock env.gossip m block commit).err with
    | none => rfl
    | some e =>
      rw [publish_gossip_error env m block commit e hge] at hpub
      cases hpub
  obtain ⟨_, hstore, _, herr⟩ := publish_gossip_ok env m block commit hgossip
  have hheight : block.header.height ≤ (produceBlock.publish env m block commit).m.store.height := by
    rw [hstore]
    rw [herr] at hpub
    rcases applyBlock_height_cases env.apply m block commit with ⟨h3, h4⟩ | ⟨_, _, h5⟩
    · rw [h3]; exact h4 hpub
    · exact Nat.le_of_eq h5.symm
  rw [subU64_of_le _ _ hst hH] at hspawn
  have hm : (produceBlock env m).m = (produceBlock.publish env m block commit).m := by rw [hp]
  simp only [submitNextBatch.endHeight, submitNextBatch.startHeight, hm, hfst, hfbs]
  unfold addU64 subU64 uint64Size at *
  omega

/-! ## Lemmas on the batch submitter -/

/-- The loop of `createNextDABatch` with `n` heights left up to `endHeight`
(below the largest `uint64`) and enough fuel: it returns the error of a failed
load, or the batch extended with the `n` blocks and commits the store returns
for the heights left. -/
theorem createNextDABatch_loop_spec (s : Store) (startHeight endHeight : Nat)
    (hend : endHeight + 1 < uint64Size) :
    ∀ (n fuel height : Nat) (blocks : List Block) (commits : List Commit),
      height + n = endHeight + 1 → n ≤ fuel →
      (∃ e, createNextDABatch.loop s startHeight endHeight fuel height blocks commits =
            some (.error e) ∧
          ∃ i, i < n ∧ ((∃ e1, s.loadBlock (height + i) = .error e1) ∨
            ∃ e1, s.loadCommit (height + i) = .error e1)) ∨
      (∃ bs cs, createNextDABatch.loop s startHeight endHeight fuel height blocks commits =
            some (.ok { startHeight := startHeight, endHeight := endHeight,
                        blocks := blocks ++ bs, commits := commits ++ cs }) ∧
          (List.range n).map (fun i => s.loadBlock (height + i)) = bs.map Except.ok ∧
          (List.range n).map (fun i => s.loadCommit (height + i)) = cs.map Except.ok) := by
  intro n
  induction n with
  | zero =>
    intro fuel height blocks commits hn _
    right
    refine ⟨[], [], ?_, rfl, rfl⟩
    have hgt : ¬ height ≤ endHeight := by omega
    cases fuel <;> simp [createNextDABatch.loop, hgt]
  | succ n ih =>
    intro fuel height blocks commits hn hfuel
    have hle : height ≤ endHeight := by omega
    obtain ⟨f, rfl⟩ : ∃ f, fuel = f + 1 := ⟨fuel - 1, by omega⟩
    have hnext : addU64 height 1 = height + 1 := by
      unfold addU64 uint64Size at *
      omega
    unfold createNextDABatch.loop
    rw [if_pos hle]
    cases hb : s.loadBlock height with
    | error e =>
      left
      exact ⟨e, rfl, 0, Nat.succ_pos n, Or.inl ⟨e, hb⟩⟩
    | ok b =>
      cases hc : s.loadCommit height with
      | error e =>
        left
        exact ⟨e, rfl, 0, Nat.succ_pos n, Or.inr ⟨e, hc⟩⟩
      | ok c =>
        dsimp only
        rw [hnext]
        have hshift : ∀ i, height + 1 + i = height + (i + 1) := by intro i; omega
        rcases ih f (height + 1) (blocks ++ [b]) (commits ++ [c]) (by omega) (by omega) with
          ⟨e, he, i, hi, hfail⟩ | ⟨bs, cs, hok, hbs, hcs⟩
        · left
          refine ⟨e, he, i + 1, by omega, ?_⟩
          rw [← hshift i]
          exact hfail
        · right
          refine ⟨b :: bs, c :: cs, ?_, ?_, ?_⟩
          · rw [hok]
            simp
          · rw [List.range_succ_eq_map, List.map_cons, List.map_map, List.map_cons, ← hbs]
            simp only [Nat.add_zero, hb, List.cons.injEq, true_and]
            apply List.map_congr_left
            intro i _
            simp only [Function.comp_apply, Nat.succ_eq_add_one]
            rw [hshift i]
          · rw [List.range_succ_eq_map, List.map_cons, List.map_map, List.map_cons, ← hcs]
            simp only [Nat.add_zero, hc, List.cons.injEq, true_and]
            apply List.map_congr_left
            intro i _
            simp only [Function.comp_apply, Nat.succ_eq_add_one]
            rw [hshift i]

/-- Blocks and commits that are, index by index, what the store loads from
`startHeight` on. -/
theorem loads_of_map_eq {α : Type} (load : Nat → Except Err α) (startHeight n : Nat)
    (xs : List α)
    (h : (List.range n).map (fun i => load (startHeight + i)) = xs.map Except.ok) :
    xs.length = n ∧ ∀ i, i < n → ∃ x, xs[i]? = some x ∧ load (startHeight + i) = .ok x := by
  have hlen : xs.length = n := by
    have := congrArg List.length h
    simpa using this.symm
  refine ⟨hlen, ?_⟩
  intro i hi
  have hget := congrArg (fun l => l[i]?) h
  simp only [List.getElem?_map, List.getElem?_range hi, Option.map_some'] at hget
  cases hx : xs[i]? with
  | none => rw [hx] at hget; cases hget
  | some x =>
    rw [hx] at hget
    simp only [Option.map_some', Option.some.injEq] at hget
    exact ⟨x, rfl, hget⟩

/-- At the largest `uint64` the counter of the loop of `createNextDABatch`
wraps around to 0: with `startHeight = endHeight = 2 ^ 64 - 1` and the block
and commit of that height in the store, the loop goes on to height 0 and
returns the error of that load. -/
theorem createNextDABatch_wraps_at_largest_height :
    managerAtLargestHeight.store.loadBlock 18446744073709551615 =
        .ok (blockAt 18446744073709551615) ∧
      createNextDABatch 5 managerAtLargestHeight 18446744073709551615 18446744073709551615 =
        some (.error .notFound) := by
  constructor <;> rfl

/-- The first call of `submitNextBatch` is the creation of the batch of the
heights `syncTarget + 1` to `syncTarget + 1 + blockBatchSize - 1`. -/
theorem submitNextBatch_first_call (env : SubmitEnv) (m : Manager) :
    (submitNextBatch env m).calls.head? =
      some (.createNextDABatch (submitNextBatch.startHeight m) (submitNextBatch.endHeight m)) := by
  unfold submitNextBatch
  dsimp only
  split
  · rfl
  · rfl
  · split
    · rfl
    · split <;> rfl

/-- The batch `submitNextBatch` hands to the DA is the one `createNextDABatch`
returned for its two heights. -/
theorem submitNextBatch_batch (env : SubmitEnv) (m : Manager) (batch : Batch)
    (h : (submitNextBatch env m).batch = some batch) :
    createNextDABatch env.fuel m (submitNextBatch.startHeight m) (submitNextBatch.endHeight m) =
      some (.ok batch) := by
  unfold submitNextBatch at h
  dsimp only at h
  split at h
  · cases h
  · cases h
  · rename_i nextBatch hc
    rw [hc]
    split at h
    · simp only [Option.some.injEq] at h
      rw [h]
    · split at h <;> simp only [Option.some.injEq] at h <;> rw [h]

/-- `submitNextBatch` does not write the manager state. -/
theorem submitNextBatch_m (env : SubmitEnv) (m : Manager) : (submitNextBatch env m).m = m := by
  unfold submitNextBatch
  dsimp only
  split
  · rfl
  · rfl
  · split
    · rfl
    · split <;> rfl

/-! ## Lemmas on `batchInProcess` and on the sync target -/

theorem blocks_flag (env : DAEnv) (commits : List Commit) (blocks : List Block) :
    ∀ (i k : Nat) (m : Manager),
      (processNextDABatch.blocks env commits blocks i k m).1.m.batchInProcess =
          m.batchInProcess ∧
        (processNextDABatch.blocks env commits blocks i k m).1.m.syncTarget = m.syncTarget := by
  induction blocks with
  | nil => intro i k m; exact ⟨rfl, rfl⟩
  | cons block rest ih =>
    intro i k m
    unfold processNextDABatch.blocks
    split
    · exact ⟨rfl, rfl⟩
    · rename_i commit _
      obtain ⟨hst, hbp, _, _⟩ := applyBlock_frame (env.apply k) m block commit
      dsimp only
      split
      · exact ⟨hbp, hst⟩
      · obtain ⟨h1, h2⟩ := ih (i + 1) (k + 1) (applyBlock (env.apply k) m block commit).m
        exact ⟨h1.trans hbp, h2.trans hst⟩

theorem batches_flag (env : DAEnv) (batches : List Batch) :
    ∀ (k : Nat) (m : Manager),
      (processNextDABatch.batches env batches k m).m.batchInProcess = m.batchInProcess ∧
        (processNextDABatch.batches env batches k m).m.syncTarget = m.syncTarget := by
  induction batches with
  | nil => intro k m; exact ⟨rfl, rfl⟩
  | cons batch rest ih =>
    intro k m
    obtain ⟨hb1, hb2⟩ := blocks_flag env batch.commits batch.blocks 0 k m
    unfold processNextDABatch.batches
    dsimp only
    split
    · exact ⟨hb1, hb2⟩
    · obtain ⟨h1, h2⟩ := ih (processNextDABatch.blocks env batch.commits batch.blocks 0 k m).2
        (processNextDABatch.blocks env batch.commits batch.blocks 0 k m).1.m
      exact ⟨h1.trans hb1, h2.trans hb2⟩

/-- `processNextDABatch` writes neither `batchInProcess` nor the sync target. -/
theorem processNextDABatch_flag (env : DAEnv) (m : Manager) (daHeight : Nat) :
    (processNextDABatch env m daHeight).m.batchInProcess = m.batchInProcess ∧
      (processNextDABatch env m daHeight).m.syncTarget = m.syncTarget := by
  unfold processNextDABatch
  split
  · exact ⟨rfl, rfl⟩
  · exact batches_flag env _ 0 m

theorem updateStateIndex_flag (u : Option Err) (m : Manager) (stateIndex : Nat) :
    (updateStateIndex u m stateIndex).m.batchInProcess = m.batchInProcess ∧
      (updateStateIndex u m stateIndex).m.syncTarget = m.syncTarget := by
  unfold updateStateIndex
  split <;> exact ⟨rfl, rfl⟩

theorem syncLoop_flag (syncTarget : Nat) (envs : List SyncEnv) :
    ∀ (m : Manager) (currentHeight : Nat),
      (syncUntilTarget.loop syncTarget envs m currentHeight).m.batchInProcess =
          m.batchInProcess ∧
        (syncUntilTarget.loop syncTarget envs m currentHeight).m.syncTarget = m.syncTarget := by
  induction envs with
  | nil =>
    intro m currentHeight
    unfold syncUntilTarget.loop
    split <;> exact ⟨rfl, rfl⟩
  | cons e rest ih =>
    intro m currentHeight
    unfold syncUntilTarget.loop
    split
    · dsimp only
      split
      · exact ih m currentHeight
      · rename_i res _
        obtain ⟨hp1, hp2⟩ := processNextDABatch_flag e.da m res.daHeight
        obtain ⟨hu1, hu2⟩ := updateStateIndex_flag e.updateState
          (processNextDABatch e.da m res.daHeight).m res.stateIndex
        split
        · exact ⟨hp1, hp2⟩
        · exact ⟨hp1, hp2⟩
        · split
          · exact ⟨hu1.trans hp1, hu2.trans hp2⟩
          · obtain ⟨h1, h2⟩ := ih (updateStateIndex e.updateState
              (processNextDABatch e.da m res.daHeight).m res.stateIndex).m
              (updateStateIndex e.updateState
                (processNextDABatch e.da m res.daHeight).m res.stateIndex).m.store.height
            exact ⟨h1.trans (hu1.trans hp1), h2.trans (hu2.trans hp2)⟩
    · exact ⟨rfl, rfl⟩

/-- `produceBlock` leaves `batchInProcess` as it was or sets it. -/
theorem publish_flag (env : ProduceEnv) (m : Manager) (block : Block) (commit : Commit) :
    (produceBlock.publish env m block commit).m.batchInProcess = m.batchInProcess ∨
      (produceBlock.publish env m block commit).m.batchInProcess = true := by
  obtain ⟨_, hbp, _, _⟩ := applyBlock_frame env.apply m block commit
  unfold produceBlock.publish
  simp only [gossipBlock_m]
  split
  · exact Or.inl rfl
  · split
    · exact Or.inl hbp
    · split
      · exact Or.inr rfl
      · exact Or.inl hbp

theorem produceBlock_flag (env : ProduceEnv) (m : Manager) :
    (produceBlock env m).m.batchInProcess = m.batchInProcess ∨
      (produceBlock env m).m.batchInProcess = true := by
  rcases produceBlock_cases env m with ⟨e, t1, _, hp⟩ | ⟨_, _, t1, e, t2, _, _, hp⟩ |
    ⟨_, _, t1, b, c, t2, _, _, hp⟩
  · rw [hp]; exact Or.inl rfl
  · rw [hp]; exact Or.inl rfl
  · rw [hp]; exact publish_flag env m b c

/-- The wait of `waitForSync` returns the state it ends on as it found it, and
only a state whose store height has reached its sync target. -/
theorem wait_result (wakeups : List Manager) :
    ∀ (m r : Manager), waitForSync.wait wakeups m = some r →
      (r = m ∨ r ∈ wakeups) ∧ r.syncTarget ≤ r.store.height := by
  induction wakeups with
  | nil =>
    intro m r h
    unfold waitForSync.wait at h
    split at h
    · cases h
    · rename_i hlt
      simp only [Option.some.injEq] at h
      subst h
      exact ⟨Or.inl rfl, Nat.not_lt.mp hlt⟩
  | cons w rest ih =>
    intro m r h
    unfold waitForSync.wait at h
    split at h
    · obtain ⟨h1, h2⟩ := ih w r h
      refine ⟨Or.inr ?_, h2⟩
      rcases h1 with h1 | h1
      · rw [h1]; exact List.mem_cons_self _ _
      · exact List.mem_cons_of_mem _ h1
    · rename_i hlt
      simp only [Option.some.injEq] at h
      subst h
      exact ⟨Or.inl rfl, Nat.not_lt.mp hlt⟩

/-- The spawn of the submitter by `produceBlock`: it happens only from
`batchInProcess` false and sets it; without a spawn `batchInProcess` is
unchanged. -/
theorem publish_spawn (env : ProduceEnv) (m : Manager) (block : Block) (commit : Commit) :
    (Call.spawnSubmitNextBatch ∈ (produceBlock.publish env m block commit).calls →
        m.batchInProcess = false ∧
          (produceBlock.publish env m block commit).m.batchInProcess = true) ∧
      (Call.spawnSubmitNextBatch ∉ (produceBlock.publish env m block commit).calls →
        (produceBlock.publish env m block commit).m.batchInProcess = m.batchInProcess) := by
  cases herr : (produceBlock.publish env m block commit).err with
  | none =>
    obtain ⟨h1, h2⟩ := publish_trigger env m block commit herr
    by_cases hc : subU64 block.header.height m.syncTarget ≥ m.blockBatchSize ∧
        m.batchInProcess = false
    · obtain ⟨h3, h4⟩ := h1 hc
      exact ⟨fun _ => ⟨hc.2, h3⟩, fun hn => absurd h4 hn⟩
    · obtain ⟨h3, h4⟩ := h2 hc
      exact ⟨fun hs => absurd hs h4, fun _ => h3⟩
  | some e =>
    have hkey : Call.spawnSubmitNextBatch ∉ (produceBlock.publish env m block commit).calls ∧
        (produceBlock.publish env m block commit).m.batchInProcess = m.batchInProcess := by
      cases hge : (gossipBlock env.gossip m block commit).err with
      | some e1 =>
        rw [publish_gossip_error env m block commit e1 hge]
        refine ⟨?_, rfl⟩
        intro h
        rcases gossipBlock_calls env.gossip m block commit with hc | ⟨_, _, hc⟩ <;>
          rw [hc] at h <;> simp at h
      | none =>
        have hae : (applyBlock env.apply m block commit).err = some e := by
          rw [← (publish_gossip_ok env m block commit hge).2.2.2]; exact herr
        obtain ⟨_, hbp, _, _⟩ := applyBlock_frame env.apply m block commit
        unfold produceBlock.publish
        simp only [hge, gossipBlock_m, hae]
        refine ⟨?_, hbp⟩
        simp only [List.mem_append, List.mem_singleton, reduceCtorEq, or_false, not_or]
        constructor
        · intro h
          rcases gossipBlock_calls env.gossip m block commit with hc | ⟨_, _, hc⟩ <;>
            rw [hc] at h <;> simp at h
        · intro h
          have := applyBlock_calls_kind env.apply m block commit _ h
          cases this
    exact ⟨fun hs => absurd hs hkey.1, fun _ => hkey.2⟩

theorem produceBlock_spawn (env : ProduceEnv) (m : Manager) :
    (Call.spawnSubmitNextBatch ∈ (produceBlock env m).calls →
        m.batchInProcess = false ∧ (produceBlock env m).m.batchInProcess = true) ∧
      (Call.spawnSubmitNextBatch ∉ (produceBlock env m).calls →
        (produceBlock env m).m.batchInProcess = m.batchInProcess) := by
  constructor
  · intro hx
    obtain ⟨_, _, _, b, c, _, _, _, hp, hmem⟩ := produceBlock_publish_call env m _ hx rfl rfl
    rw [hp]
    exact (publish_spawn env m b c).1 hmem
  · intro hx
    rcases produceBlock_cases env m with ⟨e, t1, _, hp⟩ | ⟨_, _, t1, e, t2, _, _, hp⟩ |
      ⟨_, _, t1, b, c, t2, _, _, hp⟩
    · rw [hp]
    · rw [hp]
    · rw [hp] at hx ⊢
      apply (publish_spawn env m b c).2
      intro hmem
      exact hx (List.mem_append_right _ hmem)

/-- Every step of the system keeps the invariant, the handling of an acceptance
event when the event is this node's own. -/
theorem step_inv (s s2 : Sys) (ev : Event) (hinv : s.inv) (hstep : s.step ev = some s2)
    (hdue : ∀ endHeight, ev = .accepted endHeight → s.acceptanceDue endHeight = true) :
    s2.inv := by
  obtain ⟨h1, h2⟩ := hinv
  cases ev with
  | produce env =>
    simp only [Sys.step, Option.some.injEq] at hstep
    subst hstep
    obtain ⟨hs1, hs2⟩ := produceBlock_spawn env s.m
    by_cases hsp : Call.spawnSubmitNextBatch ∈ (produceBlock env s.m).calls
    · obtain ⟨hf, ht⟩ := hs1 hsp
      have h0 := h2 hf
      have hc : (produceBlock env s.m).calls.contains .spawnSubmitNextBatch = true := by
        simpa using hsp
      simp only [Sys.inv, hc, if_true, ht]
      constructor
      · omega
      · intro h; cases h
    · have hflag := hs2 hsp
      have hc : (produceBlock env s.m).calls.contains .spawnSubmitNextBatch = false := by
        simpa using hsp
      simp only [Sys.inv, hc, hflag]
      exact ⟨h1, h2⟩
  | submitterRuns env =>
    simp only [Sys.step] at hstep
    split at hstep
    · cases hstep
    · rename_i hrun
      have hflag : s.m.batchInProcess = true := by
        cases hb : s.m.batchInProcess with
        | true => rfl
        | false => have := h2 hb; omega
      split at hstep <;> cases hstep
      all_goals
        simp only [Sys.inv, submitNextBatch_m, hflag, List.length_append, List.length_cons,
          List.length_nil]
        constructor
        · omega
        · intro h; cases h
  | accepted endHeight =>
    have hd := hdue endHeight rfl
    simp only [Sys.step, Option.some.injEq] at hstep
    subst hstep
    have hlen : s.running + (s.awaiting.erase endHeight).length = 0 := by
      have hd2 : endHeight ∈ s.awaiting ∨ (s.running = 0 ∧ s.awaiting = []) := by
        simpa [Sys.acceptanceDue] using hd
      rcases hd2 with hmem | ⟨hr, he⟩
      · rw [List.length_erase_of_mem hmem]
        have hpos : 0 < s.awaiting.length := List.length_pos_of_mem hmem
        omega
      · rw [he, hr]
        rfl
    simp only [Sys.inv]
    constructor
    · omega
    · intro _; exact hlen
  | applyGossiped env block commit =>
    simp only [Sys.step, Option.some.injEq] at hstep
    subst hstep
    simp only [Sys.inv, (applyBlock_frame env s.m block commit).2.1]
    exact ⟨h1, h2⟩
  | syncUntil envs syncTarget =>
    simp only [Sys.step, Option.some.injEq] at hstep
    subst hstep
    simp only [Sys.inv, syncUntilTarget, (syncLoop_flag syncTarget envs s.m s.m.store.height).1]
    exact ⟨h1, h2⟩

theorem run_inv (events : List Event) :
    ∀ (s s2 : Sys), s.inv → Sys.run s events = some s2 →
      Sys.acceptancesDue s events = true → s2.inv := by
  induction events with
  | nil =>
    intro s s2 hinv hrun _
    simp only [Sys.run, Option.some.injEq] at hrun
    subst hrun
    exact hinv
  | cons ev rest ih =>
    intro s s2 hinv hrun hdue
    unfold Sys.run at hrun
    unfold Sys.acceptancesDue at hdue
    split at hrun
    · cases hrun
    · rename_i s1 hstep
      rw [hstep] at hdue
      simp only [Bool.and_eq_true] at hdue
      refine ih s1 s2 (step_inv s s1 ev hinv hstep ?_) hrun hdue.2
      intro endHeight hev
      subst hev
      exact hdue.1

/-- An acceptance event that is not this node's own leaves `batchInProcess`
false with a submission under way. -/
theorem step_accepted_not_due (s s2 : Sys) (endHeight : Nat)
    (hdue : s.acceptanceDue endHeight = false)
    (hstep : s.step (.accepted endHeight) = some s2) :
    s2.m.batchInProcess = false ∧ 0 < s2.running + s2.awaiting.length := by
  simp only [Sys.step, Option.some.injEq] at hstep
  subst hstep
  have hd2 : endHeight ∉ s.awaiting ∧ (s.running = 0 → s.awaiting ≠ []) := by
    simpa [Sys.acceptanceDue] using hdue
  obtain ⟨hnot, hrest⟩ := hd2
  refine ⟨rfl, ?_⟩
  simp only [List.erase_of_not_mem hnot]
  by_cases hr : s.running = 0
  · have := List.length_pos.mpr (hrest hr)
    omega
  · omega

/-- After a successful latest-batch query, the first `produceBlock` of
`ProduceBlockLoop` is called in a state whose store height has reached the sync
target. -/
theorem firstProduceState_synced (res : SLBatch) (wakeups : List Manager) (m r : Manager)
    (h : ProduceBlockLoop.firstProduceState (.ok res) wakeups m = some r) :
    r.syncTarget ≤ r.store.height := by
  unfold ProduceBlockLoop.firstProduceState waitForSync at h
  dsimp only at h
  cases hw : waitForSync.wait wakeups { m with syncTarget := res.endHeight } with
  | none => simp [hw] at h
  | some m2 =>
    simp only [hw, Option.some.injEq] at h
    subst h
    exact (wait_result wakeups _ m2 hw).2

/-- The conversion `uint64(initialHeight - 1)` for an initial height of at
least one. -/
theorem toUint64_pred (i : Int) (h1 : 1 ≤ i) (h2 : i ≤ 9223372036854775807) :
    ((toUint64 (i - 1) : Nat) : Int) = i - 1 := by
  unfold toUint64 uint64Size
  omega

/-! ## Lemmas on the SL state index -/

theorem applyBlock_index (env : ApplyEnv) (henv : env.keepsIndex) (m : Manager)
    (block : Block) (commit : Commit) :
    (applyBlock env m block commit).m.lastState.slStateIndex = m.lastState.slStateIndex := by
  obtain ⟨hk1, hk2⟩ := henv
  by_cases hg : block.header.height > m.store.height
  · cases h1 : env.saveBlock with
    | some e => simp [applyBlock, hg, h1]
    | none =>
      cases h2 : env.execApplyBlock m.lastState block commit with
      | error e => simp [applyBlock, hg, h1, h2]
      | ok p =>
        obtain ⟨s0, r⟩ := p
        cases h3 : env.execCommit s0 block r with
        | error e => simp [applyBlock, hg, h1, h2, h3]
        | ok s1 =>
          have hidx : s1.slStateIndex = m.lastState.slStateIndex :=
            (hk2 _ _ _ _ h3).trans (hk1 _ _ _ _ _ h2)
          cases h4 : env.saveBlockResponses with
          | some e => simp [applyBlock, hg, h1, h2, h3, h4]
          | none =>
            cases h5 : env.updateState with
            | some e => simp [applyBlock, hg, h1, h2, h3, h4, h5, hidx]
            | none =>
              cases h6 : env.saveValidators with
              | some e => simp [applyBlock, hg, h1, h2, h3, h4, h5, h6, hidx]
              | none =>
                cases h7 : env.batchCommit with
                | some e => simp [applyBlock, hg, h1, h2, h3, h4, h5, h6, h7, hidx]
                | none => simp [applyBlock, hg, h1, h2, h3, h4, h5, h6, h7, hidx]
  · rw [applyBlock_of_le env m block commit (Nat.not_lt.mp hg)]

theorem blocks_index (env : DAEnv) (henv : ∀ k, (env.apply k).keepsIndex)
    (commits : List Commit) (blocks : List Block) :
    ∀ (i k : Nat) (m : Manager),
      (processNextDABatch.blocks env commits blocks i k m).1.m.lastState.slStateIndex =
        m.lastState.slStateIndex := by
  induction blocks with
  | nil => intro i k m; rfl
  | cons block rest ih =>
    intro i k m
    unfold processNextDABatch.blocks
    split
    · rfl
    · rename_i commit _
      have ha := applyBlock_index (env.apply k) (henv k) m block commit
      dsimp only
      split
      · exact ha
      · exact (ih (i + 1) (k + 1) _).trans ha

theorem batches_index (env : DAEnv) (henv : ∀ k, (env.apply k).keepsIndex)
    (batches : List Batch) :
    ∀ (k : Nat) (m : Manager),
      (processNextDABatch.batches env batches k m).m.lastState.slStateIndex =
        m.lastState.slStateIndex := by
  induction batches with
  | nil => intro k m; rfl
  | cons batch rest ih =>
    intro k m
    have hb := blocks_index env henv batch.commits batch.blocks 0 k m
    unfold processNextDABatch.batches
    dsimp only
    split
    · exact hb
    · exact (ih _ _).trans hb

/-- `processNextDABatch` leaves the SL state index as it was, whether it
succeeds or fails. -/
theorem processNextDABatch_index (env : DAEnv) (henv : ∀ k, (env.apply k).keepsIndex)
    (m : Manager) (daHeight : Nat) :
    (processNextDABatch env m daHeight).m.lastState.slStateIndex =
      m.lastState.slStateIndex := by
  unfold processNextDABatch
  split
  · rfl
  · exact batches_index env henv _ 0 m

/-- Every iteration of the loop of `syncUntilTarget` starts with the request of
the SL batch at the index after `lastState.slStateIndex`. -/
theorem syncLoop_first_call (syncTarget : Nat) (e : SyncEnv) (rest : List SyncEnv)
    (m : Manager) (currentHeight : Nat) (hlt : currentHeight < syncTarget) :
    (syncUntilTarget.loop syncTarget (e :: rest) m currentHeight).calls.head? =
      some (.slRetrieveBatch (addU64 m.lastState.slStateIndex 1)) := by
  unfold syncUntilTarget.loop
  rw [if_pos hlt]
  dsimp only
  split
  · rfl
  · split
    · rfl
    · rfl
    · split <;> rfl

theorem envOk_keepsIndex : envOk.keepsIndex := by
  constructor
  · intro s b c s2 r h
    simp only [envOk, Except.ok.injEq, Prod.mk.injEq] at h
    rw [← h.1]
  · intro s b r s2 h
    simp only [envOk, Except.ok.injEq] at h
    rw [← h]

/-! ## Lemmas on `processNextDABatch` -/

theorem appliedPairs_append (xs ys : List Call) :
    appliedPairs (xs ++ ys) = appliedPairs xs ++ appliedPairs ys := by
  induction xs with
  | nil => rfl
  | cons x rest ih =>
    cases x <;> simp [appliedPairs, ih]

theorem appliedPairs_of_kind (xs : List Call) (h : ∀ x ∈ xs, x.isStoreOrExecutor = true) :
    appliedPairs xs = [] := by
  induction xs with
  | nil => rfl
  | cons x rest ih =>
    have hx := h x (List.mem_cons_self _ _)
    have hrest := ih (fun y hy => h y (List.mem_cons_of_mem _ hy))
    cases x <;> simp_all [appliedPairs, Call.isStoreOrExecutor]

/-- `applyBlock` hands no pair to itself: its calls are store and executor
calls. -/
theorem appliedPairs_applyBlock (env : ApplyEnv) (m : Manager) (block : Block)
    (commit : Commit) : appliedPairs (applyBlock env m block commit).calls = [] :=
  appliedPairs_of_kind _ (applyBlock_calls_kind env m block commit)

/-- The inner loop of `processNextDABatch`, on a batch that has a commit for
each of its blocks from index `i` on, is the apply in order of the blocks paired
with the commits from index `i`. -/
theorem blocks_eq_applyInOrder (env : DAEnv) (commits : List Commit) (blocks : List Block) :
    ∀ (i k : Nat) (m : Manager), i + blocks.length ≤ commits.length →
      (processNextDABatch.blocks env commits blocks i k m).1 =
          applyInOrder env.apply (blocks.zip (commits.drop i)) k m ∧
        ((processNextDABatch.blocks env commits blocks i k m).1.err = none →
          (processNextDABatch.blocks env commits blocks i k m).2 = k + blocks.length) := by
  induction blocks with
  | nil =>
    intro i k m _
    exact ⟨rfl, fun _ => rfl⟩
  | cons block rest ih =>
    intro i k m hlen
    have hi : i < commits.length := by
      simp only [List.length_cons] at hlen
      omega
    have hget : commits[i]? = some commits[i] := List.getElem?_eq_getElem hi
    have hdrop : commits.drop i = commits[i] :: commits.drop (i + 1) :=
      List.drop_eq_getElem_cons hi
    obtain ⟨ih1, ih2⟩ := ih (i + 1) (k + 1) (applyBlock (env.apply k) m block commits[i]).m
      (by simp only [List.length_cons] at hlen; omega)
    unfold processNextDABatch.blocks
    rw [hget, hdrop, List.zip_cons_cons]
    unfold applyInOrder
    dsimp only
    cases ha : (applyBlock (env.apply k) m block commits[i]).err with
    | some e =>
      refine ⟨rfl, ?_⟩
      intro h
      cases h
    | none =>
      dsimp only
      rw [ih1]
      refine ⟨rfl, ?_⟩
      intro h
      rw [← ih1] at h
      rw [ih2 h, List.length_cons]
      omega

theorem applyInOrder_cons_error (env : Nat → ApplyEnv) (block : Block) (commit : Commit)
    (rest : List (Block × Commit)) (k : Nat) (m : Manager) (e : Err)
    (ha : (applyBlock (env k) m block commit).err = some e) :
    applyInOrder env ((block, commit) :: rest) k m =
      ⟨(applyBlock (env k) m block commit).m,
        .applyBlock block commit :: (applyBlock (env k) m block commit).calls, some e⟩ := by
  simp [applyInOrder, ha]

theorem applyInOrder_cons_ok (env : Nat → ApplyEnv) (block : Block) (commit : Commit)
    (rest : List (Block × Commit)) (k : Nat) (m : Manager)
    (ha : (applyBlock (env k) m block commit).err = none) :
    applyInOrder env ((block, commit) :: rest) k m =
      ⟨(applyInOrder env rest (k + 1) (applyBlock (env k) m block commit).m).m,
        .applyBlock block commit :: (applyBlock (env k) m block commit).calls ++
          (applyInOrder env rest (k + 1) (applyBlock (env k) m block commit).m).calls,
        (applyInOrder env rest (k + 1) (applyBlock (env k) m block commit).m).err⟩ := by
  simp [applyInOrder, ha]

/-- The apply in order of two lists of pairs one after the other. -/
theorem applyInOrder_append (env : Nat → ApplyEnv) (xs ys : List (Block × Commit)) :
    ∀ (k : Nat) (m : Manager),
      applyInOrder env (xs ++ ys) k m =
        match (applyInOrder env xs k m).err with
        | some e => ⟨(applyInOrder env xs k m).m, (applyInOrder env xs k m).calls, some e⟩
        | none =>
          ⟨(applyInOrder env ys (k + xs.length) (applyInOrder env xs k m).m).m,
            (applyInOrder env xs k m).calls ++
              (applyInOrder env ys (k + xs.length) (applyInOrder env xs k m).m).calls,
            (applyInOrder env ys (k + xs.length) (applyInOrder env xs k m).m).err⟩ := by
  induction xs with
  | nil =>
    intro k m
    simp [applyInOrder]
  | cons x rest ih =>
    intro k m
    obtain ⟨block, commit⟩ := x
    rw [List.cons_append]
    cases ha : (applyBlock (env k) m block commit).err with
    | some e =>
      rw [applyInOrder_cons_error env block commit _ k m e ha,
        applyInOrder_cons_error env block commit _ k m e ha]
    | none =>
      rw [applyInOrder_cons_ok env block commit _ k m ha,
        applyInOrder_cons_ok env block commit _ k m ha,
        ih (k + 1) (applyBlock (env k) m block commit).m]
      have hk : k + 1 + rest.length = k + (rest.length + 1) := by omega
      cases hr : (applyInOrder env rest (k + 1) (applyBlock (env k) m block commit).m).err with
      | some e => rfl
      | none =>
        simp only [List.length_cons, hk, List.append_assoc]

/-- The outer loop of `processNextDABatch`, on batches that have a commit for
each of their blocks, is the apply in order of their pairs. -/
theorem batches_eq_applyInOrder (env : DAEnv) (batches : List Batch) :
    ∀ (k : Nat) (m : Manager),
      (∀ batch ∈ batches, batch.blocks.length ≤ batch.commits.length) →
      processNextDABatch.batches env batches k m =
        applyInOrder env.apply (batchPairs batches) k m := by
  induction batches with
  | nil =>
    intro k m _
    rfl
  | cons batch rest ih =>
    intro k m hwf
    have hb : batch.blocks.length ≤ batch.commits.length := hwf batch (List.mem_cons_self _ _)
    obtain ⟨h1, h2⟩ := blocks_eq_applyInOrder env batch.commits batch.blocks 0 k m (by omega)
    rw [List.drop_zero] at h1
    have hzip : (batch.blocks.zip batch.commits).length = batch.blocks.length := by
      rw [List.length_zip]
      omega
    unfold processNextDABatch.batches batchPairs
    rw [applyInOrder_append]
    dsimp only
    cases hr : (processNextDABatch.blocks env batch.commits batch.blocks 0 k m).1.err with
    | some e =>
      have hr2 := hr
      rw [h1] at hr2
      simp only [hr2]
      rw [h1]
    | none =>
      have hr2 := hr
      rw [h1] at hr2
      simp only [hr2]
      rw [h2 hr, ih _ _ (fun b hb2 => hwf b (List.mem_cons_of_mem _ hb2)), h1, hzip]

/-- The apply in order runs through all the pairs with success, or stops right
after the first pair whose `applyBlock` fails, with that error. -/
theorem applyInOrder_stops (env : Nat → ApplyEnv) (pairs : List (Block × Commit)) :
    ∀ (k : Nat) (m : Manager),
      ((applyInOrder env pairs k m).err = none ∧
          appliedPairs (applyInOrder env pairs k m).calls = pairs) ∨
        (∃ n block commit e, pairs[n]? = some (block, commit) ∧
          appliedPairs (applyInOrder env pairs k m).calls = pairs.take (n + 1) ∧
          (applyInOrder env (pairs.take n) k m).err = none ∧
          (applyBlock (env (k + n)) (applyInOrder env (pairs.take n) k m).m block commit).err =
            some e ∧
          (applyInOrder env pairs k m).err = some e ∧
          (applyInOrder env pairs k m).m =
            (applyBlock (env (k + n)) (applyInOrder env (pairs.take n) k m).m block commit).m) := by
  induction pairs with
  | nil =>
    intro k m
    left
    exact ⟨rfl, rfl⟩
  | cons x rest ih =>
    intro k m
    obtain ⟨block, commit⟩ := x
    cases ha : (applyBlock (env k) m block commit).err with
    | some e =>
      right
      refine ⟨0, block, commit, e, by simp, ?_, rfl, ?_, ?_, ?_⟩
      · simp [applyInOrder, ha, appliedPairs, appliedPairs_applyBlock]
      · simpa [applyInOrder] using ha
      · simp [applyInOrder, ha]
      · simp [applyInOrder, ha]
    | none =>
      rcases ih (k + 1) (applyBlock (env k) m block commit).m with ⟨h1, h2⟩ |
        ⟨n, b, c, e, h1, h2, h3, h4, h5, h6⟩
      · left
        constructor
        · simp [applyInOrder, ha, h1]
        · simp [applyInOrder, ha, appliedPairs, appliedPairs_append, appliedPairs_applyBlock, h2]
      · right
        have hk : k + (n + 1) = k + 1 + n := by omega
        have htake : applyInOrder env (List.take (n + 1) ((block, commit) :: rest)) k m =
            ⟨(applyInOrder env (rest.take n) (k + 1) (applyBlock (env k) m block commit).m).m,
              .applyBlock block commit :: (applyBlock (env k) m block commit).calls ++
                (applyInOrder env (rest.take n) (k + 1)
                  (applyBlock (env k) m block commit).m).calls,
              (applyInOrder env (rest.take n) (k + 1)
                (applyBlock (env k) m block commit).m).err⟩ := by
          simp [applyInOrder, ha]
        refine ⟨n + 1, b, c, e, ?_, ?_, ?_, ?_, ?_, ?_⟩
        · simpa using h1
        · simp [applyInOrder, ha, appliedPairs, appliedPairs_append, appliedPairs_applyBlock, h2]
        · rw [htake]; exact h3
        · rw [htake, hk]; exact h4
        · simp [applyInOrder, ha, h5]
        · rw [htake, hk]
          simp [applyInOrder, ha, h6]

/-- On a batch with a block and no commit at its index, `processNextDABatch`
ends in the index-out-of-range panic of `batch.Commits[i]`. -/
theorem processNextDABatch_missing_commit :
    (processNextDABatch daEnvMissingCommit managerWithFive 3).err = some .indexOutOfRange ∧
      appliedPairs (processNextDABatch daEnvMissingCommit managerWithFive 3).calls = [] := by
  decide

/-! ## Lemmas on the genesis chunks -/

theorem base64_example :
    base64Encode [77, 97, 110] = [84, 87, 70, 117] ∧
      base64Encode [77, 97] = [84, 87, 69, 61] ∧
      base64Encode [77] = [84, 81, 61, 61] ∧
      base64Decode (base64Encode genesisJson) = some genesisJson := by
  decide

/-- The slice one iteration encodes is the next `size` bytes from offset `i`,
or what is left of `data`. -/
theorem sliceBytes_chunk (data : Bytes) (i size : Nat) :
    sliceBytes data i (if i + size > data.length then data.length else i + size) =
      (data.drop i).take size := by
  unfold sliceBytes
  split
  · rename_i h
    rw [List.take_length, List.take_of_length_le]
    rw [List.length_drop]
    omega
  · rw [List.drop_take]
    congr 1
    omega

/-- The loop appends the encodings of the slices, in order. -/
theorem initGenesisChunks.loop_eq (codec : Codec) (size : Nat) (data : Bytes) :
    ∀ (fuel i : Nat) (genChunks : List GoString),
      initGenesisChunks.loop codec size data fuel i genChunks =
        genChunks ++ (initGenesisChunks.slices size data fuel i).map codec.encodeToString := by
  intro fuel
  induction fuel with
  | zero => intro i genChunks; simp [initGenesisChunks.loop, initGenesisChunks.slices]
  | succ fuel ih =>
    intro i genChunks
    unfold initGenesisChunks.loop initGenesisChunks.slices
    by_cases h : i < data.length
    · simp only [h, if_true]
      rw [ih]
      simp
    · simp [h]

/-- With a positive step and enough fuel, the slices concatenate to the bytes
from offset `i` on. -/
theorem initGenesisChunks.slices_flatten (size : Nat) (data : Bytes) (hsize : 0 < size) :
    ∀ (fuel i : Nat), data.length - i ≤ fuel →
      (initGenesisChunks.slices size data fuel i).flatten = data.drop i := by
  intro fuel
  induction fuel with
  | zero =>
    intro i h
    rw [List.drop_eq_nil_of_le (by omega)]
    rfl
  | succ fuel ih =>
    intro i h
    unfold initGenesisChunks.slices
    by_cases hi : i < data.length
    · simp only [hi, if_true, List.flatten_cons]
      rw [ih (i + size) (by omega), sliceBytes_chunk, ← List.drop_drop, List.take_append_drop]
    · simp only [hi, if_false, List.flatten_nil]
      rw [List.drop_eq_nil_of_le (by omega)]

/-- With a positive step and enough fuel, the number of slices is the length of
the rest of `data` divided by the step, rounded up. -/
theorem initGenesisChunks.slices_length (size : Nat) (data : Bytes) (hsize : 0 < size) :
    ∀ (fuel i : Nat), data.length - i ≤ fuel →
      (initGenesisChunks.slices size data fuel i).length = (data.length - i + size - 1) / size := by
  intro fuel
  induction fuel with
  | zero =>
    intro i h
    rw [Nat.div_eq_of_lt (by omega)]
    rfl
  | succ fuel ih =>
    intro i h
    unfold initGenesisChunks.slices
    by_cases hi : i < data.length
    · simp only [hi, if_true, List.length_cons]
      rw [ih (i + size) (by omega)]
      by_cases hrest : i + size < data.length
      · have e : data.length - i + size - 1 = (data.length - (i + size) + size - 1) + size := by
          omega
        rw [e, Nat.add_div_right _ hsize]
      · have e : data.length - i + size - 1 = (data.length - i - 1) + size := by omega
        rw [e, Nat.add_div_right _ hsize, Nat.div_eq_of_lt (by omega),
          Nat.div_eq_of_lt (by omega)]
    · simp only [hi, if_false, List.length_nil]
      rw [Nat.div_eq_of_lt (by omega)]

/-- No slice is longer than the step. -/
theorem initGenesisChunks.slices_le (size : Nat) (data : Bytes) :
    ∀ (fuel i : Nat), ∀ c ∈ initGenesisChunks.slices size data fuel i, c.length ≤ size := by
  intro fuel
  induction fuel with
  | zero => intro i c hc; simp [initGenesisChunks.slices] at hc
  | succ fuel ih =>
    intro i c hc
    unfold initGenesisChunks.slices at hc
    by_cases hi : i < data.length
    · simp only [hi, if_true, List.mem_cons] at hc
      rcases hc with hc | hc
      · rw [hc, sliceBytes_chunk, List.length_take]
        omega
      · exact ih _ c hc
    · simp [hi] at hc

/-- No slice is empty. -/
theorem initGenesisChunks.slices_ne_nil (size : Nat) (data : Bytes) (hsize : 0 < size) :
    ∀ (fuel i : Nat), ∀ c ∈ initGenesisChunks.slices size data fuel i, c ≠ [] := by
  intro fuel
  induction fuel with
  | zero => intro i c hc; simp [initGenesisChunks.slices] at hc
  | succ fuel ih =>
    intro i c hc
    unfold initGenesisChunks.slices at hc
    by_cases hi : i < data.length
    · simp only [hi, if_true, List.mem_cons] at hc
      rcases hc with hc | hc
      · intro hnil
        have hlen : c.length = 0 := by rw [hnil]; rfl
        rw [hc, sliceBytes_chunk, List.length_take, List.length_drop] at hlen
        omega
      · exact ih _ c hc
    · simp [hi] at hc

/-- Every slice but the last has exactly the length of the step. -/
theorem initGenesisChunks.slices_full (size : Nat) (data : Bytes) :
    ∀ (fuel i : Nat), ∀ c ∈ (initGenesisChunks.slices size data fuel i).dropLast,
      c.length = size := by
  intro fuel
  induction fuel with
  | zero => intro i c hc; simp [initGenesisChunks.slices] at hc
  | succ fuel ih =>
    intro i c hc
    unfold initGenesisChunks.slices at hc
    by_cases hi : i < data.length
    · simp only [hi, if_true] at hc
      cases hrest : initGenesisChunks.slices size data fuel (i + size) with
      | nil => simp [hrest] at hc
      | cons s rest =>
        have hlt : i + size < data.length := by
          cases fuel with
          | zero => simp [initGenesisChunks.slices] at hrest
          | succ fuel =>
            unfold initGenesisChunks.slices at hrest
            by_cases h2 : i + size < data.length
            · exact h2
            · simp [h2] at hrest
        rw [hrest, List.dropLast_cons₂, List.mem_cons] at hc
        rcases hc with hc | hc
        · rw [hc, sliceBytes_chunk, List.length_take, List.length_drop]
          omega
        · apply ih (i + size) c
          rw [hrest]
          exact hc
    · simp [hi] at hc

/-- The loop on 21 bytes with a step of 8: three chunks, of 8, 8 and 5 bytes,
which decode to the bytes given. -/
theorem initGenesisChunks.loop_example :
    initGenesisChunks.slices 8 genesisJson 21 0 =
        [[123, 34, 99, 104, 97, 105, 110, 95], [105, 100, 34, 58, 34, 100, 121, 109],
          [105, 110, 116, 34, 125]] ∧
      (initGenesisChunks.loop base64Codec 8 genesisJson 21 0 []).map base64Decode =
        (initGenesisChunks.slices 8 genesisJson 21 0).map some ∧
      (initGenesisChunks.loop base64Codec 8 genesisJson 21 0 []).length = (21 + 8 - 1) / 8 := by
  decide

/-! ## C1 to C4: the apply path -/

/-- C1: when the block's header height is at most the store height, `applyBlock`
returns success, makes no store or executor call and leaves the whole manager
state (in particular `lastState` and the store height) unchanged. -/
theorem applyBlock_duplicate_is_noop (env : ApplyEnv) (m : Manager) (block : Block)
    (commit : Commit) (h : block.header.height ≤ m.store.height) :
    (applyBlock env m block commit).err = none ∧
      (applyBlock env m block commit).calls = [] ∧
      (applyBlock env m block commit).m = m := by
  rw [applyBlock_of_le env m block commit h]
  exact ⟨rfl, rfl, rfl⟩

theorem applyBlock_duplicate_is_noop_witness :
    (blockAt 3).header.height ≤ (managerAt 5 1).store.height ∧
      ((applyBlock envOk (managerAt 5 1) (blockAt 3) (commitAt 3)).err = none ∧
        (applyBlock envOk (managerAt 5 1) (blockAt 3) (commitAt 3)).calls = [] ∧
        (applyBlock envOk (managerAt 5 1) (blockAt 3) (commitAt 3)).m = managerAt 5 1) :=
  ⟨by decide, applyBlock_duplicate_is_noop envOk (managerAt 5 1) (blockAt 3) (commitAt 3)
    (by decide)⟩

/-- C2 (as stated, refuted): a first `applyBlock` that fails in `SaveBlock`
leaves the store height at 0; the second call with the same block and commit,
on which the store and the executor succeed, is not a no-op: it makes calls,
replaces `lastState` and moves the store height to 1. -/
theorem applyBlock_retry_after_failure_not_noop :
    (applyBlock { envOk with saveBlock := some (.fail 1) } (managerAt 0 1) (blockAt 1)
        (commitAt 1)).err = some (.fail 1) ∧
      (applyBlock { envOk with saveBlock := some (.fail 1) } (managerAt 0 1) (blockAt 1)
        (commitAt 1)).m.store.height = 0 ∧
      (applyBlock envOk
        (applyBlock { envOk with saveBlock := some (.fail 1) } (managerAt 0 1) (blockAt 1)
          (commitAt 1)).m (blockAt 1) (commitAt 1)).m.store.height = 1 ∧
      (applyBlock envOk
        (applyBlock { envOk with saveBlock := some (.fail 1) } (managerAt 0 1) (blockAt 1)
          (commitAt 1)).m (blockAt 1) (commitAt 1)).m.lastState ≠
        (applyBlock { envOk with saveBlock := some (.fail 1) } (managerAt 0 1) (blockAt 1)
          (commitAt 1)).m.lastState ∧
      (applyBlock envOk
        (applyBlock { envOk with saveBlock := some (.fail 1) } (managerAt 0 1) (blockAt 1)
          (commitAt 1)).m (blockAt 1) (commitAt 1)).calls ≠ [] := by
  decide

/-- C2 (amended): after an `applyBlock` that returned success, a second
`applyBlock` with the same block and commit is a no-op, whatever the store and
the executor would answer: it returns success, makes no call and leaves the
manager state (`lastState`, store contents, store height) as the first call
left it. -/
theorem applyBlock_twice_second_is_noop (env1 env2 : ApplyEnv) (m : Manager) (block : Block)
    (commit : Commit) (h : (applyBlock env1 m block commit).err = none) :
    applyBlock env2 (applyBlock env1 m block commit).m block commit =
      ⟨(applyBlock env1 m block commit).m, [], none⟩ := by
  apply applyBlock_of_le
  rcases applyBlock_height_cases env1 m block commit with ⟨h1, h2⟩ | ⟨_, _, h3⟩
  · rw [h1]; exact h2 h
  · exact Nat.le_of_eq h3.symm

theorem applyBlock_twice_second_is_noop_witness :
    (applyBlock envOk (managerAt 0 1) (blockAt 1) (commitAt 1)).err = none ∧
      applyBlock { envOk with batchCommit := some (.fail 2) }
          (applyBlock envOk (managerAt 0 1) (blockAt 1) (commitAt 1)).m (blockAt 1)
          (commitAt 1) =
        ⟨(applyBlock envOk (managerAt 0 1) (blockAt 1) (commitAt 1)).m, [], none⟩ :=
  ⟨by decide, applyBlock_twice_second_is_noop envOk { envOk with batchCommit := some (.fail 2) }
    (managerAt 0 1) (blockAt 1) (commitAt 1) (by decide)⟩

/-- C3: an `applyBlock` that returns an error leaves the store height as it
was before the call. -/
theorem applyBlock_error_keeps_height (env : ApplyEnv) (m : Manager) (block : Block)
    (commit : Commit) (h : (applyBlock env m block commit).err ≠ none) :
    (applyBlock env m block commit).m.store.height = m.store.height := by
  rcases applyBlock_height_cases env m block commit with ⟨h1, _⟩ | ⟨_, h2, _⟩
  · exact h1
  · exact absurd h2 h

theorem applyBlock_error_keeps_height_witness :
    (applyBlock { envOk with batchCommit := some (.fail 2) } (managerAt 4 1) (blockAt 5)
        (commitAt 5)).err ≠ none ∧
      (applyBlock { envOk with batchCommit := some (.fail 2) } (managerAt 4 1) (blockAt 5)
        (commitAt 5)).m.store.height = (managerAt 4 1).store.height :=
  ⟨by decide, applyBlock_error_keeps_height { envOk with batchCommit := some (.fail 2) }
    (managerAt 4 1) (blockAt 5) (commitAt 5) (by decide)⟩

/-- C4 (as stated, refuted): when `UpdateState` fails after the executor apply
succeeded, `applyBlock` returns the error with `lastState` already replaced by
the executor's new state. -/
theorem applyBlock_updateState_failure_changes_lastState :
    (applyBlock { envOk with updateState := some (.fail 3) } (managerAt 0 1) (blockAt 1)
        (commitAt 1)).err = some (.fail 3) ∧
      (applyBlock { envOk with updateState := some (.fail 3) } (managerAt 0 1) (blockAt 1)
        (commitAt 1)).m.lastState ≠ (managerAt 0 1).lastState := by
  decide

/-- C4 (amended): when `applyBlock` returns an error, `lastState` is unchanged
if `SaveBlock`, the executor's `ApplyBlock`, the executor's `Commit` or
`SaveBlockResponses` failed; if these four succeeded (the failure is that of
`UpdateState`, `SaveValidators` or the write-batch commit), `lastState` is the
new state the executor produced. -/
theorem applyBlock_error_lastState (env : ApplyEnv) (m : Manager) (block : Block)
    (commit : Commit) (h : (applyBlock env m block commit).err ≠ none) :
    ((env.saveBlock ≠ none ∨
        (∃ e, env.execApplyBlock m.lastState block commit = .error e) ∨
        (∃ s0 r e, env.execApplyBlock m.lastState block commit = .ok (s0, r) ∧
          env.execCommit s0 block r = .error e) ∨
        env.saveBlockResponses ≠ none) →
      (applyBlock env m block commit).m.lastState = m.lastState) ∧
    (∀ s0 r s1, env.saveBlock = none →
      env.execApplyBlock m.lastState block commit = .ok (s0, r) →
      env.execCommit s0 block r = .ok s1 →
      env.saveBlockResponses = none →
      (applyBlock env m block commit).m.lastState = s1) := by
  by_cases hg : block.header.height > m.store.height
  · cases h1 : env.saveBlock with
    | some e => simp [applyBlock, hg, h1]
    | none =>
      cases h2 : env.execApplyBlock m.lastState block commit with
      | error e => simp [applyBlock, hg, h1, h2]
      | ok p =>
        obtain ⟨s0, r⟩ := p
        cases h3 : env.execCommit s0 block r with
        | error e =>
          simp [applyBlock, hg, h1, h2, h3]
          intro _ _ _ hs hr hc
          subst hs hr
          rw [h3] at hc
          cases hc
        | ok s1 =>
          cases h4 : env.saveBlockResponses with
          | some e => simp [applyBlock, hg, h1, h2, h3, h4]
          | none =>
            cases h5 : env.updateState with
            | some e =>
              simp [applyBlock, hg, h1, h2, h3, h4, h5]
              intro _ _ _ hs hr hc
              subst hs hr
              rw [h3] at hc
              cases hc
              rfl
            | none =>
              cases h6 : env.saveValidators with
              | some e =>
              simp [applyBlock, hg, h1, h2, h3, h4, h5, h6]
              intro _ _ _ hs hr hc
              subst hs hr
              rw [h3] at hc
              cases hc
              rfl
              | none =>
                cases h7 : env.batchCommit with
                | some e =>
              simp [applyBlock, hg, h1, h2, h3, h4, h5, h6, h7]
              intro _ _ _ hs hr hc
              subst hs hr
              rw [h3] at hc
              cases hc
              rfl
                | none =>
                  exfalso
                  apply h
                  simp [applyBlock, hg, h1, h2, h3, h4, h5, h6, h7]
  · exfalso
    apply h
    rw [applyBlock_of_le env m block commit (Nat.not_lt.mp hg)]

theorem applyBlock_error_lastState_witness :
    (applyBlock { envOk with saveValidators := some (.fail 4) } (managerAt 0 1) (blockAt 1)
        (commitAt 1)).err ≠ none ∧
      (applyBlock { envOk with saveValidators := some (.fail 4) } (managerAt 0 1) (blockAt 1)
        (commitAt 1)).m.lastState =
        { genesisState with lastBlockHeight := 1, appHash := 1 :: zeroHash } :=
  ⟨by decide,
    (applyBlock_error_lastState { envOk with saveValidators := some (.fail 4) } (managerAt 0 1)
      (blockAt 1) (commitAt 1) (by decide)).2 _ _ _ rfl rfl rfl rfl⟩

/-! ## C5: the store height never decreases -/

/-- C5: the store height after `applyBlock`, `produceBlock`,
`processNextDABatch` and `syncUntilTarget` is at least the store height before,
for every input and every behaviour of the collaborators; and a successful
`applyBlock` of a block above the store height sets the store height to the
block's header height. -/
theorem store_height_monotone :
    (∀ (env : ApplyEnv) (m : Manager) (block : Block) (commit : Commit),
      m.store.height ≤ (applyBlock env m block commit).m.store.height) ∧
    (∀ (env : ProduceEnv) (m : Manager),
      m.store.height ≤ (produceBlock env m).m.store.height) ∧
    (∀ (env : DAEnv) (m : Manager) (daHeight : Nat),
      m.store.height ≤ (processNextDABatch env m daHeight).m.store.height) ∧
    (∀ (envs : List SyncEnv) (m : Manager) (syncTarget : Nat),
      m.store.height ≤ (syncUntilTarget envs m syncTarget).m.store.height) ∧
    (∀ (env : ApplyEnv) (m : Manager) (block : Block) (commit : Commit),
      m.store.height < block.header.height →
      (applyBlock env m block commit).err = none →
      (applyBlock env m block commit).m.store.height = block.header.height) := by
  refine ⟨applyBlock_height_le, produceBlock_height_le, processNextDABatch_height_le, ?_, ?_⟩
  · intro envs m syncTarget
    exact syncLoop_height_le syncTarget envs m m.store.height
  · intro env m block commit hlt hok
    rcases applyBlock_height_cases env m block commit with ⟨_, h2⟩ | ⟨_, _, h3⟩
    · exact absurd (h2 hok) (Nat.not_le.mpr hlt)
    · exact h3

theorem store_height_monotone_witness :
    (managerAt 5 1).store.height < (blockAt 7).header.height ∧
      (applyBlock envOk (managerAt 5 1) (blockAt 7) (commitAt 7)).err = none ∧
      (applyBlock envOk (managerAt 5 1) (blockAt 7) (commitAt 7)).m.store.height =
        (blockAt 7).header.height :=
  ⟨by decide, by decide,
    store_height_monotone.2.2.2.2 envOk (managerAt 5 1) (blockAt 7) (commitAt 7) (by decide)
      (by decide)⟩

/-! ## C6: availability of the blocks up to the store height -/

/-- C6 (as stated, refuted): the store holds blocks and commits 1 to 5 at height
5 (`initialHeight` 1) and the invariant holds; the guard admits block 7, whose
`applyBlock` succeeds and sets the height to 7 with no block at height 6: the
invariant no longer holds. -/
theorem applyBlock_gap_breaks_availability :
    managerWithFive.blocksAvailable ∧
      (applyBlock envOk managerWithFive (blockAt 7) (commitAt 7)).err = none ∧
      (applyBlock envOk managerWithFive (blockAt 7) (commitAt 7)).m.store.height = 7 ∧
      (applyBlock envOk managerWithFive (blockAt 7) (commitAt 7)).m.store.serves 6 = false ∧
      ¬ (applyBlock envOk managerWithFive (blockAt 7) (commitAt 7)).m.blocksAvailable := by
  refine ⟨by decide, by decide, by decide, by decide, ?_⟩
  intro h
  exact absurd (h 6 (by decide) (by decide)) (by decide)

/-- C6 (amended): the invariant `every height from initialHeight to the store
height is served` is preserved by every successful `applyBlock` whose block has
a header height of at most the store height plus one (a duplicate or the next
block) or of at most `initialHeight` (the first block of the chain). -/
theorem applyBlock_preserves_availability (env : ApplyEnv) (m : Manager) (block : Block)
    (commit : Commit) (hinv : m.blocksAvailable)
    (hok : (applyBlock env m block commit).err = none)
    (hnext : block.header.height ≤ m.store.height + 1 ∨
      (block.header.height : Int) ≤ m.initialHeight) :
    (applyBlock env m block commit).m.blocksAvailable := by
  by_cases hg : m.store.height < block.header.height
  · obtain ⟨s0, r, s1, _, _, hm⟩ := applyBlock_success env m block commit hg hok
    intro h hle hinit
    rw [applyBlock_success_serves env m block commit hg hok h]
    by_cases hh : h = block.header.height
    · simp [hh]
    · rw [if_neg hh]
      have hheight : (applyBlock env m block commit).m.store.height = block.header.height := by
        rw [hm]; rfl
      have hinit0 : (applyBlock env m block commit).m.initialHeight = m.initialHeight := by
        rw [hm]
      rw [hheight] at hle
      rw [hinit0] at hinit
      have hlt : h < block.header.height := Nat.lt_of_le_of_ne hle hh
      rcases hnext with hn | hn
      · exact hinv h (by omega) hinit
      · exfalso
        have : (h : Int) < (block.header.height : Int) := by exact_mod_cast hlt
        omega
  · rw [applyBlock_of_le env m block commit (Nat.not_lt.mp hg)]
    exact hinv

theorem applyBlock_preserves_availability_witness :
    managerWithFive.blocksAvailable ∧
      (applyBlock envOk managerWithFive (blockAt 6) (commitAt 6)).err = none ∧
      ((blockAt 6).header.height ≤ managerWithFive.store.height + 1 ∨
        ((blockAt 6).header.height : Int) ≤ managerWithFive.initialHeight) ∧
      (applyBlock envOk managerWithFive (blockAt 6) (commitAt 6)).m.blocksAvailable :=
  ⟨by decide, by decide, Or.inl (by decide),
    applyBlock_preserves_availability envOk managerWithFive (blockAt 6) (commitAt 6)
      (by decide) (by decide) (Or.inl (by decide))⟩

/-! ## C7 to C10: the producer -/

/-- C7 (as stated, refuted): with `initialHeight` 5 and store height 4 the new
height 5 is the initial height, and the last commit handed to `CreateBlock` is
the synthetic commit of height 4, not of height 0. -/
theorem produceBlock_genesis_commit_height_not_zero :
    addU64 (managerAt 4 5).store.height 1 = toUint64 (managerAt 4 5).initialHeight ∧
      Call.createBlock 5 { height := 4, headerHash := zeroHash, signatures := [] } zeroHash
          genesisState ∈ (produceBlock produceEnvOk (managerAt 4 5)).calls ∧
      (∀ lc lhh st, Call.createBlock 5 lc lhh st ∈
          (produceBlock produceEnvOk (managerAt 4 5)).calls → lc.height ≠ 0) := by
  refine ⟨by decide, by decide, ?_⟩
  intro lc lhh st h
  have h2 : (produceBlock produceEnvOk (managerAt 4 5)).calls =
      [.loadBlock 5,
        .createBlock 5 { height := 4, headerHash := zeroHash, signatures := [] } zeroHash
          genesisState,
        .marshalHeader (produceEnvOk.createBlock 5
          { height := 4, headerHash := zeroHash, signatures := [] } zeroHash genesisState).header,
        .sign [5]] ++
      (produceBlock.publish produceEnvOk (managerAt 4 5)
        (produceEnvOk.createBlock 5
          { height := 4, headerHash := zeroHash, signatures := [] } zeroHash genesisState)
        { height := 5, headerHash := [5, 1], signatures := [[0, 5]] }).calls := by
    decide
  rw [h2] at h
  simp only [List.mem_append, List.mem_cons, List.mem_singleton, List.not_mem_nil, or_false,
    Call.createBlock.injEq, reduceCtorEq, false_or] at h
  rcases h with h | h
  · rw [h.2.1]; decide
  · rcases publish_calls_kind _ _ _ _ _ h with h1 | ⟨_, h1⟩ | h1 | h1 | h1
    · cases h1
    · cases h1
    · cases h1
    · cases h1
    · cases h1

/-- C7 (amended): every `CreateBlock` call of `produceBlock` is made at the new
height `H = store.height + 1`; when `H` is the initial height its last commit is
the synthetic commit of height `store.height` (that is `H - 1`), with all-zero
header hash and no signature, and the last header hash is all-zero; for every
other `H` the last commit and the last header hash are those of the commit and
block loaded from the store at `store.height`. `CreateBlock` is called with
these values whenever the store has no block at `H`. If `H` is not the initial
height and one of the two loads fails, `produceBlock` returns an error, leaves
the manager unchanged and makes no call besides those loads (no gossip, no
apply). -/
theorem produceBlock_last_commit (env : ProduceEnv) (m : Manager) :
    (∀ h lc lhh st, Call.createBlock h lc lhh st ∈ (produceBlock env m).calls →
      h = addU64 m.store.height 1 ∧ st = m.lastState ∧
      ((addU64 m.store.height 1 = toUint64 m.initialHeight ∧
          lc = { height := m.store.height, headerHash := zeroHash, signatures := [] } ∧
          lhh = zeroHash) ∨
        (addU64 m.store.height 1 ≠ toUint64 m.initialHeight ∧
          m.store.loadCommit m.store.height = .ok lc ∧
          ∃ lb, m.store.loadBlock m.store.height = .ok lb ∧ lhh = env.headerHash lb.header))) ∧
    (∀ e0, m.store.loadBlock (addU64 m.store.height 1) = .error e0 →
      addU64 m.store.height 1 = toUint64 m.initialHeight →
      Call.createBlock (addU64 m.store.height 1)
        { height := m.store.height, headerHash := zeroHash, signatures := [] } zeroHash
        m.lastState ∈ (produceBlock env m).calls) ∧
    (∀ e0 lc lb, m.store.loadBlock (addU64 m.store.height 1) = .error e0 →
      addU64 m.store.height 1 ≠ toUint64 m.initialHeight →
      m.store.loadCommit m.store.height = .ok lc →
      m.store.loadBlock m.store.height = .ok lb →
      Call.createBlock (addU64 m.store.height 1) lc (env.headerHash lb.header) m.lastState ∈
        (produceBlock env m).calls) ∧
    (addU64 m.store.height 1 ≠ toUint64 m.initialHeight →
      ((∃ e, m.store.loadCommit m.store.height = .error e) ∨
        (∃ e, m.store.loadBlock m.store.height = .error e)) →
      (produceBlock env m).err ≠ none ∧ (produceBlock env m).m = m ∧
        ∀ x ∈ (produceBlock env m).calls,
          x = .loadCommit m.store.height ∨ x = .loadBlock m.store.height) := by
  refine ⟨?_, ?_, ?_, ?_⟩
  · intro h lc lhh st hx
    obtain ⟨h1, h2, t1, h3⟩ := produceBlock_createBlock_call env m h lc lhh st hx
    exact ⟨h1, h2, loadLast_ok env m lc lhh t1 h3⟩
  · intro e0 hp hi
    apply produceBlock_calls_createBlock env m _ _ [] e0 _ hp
    simp [produceBlock.loadLast, hi]
  · intro e0 lc lb hp hi hc hb
    apply produceBlock_calls_createBlock env m _ _
      [.loadCommit m.store.height, .loadBlock m.store.height] e0 _ hp
    simp [produceBlock.loadLast, hi, hc, hb]
  · intro hi hfail
    have hload : ∃ e t1, produceBlock.loadLast env m = (.error e, t1) := by
      unfold produceBlock.loadLast
      simp only [hi, if_false]
      cases hc : m.store.loadCommit m.store.height with
      | error e => exact ⟨_, _, rfl⟩
      | ok c =>
        cases hb : m.store.loadBlock m.store.height with
        | error e => exact ⟨_, _, rfl⟩
        | ok b =>
          rcases hfail with ⟨e, he⟩ | ⟨e, he⟩
          · rw [hc] at he; cases he
          · rw [hb] at he; cases he
    obtain ⟨e, t1, h1⟩ := hload
    have hp : produceBlock env m = ⟨m, t1, some e⟩ := by
      unfold produceBlock
      simp [h1]
    rw [hp]
    refine ⟨by simp, rfl, ?_⟩
    intro x hx
    exact loadLast_calls env m x (by rw [h1]; exact hx)

theorem produceBlock_last_commit_witness :
    managerWithFive.store.loadBlock (addU64 managerWithFive.store.height 1) = .error .notFound ∧
      addU64 managerWithFive.store.height 1 ≠ toUint64 managerWithFive.initialHeight ∧
      managerWithFive.store.loadCommit managerWithFive.store.height = .ok (commitAt 5) ∧
      managerWithFive.store.loadBlock managerWithFive.store.height = .ok (blockAt 5) ∧
      Call.createBlock (addU64 managerWithFive.store.height 1) (commitAt 5)
        (produceEnvOk.headerHash (blockAt 5).header) managerWithFive.lastState ∈
        (produceBlock produceEnvOk managerWithFive).calls :=
  ⟨rfl, by decide, rfl, rfl,
    (produceBlock_last_commit produceEnvOk managerWithFive).2.2.1 .notFound (commitAt 5)
      (blockAt 5) rfl (by decide) rfl rfl⟩

/-- C8 (as stated, refuted): the store holds the pending block 2 and its commit
at store height 1. When the p2p publish fails, `produceBlock` returns the
gossip error and does not apply the stored block (the height stays 1). When the
commit at height 1 is missing, `produceBlock` fails on the load of the last
commit and does not even gossip: its only call is that load. -/
theorem produceBlock_pending_not_always_applied :
    managerPending.store.loadBlock (addU64 managerPending.store.height 1) = .ok (blockAt 2) ∧
      (produceBlock produceEnvGossipFails managerPending).err = some (.fail 9) ∧
      Call.applyBlock (blockAt 2) (commitAt 2) ∉
        (produceBlock produceEnvGossipFails managerPending).calls ∧
      (produceBlock produceEnvGossipFails managerPending).m.store.height = 1 ∧
      managerPendingNoLast.store.loadBlock (addU64 managerPendingNoLast.store.height 1) =
        .ok (blockAt 2) ∧
      (produceBlock produceEnvOk managerPendingNoLast).err = some (.lastCommitLoad .notFound) ∧
      (produceBlock produceEnvOk managerPendingNoLast).calls = [.loadCommit 1] := by
  refine ⟨rfl, by decide, by decide, by decide, rfl, by decide, by decide⟩

/-- C8 (amended): when the store holds a block at `H = store.height + 1`,
`produceBlock` never calls `CreateBlock`, the header marshaller or the signer.
If the commit at `H` does not load, it returns an error, leaves the manager
unchanged and makes no call besides loads. If the commit at `H` loads and the
first part succeeds (`H` is the initial height, or the commit and block at the
store height load), it gossips exactly the stored block with the stored commit,
gossips and applies no other pair, and, when the gossip succeeds, applies that
pair: store, `lastState` and returned error are those of `applyBlock` on it. -/
theorem produceBlock_reuses_pending (env : ProduceEnv) (m : Manager) (pending : Block)
    (hp : m.store.loadBlock (addU64 m.store.height 1) = .ok pending) :
    (∀ x ∈ (produceBlock env m).calls, x.isCreateOrSign = false) ∧
    (∀ e, m.store.loadCommit (addU64 m.store.height 1) = .error e →
      (produceBlock env m).err ≠ none ∧ (produceBlock env m).m = m ∧
        ∀ x ∈ (produceBlock env m).calls, x.isLoad = true) ∧
    (∀ c, m.store.loadCommit (addU64 m.store.height 1) = .ok c →
      (addU64 m.store.height 1 = toUint64 m.initialHeight ∨
        ((∃ lc, m.store.loadCommit m.store.height = .ok lc) ∧
          ∃ lb, m.store.loadBlock m.store.height = .ok lb)) →
      Call.marshalGossip pending c ∈ (produceBlock env m).calls ∧
      (∀ b1 c1, Call.marshalGossip b1 c1 ∈ (produceBlock env m).calls →
        b1 = pending ∧ c1 = c) ∧
      (∀ b1 c1, Call.applyBlock b1 c1 ∈ (produceBlock env m).calls →
        b1 = pending ∧ c1 = c) ∧
      ((gossipBlock env.gossip m pending c).err = none →
        Call.applyBlock pending c ∈ (produceBlock env m).calls ∧
        (produceBlock env m).m.store = (applyBlock env.apply m pending c).m.store ∧
        (produceBlock env m).m.lastState = (applyBlock env.apply m pending c).m.lastState ∧
        (produceBlock env m).err = (applyBlock env.apply m pending c).err)) := by
  have hloads : ∀ x : Call,
      x ∈ [Call.loadBlock (addU64 m.store.height 1), .loadCommit (addU64 m.store.height 1)] →
        x.isLoad = true := by
    intro x hx
    simp only [List.mem_cons, List.mem_singleton, List.not_mem_nil, or_false] at hx
    rcases hx with h | h <;> rw [h] <;> rfl
  refine ⟨?_, ?_, ?_⟩
  · intro x hx
    rcases produceBlock_pending_cases env m pending hp with ⟨e, t1, h1, hpb⟩ |
      ⟨lc, lhh, t1, e, h1, _, hpb⟩ | ⟨lc, lhh, t1, c, h1, _, hpb⟩
    · rw [hpb] at hx
      exact isLoad_not_createOrSign x (loadLast_calls_isLoad env m x (by rw [h1]; exact hx))
    · rw [hpb] at hx
      simp only [List.mem_append] at hx
      rcases hx with hx | hx
      · exact isLoad_not_createOrSign x (loadLast_calls_isLoad env m x (by rw [h1]; exact hx))
      · exact isLoad_not_createOrSign x (hloads x hx)
    · rw [hpb] at hx
      simp only [List.mem_append] at hx
      rcases hx with (hx | hx) | hx
      · exact isLoad_not_createOrSign x (loadLast_calls_isLoad env m x (by rw [h1]; exact hx))
      · exact isLoad_not_createOrSign x (hloads x hx)
      · exact publish_calls_not_createOrSign env m pending c x hx
  · intro e he
    rcases produceBlock_pending_cases env m pending hp with ⟨e1, t1, h1, hpb⟩ |
      ⟨lc, lhh, t1, e1, h1, _, hpb⟩ | ⟨lc, lhh, t1, c, _, hc, _⟩
    · rw [hpb]
      refine ⟨by simp, rfl, ?_⟩
      intro x hx
      exact loadLast_calls_isLoad env m x (by rw [h1]; exact hx)
    · rw [hpb]
      refine ⟨by simp, rfl, ?_⟩
      intro x hx
      simp only [List.mem_append] at hx
      rcases hx with hx | hx
      · exact loadLast_calls_isLoad env m x (by rw [h1]; exact hx)
      · exact hloads x hx
    · rw [he] at hc; cases hc
  · intro c hc hlast
    rcases produceBlock_pending_cases env m pending hp with ⟨e1, t1, h1, _⟩ |
      ⟨lc, lhh, t1, e1, _, he, _⟩ | ⟨lc, lhh, t1, c0, h1, hc0, hpb⟩
    · exfalso
      obtain ⟨hi, hfail⟩ := loadLast_error env m e1 t1 h1
      rcases hlast with hl | ⟨⟨lc, hl1⟩, ⟨lb, hl2⟩⟩
      · exact hi hl
      · rcases hfail with ⟨e0, hf, _⟩ | ⟨e0, hf, _⟩
        · rw [hl1] at hf; cases hf
        · rw [hl2] at hf; cases hf
    · rw [hc] at he; cases he
    · rw [hc] at hc0
      cases hc0
      have hnotload : ∀ x : Call, x.isLoad = false →
          x ∈ (produceBlock env m).calls →
            x ∈ (produceBlock.publish env m pending c).calls := by
        intro x hxl hx
        rw [hpb] at hx
        simp only [List.mem_append] at hx
        rcases hx with (hx | hx) | hx
        · have := loadLast_calls_isLoad env m x (by rw [h1]; exact hx)
          rw [this] at hxl; cases hxl
        · have := hloads x hx
          rw [this] at hxl; cases hxl
        · exact hx
      have hin : ∀ x : Call, x ∈ (produceBlock.publish env m pending c).calls →
          x ∈ (produceBlock env m).calls := by
        intro x hx
        rw [hpb]
        exact List.mem_append_right _ hx
      have hgossipMem : Call.marshalGossip pending c ∈
          (gossipBlock env.gossip m pending c).calls := by
        rcases gossipBlock_calls env.gossip m pending c with h | ⟨_, _, h⟩ <;> rw [h] <;> simp
      refine ⟨?_, ?_, ?_, ?_⟩
      · apply hin
        cases hge : (gossipBlock env.gossip m pending c).err with
        | some e =>
          rw [publish_gossip_error env m pending c e hge]
          exact hgossipMem
        | none =>
          obtain ⟨⟨post, _, hcalls⟩, _⟩ := publish_gossip_ok env m pending c hge
          rw [hcalls]
          simp only [List.mem_append]
          exact Or.inl (Or.inl (Or.inl hgossipMem))
      · intro b1 c1 hx
        have hx2 := hnotload (.marshalGossip b1 c1) rfl hx
        rcases publish_calls_kind env m pending c _ hx2 with h | ⟨_, h⟩ | h | h | h
        · cases h; exact ⟨rfl, rfl⟩
        · cases h
        · cases h
        · cases h
        · cases h
      · intro b1 c1 hx
        have hx2 := hnotload (.applyBlock b1 c1) rfl hx
        rcases publish_calls_kind env m pending c _ hx2 with h | ⟨_, h⟩ | h | h | h
        · cases h
        · cases h
        · cases h; exact ⟨rfl, rfl⟩
        · cases h
        · cases h
      · intro hge
        obtain ⟨⟨post, _, hcalls⟩, hs, hl, herr⟩ := publish_gossip_ok env m pending c hge
        refine ⟨?_, ?_, ?_, ?_⟩
        · apply hin
          rw [hcalls]
          simp
        · rw [hpb]; exact hs
        · rw [hpb]; exact hl
        · rw [hpb]; exact herr

theorem produceBlock_reuses_pending_witness :
    managerPending.store.loadBlock (addU64 managerPending.store.height 1) = .ok (blockAt 2) ∧
      managerPending.store.loadCommit (addU64 managerPending.store.height 1) =
        .ok (commitAt 2) ∧
      (gossipBlock produceEnvOk.gossip managerPending (blockAt 2) (commitAt 2)).err = none ∧
      Call.applyBlock (blockAt 2) (commitAt 2) ∈
        (produceBlock produceEnvOk managerPending).calls ∧
      (produceBlock produceEnvOk managerPending).m.store.height = 2 :=
  ⟨rfl, rfl, by decide,
    (((produceBlock_reuses_pending produceEnvOk managerPending (blockAt 2) rfl).2.2
      (commitAt 2) rfl (Or.inr ⟨⟨commitAt 1, rfl⟩, ⟨blockAt 1, rfl⟩⟩)).2.2.2 (by decide)).1,
    by decide⟩

/-- C9: when the store has no block at `H = store.height + 1`, every pair
`produceBlock` gossips or applies is a block created by the executor at `H`
together with a commit whose height is the block's header height, whose header
hash is the hash of the block's header, and whose signatures are exactly one
signature: the proposer key's signature of the marshalled ABCI form of that
header. Every block the executor created, whose header was marshalled and
signed, is gossiped with that commit. -/
theorem produceBlock_created_commit (env : ProduceEnv) (m : Manager) (e0 : Err)
    (hp : m.store.loadBlock (addU64 m.store.height 1) = .error e0) :
    (∀ b c, (Call.marshalGossip b c ∈ (produceBlock env m).calls ∨
        Call.applyBlock b c ∈ (produceBlock env m).calls) →
      (∃ lc lhh, b = env.createBlock (addU64 m.store.height 1) lc lhh m.lastState) ∧
      c.height = b.header.height ∧ c.headerHash = env.headerHash b.header ∧
      ∃ bytes sig, env.marshalHeader b.header = .ok bytes ∧ env.sign bytes = .ok sig ∧
        c.signatures = [sig]) ∧
    (∀ h lc lhh st bytes sig, Call.createBlock h lc lhh st ∈ (produceBlock env m).calls →
      env.marshalHeader (env.createBlock h lc lhh st).header = .ok bytes →
      env.sign bytes = .ok sig →
      Call.marshalGossip (env.createBlock h lc lhh st)
        { height := (env.createBlock h lc lhh st).header.height
          headerHash := env.headerHash (env.createBlock h lc lhh st).header
          signatures := [sig] } ∈ (produceBlock env m).calls) := by
  constructor
  · intro b c hx
    obtain ⟨lc, lhh, t1, t2, _, h2, _⟩ := produceBlock_published_pair env m b c hx
    obtain ⟨hb, bytes, sig, hm, hs, hc, _⟩ := selectBlock_created env m lc lhh e0 hp b c t2 h2
    refine ⟨⟨lc, lhh, hb⟩, ?_, ?_, bytes, sig, hm, hs, ?_⟩
    · rw [hc]
    · rw [hc]
    · rw [hc]
  · intro h lc lhh st bytes sig hx hm hs
    obtain ⟨hh, hst, t1, h1⟩ := produceBlock_createBlock_call env m h lc lhh st hx
    subst hh hst
    have hsel : produceBlock.selectBlock env m lc lhh =
        (.ok (env.createBlock (addU64 m.store.height 1) lc lhh m.lastState,
          { height := (env.createBlock (addU64 m.store.height 1) lc lhh m.lastState).header.height
            headerHash := env.headerHash
              (env.createBlock (addU64 m.store.height 1) lc lhh m.lastState).header
            signatures := [sig] }),
          [.loadBlock (addU64 m.store.height 1),
            .createBlock (addU64 m.store.height 1) lc lhh m.lastState,
            .marshalHeader
              (env.createBlock (addU64 m.store.height 1) lc lhh m.lastState).header] ++
            [.sign bytes]) := by
      simp [produceBlock.selectBlock, hp, hm, hs]
    have hpb : ∀ b c t2, produceBlock.selectBlock env m lc lhh = (.ok (b, c), t2) →
        (produceBlock env m).calls = t1 ++ t2 ++ (produceBlock.publish env m b c).calls := by
      intro b c t2 h2
      simp only [produceBlock, h1, h2]
    rw [hpb _ _ _ hsel]
    exact List.mem_append_right _ (publish_marshalGossip_mem env m _ _)

theorem produceBlock_created_commit_witness :
    managerWithFive.store.loadBlock (addU64 managerWithFive.store.height 1) = .error .notFound ∧
      Call.applyBlock
          (produceEnvOk.createBlock 6 (commitAt 5) [5, 1] genesisState)
          { height := 6, headerHash := [6, 1], signatures := [[0, 6]] } ∈
        (produceBlock produceEnvOk managerWithFive).calls ∧
      (∃ bytes sig,
        produceEnvOk.marshalHeader
            (produceEnvOk.createBlock 6 (commitAt 5) [5, 1] genesisState).header = .ok bytes ∧
          produceEnvOk.sign bytes = .ok sig ∧
          ({ height := 6, headerHash := [6, 1], signatures := [[0, 6]] } : Commit).signatures =
            [sig]) :=
  ⟨rfl, by decide,
    ((produceBlock_created_commit produceEnvOk managerWithFive .notFound rfl).1 _ _
      (Or.inr (by decide))).2.2.2⟩

/-- C10: when the gossip of the pair `produceBlock` selected fails (the
marshalling or the p2p publish returns an error), `produceBlock` returns that
error and leaves the manager as it was (store height, `lastState` and
`batchInProcess` included); it does not call `applyBlock`, makes no store or
executor call and does not spawn the batch submitter. -/
theorem produceBlock_gossip_failure (env : ProduceEnv) (m : Manager) (b : Block) (c : Commit)
    (e : Err) (hg : Call.marshalGossip b c ∈ (produceBlock env m).calls)
    (hfail : (gossipBlock env.gossip m b c).err = some e) :
    (produceBlock env m).err = some e ∧
      (produceBlock env m).m = m ∧
      (produceBlock env m).m.store.height = m.store.height ∧
      (produceBlock env m).m.lastState = m.lastState ∧
      (produceBlock env m).m.batchInProcess = m.batchInProcess ∧
      (∀ b1 c1, Call.applyBlock b1 c1 ∉ (produceBlock env m).calls) ∧
      (∀ x ∈ (produceBlock env m).calls, x.isStoreOrExecutor = false) ∧
      Call.spawnSubmitNextBatch ∉ (produceBlock env m).calls := by
  obtain ⟨lc, lhh, t1, t2, h1, h2, hp⟩ := produceBlock_published_pair env m b c (Or.inl hg)
  rw [publish_gossip_error env m b c e hfail] at hp
  have hkind : ∀ x ∈ (produceBlock env m).calls,
      x.isLoad = true ∨ x.isCreateOrSign = true ∨ x = .marshalGossip b c ∨
        ∃ bytes, x = .gossip bytes := by
    intro x hx
    rw [hp] at hx
    simp only [List.mem_append] at hx
    rcases hx with (hx | hx) | hx
    · exact Or.inl (loadLast_calls_isLoad env m x (by rw [h1]; exact hx))
    · rcases selectBlock_calls_kind env m lc lhh x (by rw [h2]; exact hx) with h | h
      · exact Or.inl h
      · exact Or.inr (Or.inl h)
    · rcases gossipBlock_calls env.gossip m b c with h | ⟨bytes, _, h⟩
      · rw [h] at hx
        simp only [List.mem_singleton] at hx
        exact Or.inr (Or.inr (Or.inl hx))
      · rw [h] at hx
        simp only [List.mem_cons, List.mem_singleton, List.not_mem_nil, or_false] at hx
        rcases hx with hx | hx
        · exact Or.inr (Or.inr (Or.inl hx))
        · exact Or.inr (Or.inr (Or.inr ⟨bytes, hx⟩))
  have hm : (produceBlock env m).m = m := by rw [hp]
  refine ⟨by rw [hp], hm, by rw [hm], by rw [hm], by rw [hm], ?_, ?_, ?_⟩
  · intro b1 c1 hx
    rcases hkind _ hx with h | h | h | ⟨_, h⟩ <;> cases h
  · intro x hx
    rcases hkind _ hx with h | h | h | ⟨_, h⟩
    · cases x <;> simp_all [Call.isLoad, Call.isStoreOrExecutor]
    · cases x <;> simp_all [Call.isCreateOrSign, Call.isStoreOrExecutor]
    · rw [h]; rfl
    · rw [h]; rfl
  · intro hx
    rcases hkind _ hx with h | h | h | ⟨_, h⟩ <;> cases h

theorem produceBlock_gossip_failure_witness :
    Call.marshalGossip (blockAt 2) (commitAt 2) ∈
        (produceBlock produceEnvGossipFails managerPending).calls ∧
      (gossipBlock produceEnvGossipFails.gossip managerPending (blockAt 2) (commitAt 2)).err =
        some (.fail 9) ∧
      (produceBlock produceEnvGossipFails managerPending).err = some (.fail 9) ∧
      (produceBlock produceEnvGossipFails managerPending).m = managerPending :=
  ⟨by decide, by decide,
    (produceBlock_gossip_failure produceEnvGossipFails managerPending (blockAt 2) (commitAt 2)
      (.fail 9) (by decide) (by decide)).1,
    (produceBlock_gossip_failure produceEnvGossipFails managerPending (blockAt 2) (commitAt 2)
      (.fail 9) (by decide) (by decide)).2.1⟩

/-! ## C11 and C12: the batch trigger -/

/-- C11: let `produceBlock` return success after applying the pair
`(block, commit)`, with `syncTarget ≤ H = block.header.height` (a `uint64`).
If `H - syncTarget ≥ blockBatchSize` and `batchInProcess` was false, then
`batchInProcess` is true afterwards and the batch submitter is spawned;
otherwise `batchInProcess` is unchanged and no submitter is spawned. -/
theorem produceBlock_batch_trigger (env : ProduceEnv) (m : Manager) (block : Block)
    (commit : Commit)
    (happlied : Call.applyBlock block commit ∈ (produceBlock env m).calls)
    (hok : (produceBlock env m).err = none)
    (hst : m.syncTarget ≤ block.header.height)
    (hH : block.header.height < uint64Size) :
    (block.header.height - m.syncTarget ≥ m.blockBatchSize ∧ m.batchInProcess = false →
        (produceBlock env m).m.batchInProcess = true ∧
        Call.spawnSubmitNextBatch ∈ (produceBlock env m).calls) ∧
      (¬ (block.header.height - m.syncTarget ≥ m.blockBatchSize ∧
            m.batchInProcess = false) →
        (produceBlock env m).m.batchInProcess = m.batchInProcess ∧
        Call.spawnSubmitNextBatch ∉ (produceBlock env m).calls) := by
  obtain ⟨lc, lhh, t1, t2, h1, h2, hp⟩ :=
    produceBlock_published_pair env m block commit (Or.inr happlied)
  have hpub : (produceBlock.publish env m block commit).err = none := by
    rw [hp] at hok; exact hok
  have htrig := publish_trigger env m block commit hpub
  rw [subU64_of_le _ _ hst hH] at htrig
  have hmem : Call.spawnSubmitNextBatch ∈ (produceBlock env m).calls ↔
      Call.spawnSubmitNextBatch ∈ (produceBlock.publish env m block commit).calls := by
    constructor
    · intro hx
      obtain ⟨_, _, _, b0, c0, _, h1', h2', _, hmem⟩ :=
        produceBlock_publish_call env m _ hx rfl rfl
      rw [h1] at h1'
      simp only [Prod.mk.injEq, Except.ok.injEq] at h1'
      obtain ⟨⟨ha, hb⟩, _⟩ := h1'
      subst ha hb
      rw [h2] at h2'
      simp only [Prod.mk.injEq, Except.ok.injEq] at h2'
      obtain ⟨⟨ha, hb⟩, _⟩ := h2'
      subst ha hb
      exact hmem
    · intro hx
      rw [hp]
      exact List.mem_append_right _ hx
  have hflag : (produceBlock env m).m.batchInProcess =
      (produceBlock.publish env m block commit).m.batchInProcess := by rw [hp]
  rw [hmem, hflag]
  exact htrig

theorem produceBlock_batch_trigger_witness :
    Call.applyBlock (produceEnvOk.createBlock 6 (commitAt 5) [5, 1] genesisState)
        { height := 6, headerHash := [6, 1], signatures := [[0, 6]] } ∈
        (produceBlock produceEnvOk managerWithFive).calls ∧
      (produceBlock produceEnvOk managerWithFive).err = none ∧
      managerWithFive.syncTarget ≤ 6 ∧
      ((produceBlock produceEnvOk managerWithFive).m.batchInProcess = true ∧
        Call.spawnSubmitNextBatch ∈ (produceBlock produceEnvOk managerWithFive).calls) ∧
      produceSpawns produceEnvOk 6 (managerAt 0 1) =
        [false, false, true, false, false, false] :=
  ⟨by decide, by decide, by decide,
    (produceBlock_batch_trigger produceEnvOk managerWithFive
      (produceEnvOk.createBlock 6 (commitAt 5) [5, 1] genesisState)
      { height := 6, headerHash := [6, 1], signatures := [[0, 6]] }
      (by decide) (by decide) (by decide) (by decide)).1 (by decide),
    by decide⟩

/-- C12 (the code at the failing input): store height 0, sync target 5, batch
size 3, no batch in process. `produceBlock` creates and applies block 1; the
`uint64` subtraction `1 - 5` wraps around to `2 ^ 64 - 4`, which is at least
the batch size, so the submitter is spawned. It will assemble the heights 6 to
8, all above the store height 1, and `createNextDABatch` fails on the first
load. -/
theorem produceBlock_spawns_on_wrapped_difference :
    (produceBlock produceEnvOk managerBehind).err = none ∧
      subU64 1 managerBehind.syncTarget = 18446744073709551612 ∧
      Call.spawnSubmitNextBatch ∈ (produceBlock produceEnvOk managerBehind).calls ∧
      (produceBlock produceEnvOk managerBehind).m.batchInProcess = true ∧
      (produceBlock produceEnvOk managerBehind).m.store.height = 1 ∧
      submitNextBatch.startHeight (produceBlock produceEnvOk managerBehind).m = 6 ∧
      submitNextBatch.endHeight (produceBlock produceEnvOk managerBehind).m = 8 ∧
      (submitNextBatch submitEnvOk (produceBlock produceEnvOk managerBehind).m).status =
        .createFailed .notFound := by
  decide

/-! ## C13 and C14: the batch assembled by the submitter -/

/-- C13: for `startHeight ≤ endHeight` (with `endHeight` below the largest
`uint64`, and fuel for `endHeight - startHeight + 1` iterations),
`createNextDABatch` returns a batch exactly when the store loads the block and
the commit of every height from `startHeight` to `endHeight`; the batch then
has these two bounds, `endHeight - startHeight + 1` blocks and as many commits,
the `i`-th of which are the block and commit the store loads at
`startHeight + i`; if a load fails it returns an error and no batch. -/
theorem createNextDABatch_spec (fuel : Nat) (m : Manager) (startHeight endHeight : Nat)
    (hle : startHeight ≤ endHeight) (hend : endHeight + 1 < uint64Size)
    (hfuel : endHeight - startHeight + 1 ≤ fuel) :
    ((∃ batch, createNextDABatch fuel m startHeight endHeight = some (.ok batch)) ↔
        ∀ h, startHeight ≤ h → h ≤ endHeight →
          (∃ b, m.store.loadBlock h = .ok b) ∧ ∃ c, m.store.loadCommit h = .ok c) ∧
    (∀ batch, createNextDABatch fuel m startHeight endHeight = some (.ok batch) →
        batch.startHeight = startHeight ∧ batch.endHeight = endHeight ∧
        batch.blocks.length = endHeight - startHeight + 1 ∧
        batch.commits.length = endHeight - startHeight + 1 ∧
        ∀ i, i ≤ endHeight - startHeight →
          ∃ b c, batch.blocks[i]? = some b ∧ m.store.loadBlock (startHeight + i) = .ok b ∧
            batch.commits[i]? = some c ∧ m.store.loadCommit (startHeight + i) = .ok c) ∧
    ((∃ h, startHeight ≤ h ∧ h ≤ endHeight ∧
          ((∃ e, m.store.loadBlock h = .error e) ∨ ∃ e, m.store.loadCommit h = .error e)) →
        ∃ e, createNextDABatch fuel m startHeight endHeight = some (.error e)) := by
  unfold createNextDABatch
  rcases createNextDABatch_loop_spec m.store startHeight endHeight hend
      (endHeight - startHeight + 1) fuel startHeight [] [] (by omega) hfuel with
    ⟨e, he, i, hi, hfail⟩ | ⟨bs, cs, hok, hbs, hcs⟩
  · rw [he]
    refine ⟨⟨?_, ?_⟩, ?_, ?_⟩
    · rintro ⟨batch, hb⟩
      cases hb
    · intro hall
      exfalso
      obtain ⟨⟨b, hb⟩, ⟨c, hc⟩⟩ := hall (startHeight + i) (by omega) (by omega)
      rcases hfail with ⟨e1, h1⟩ | ⟨e1, h1⟩
      · rw [hb] at h1; cases h1
      · rw [hc] at h1; cases h1
    · intro batch hb
      cases hb
    · intro _
      exact ⟨e, rfl⟩
  · rw [hok]
    obtain ⟨hblen, hbget⟩ := loads_of_map_eq m.store.loadBlock startHeight _ bs hbs
    obtain ⟨hclen, hcget⟩ := loads_of_map_eq m.store.loadCommit startHeight _ cs hcs
    have hall : ∀ h, startHeight ≤ h → h ≤ endHeight →
        (∃ b, m.store.loadBlock h = .ok b) ∧ ∃ c, m.store.loadCommit h = .ok c := by
      intro h h1 h2
      obtain ⟨b, _, hb⟩ := hbget (h - startHeight) (by omega)
      obtain ⟨c, _, hc⟩ := hcget (h - startHeight) (by omega)
      have hh : startHeight + (h - startHeight) = h := by omega
      rw [hh] at hb hc
      exact ⟨⟨b, hb⟩, ⟨c, hc⟩⟩
    refine ⟨⟨fun _ => hall, fun _ => ⟨_, rfl⟩⟩, ?_, ?_⟩
    · intro batch hb
      simp only [Option.some.injEq, Except.ok.injEq] at hb
      subst hb
      refine ⟨rfl, rfl, by simpa using hblen, by simpa using hclen, ?_⟩
      intro i hi
      obtain ⟨b, hb1, hb2⟩ := hbget i (by omega)
      obtain ⟨c, hc1, hc2⟩ := hcget i (by omega)
      exact ⟨b, c, by simpa using hb1, hb2, by simpa using hc1, hc2⟩
    · rintro ⟨h, h1, h2, hfail⟩
      exfalso
      obtain ⟨⟨b, hb⟩, ⟨c, hc⟩⟩ := hall h h1 h2
      rcases hfail with ⟨e1, he1⟩ | ⟨e1, he1⟩
      · rw [hb] at he1; cases he1
      · rw [hc] at he1; cases he1

theorem createNextDABatch_spec_witness :
    2 ≤ 4 ∧ 4 + 1 < uint64Size ∧ 4 - 2 + 1 ≤ 10 ∧
      createNextDABatch 10 managerWithFive 2 4 =
        some (.ok { startHeight := 2, endHeight := 4,
                    blocks := [blockAt 2, blockAt 3, blockAt 4],
                    commits := [commitAt 2, commitAt 3, commitAt 4] }) ∧
      ((∃ batch, createNextDABatch 10 managerWithFive 2 4 = some (.ok batch)) ↔
        ∀ h, 2 ≤ h → h ≤ 4 →
          (∃ b, managerWithFive.store.loadBlock h = .ok b) ∧
            ∃ c, managerWithFive.store.loadCommit h = .ok c) :=
  ⟨by decide, by decide, by decide, rfl,
    (createNextDABatch_spec 10 managerWithFive 2 4 (by decide) (by decide) (by decide)).1⟩

/-- C14: for a batch size of at least one (and `syncTarget + blockBatchSize`
below the largest `uint64`), `submitNextBatch` asks for the batch of the heights
`syncTarget + 1` to `syncTarget + blockBatchSize`, and the batch it assembles
has exactly these bounds and, index by index, the `blockBatchSize` blocks and
commits the store loads at `syncTarget + 1 + i`. Once an acceptance event has
set the sync target to that end height, the next `submitNextBatch` starts at
that end height plus one. -/
theorem submitNextBatch_heights (env : SubmitEnv) (m : Manager)
    (hsize : 1 ≤ m.blockBatchSize)
    (hfit : m.syncTarget + m.blockBatchSize + 1 < uint64Size)
    (hfuel : m.blockBatchSize ≤ env.fuel) :
    (submitNextBatch env m).calls.head? =
        some (.createNextDABatch (m.syncTarget + 1) (m.syncTarget + m.blockBatchSize)) ∧
    (∀ batch, (submitNextBatch env m).batch = some batch →
        batch.startHeight = m.syncTarget + 1 ∧
        batch.endHeight = m.syncTarget + m.blockBatchSize ∧
        batch.blocks.length = m.blockBatchSize ∧
        batch.commits.length = m.blockBatchSize ∧
        ∀ i, i < m.blockBatchSize →
          ∃ b c, batch.blocks[i]? = some b ∧
            m.store.loadBlock (m.syncTarget + 1 + i) = .ok b ∧
            batch.commits[i]? = some c ∧
            m.store.loadCommit (m.syncTarget + 1 + i) = .ok c) ∧
    (∀ (m2 : Manager) (env2 : SubmitEnv),
        (submitNextBatch env2
            (SyncTargetLoop.onAccepted m2 (m.syncTarget + m.blockBatchSize)).m).calls.head? =
          some (.createNextDABatch (m.syncTarget + m.blockBatchSize + 1)
            (submitNextBatch.endHeight
              (SyncTargetLoop.onAccepted m2 (m.syncTarget + m.blockBatchSize)).m))) := by
  have hstart : submitNextBatch.startHeight m = m.syncTarget + 1 := by
    unfold submitNextBatch.startHeight addU64 uint64Size at *
    omega
  have hlast : submitNextBatch.endHeight m = m.syncTarget + m.blockBatchSize := by
    unfold submitNextBatch.endHeight
    rw [hstart]
    unfold addU64 subU64 uint64Size at *
    omega
  refine ⟨?_, ?_, ?_⟩
  · rw [submitNextBatch_first_call, hstart, hlast]
  · intro batch hb
    have hc := submitNextBatch_batch env m batch hb
    rw [hstart, hlast] at hc
    unfold createNextDABatch at hc
    rcases createNextDABatch_loop_spec m.store (m.syncTarget + 1)
        (m.syncTarget + m.blockBatchSize) (by omega) m.blockBatchSize env.fuel
        (m.syncTarget + 1) [] [] (by omega) hfuel with
      ⟨e, he, _⟩ | ⟨bs, cs, hok, hbs, hcs⟩
    · rw [he] at hc; cases hc
    · rw [hok] at hc
      simp only [Option.some.injEq, Except.ok.injEq] at hc
      subst hc
      obtain ⟨hblen, hbget⟩ := loads_of_map_eq m.store.loadBlock _ _ bs hbs
      obtain ⟨hclen, hcget⟩ := loads_of_map_eq m.store.loadCommit _ _ cs hcs
      refine ⟨rfl, rfl, by simpa using hblen, by simpa using hclen, ?_⟩
      intro i hi
      obtain ⟨b, hb1, hb2⟩ := hbget i hi
      obtain ⟨c, hc1, hc2⟩ := hcget i hi
      exact ⟨b, c, by simpa using hb1, hb2, by simpa using hc1, hc2⟩
  · intro m2 env2
    rw [submitNextBatch_first_call]
    have hnext : submitNextBatch.startHeight
        (SyncTargetLoop.onAccepted m2 (m.syncTarget + m.blockBatchSize)).m =
        m.syncTarget + m.blockBatchSize + 1 := by
      unfold submitNextBatch.startHeight SyncTargetLoop.onAccepted updateSyncParams
      dsimp only
      unfold addU64 uint64Size at *
      omega
    rw [hnext]

theorem submitNextBatch_heights_witness :
    1 ≤ managerWithFive.blockBatchSize ∧
      managerWithFive.syncTarget + managerWithFive.blockBatchSize + 1 < uint64Size ∧
      managerWithFive.blockBatchSize ≤ submitEnvOk.fuel ∧
      (submitNextBatch submitEnvOk managerWithFive).batch =
        some { startHeight := 1, endHeight := 3,
               blocks := [blockAt 1, blockAt 2, blockAt 3],
               commits := [commitAt 1, commitAt 2, commitAt 3] } ∧
      (submitNextBatch submitEnvOk managerWithFive).calls.head? =
        some (.createNextDABatch (managerWithFive.syncTarget + 1)
          (managerWithFive.syncTarget + managerWithFive.blockBatchSize)) ∧
      (submitNextBatch submitEnvOk
          (SyncTargetLoop.onAccepted managerWithFive 3).m).calls.head? =
        some (.createNextDABatch 4 6) :=
  ⟨by decide, by decide, by decide, by decide,
    (submitNextBatch_heights submitEnvOk managerWithFive (by decide) (by decide)
      (by decide)).1,
    by decide⟩

/-! ## C15 and C16: one submission at a time -/

/-- C15 (as stated, refuted): three blocks are produced and the submitter
spawned at the third is still running when an acceptance event of end height 3
is handled: `batchInProcess` is false with one submission under way. Three more
blocks later a second submitter is spawned, two are under way, and both submit
the batch 4 to 6 to the SL. -/
theorem early_acceptance_breaks_one_submission :
    (Sys.run (Sys.init (managerAt 0 1)) (earlyAcceptanceEvents.take 3)).map
        (fun s => (s.m.batchInProcess, s.running, s.awaiting)) = some (true, 1, []) ∧
      (Sys.run (Sys.init (managerAt 0 1)) (earlyAcceptanceEvents.take 4)).map
        (fun s => (s.m.batchInProcess, s.running, s.awaiting)) = some (false, 1, []) ∧
      (Sys.run (Sys.init (managerAt 0 1)) (earlyAcceptanceEvents.take 7)).map
        (fun s => (s.m.batchInProcess, s.running, s.awaiting)) = some (true, 2, []) ∧
      (Sys.run (Sys.init (managerAt 0 1)) earlyAcceptanceEvents).map
        (fun s => (s.m.batchInProcess, s.running, s.awaiting)) = some (true, 0, [6, 6]) ∧
      ¬ (∀ (m0 : Manager) (events : List Event) (s : Sys),
          Sys.run (Sys.init m0) events = some s →
            s.running + s.awaiting.length ≤ 1 ∧
              (s.m.batchInProcess = false → s.running = 0 ∧ s.awaiting = [])) := by
  refine ⟨by decide, by decide, by decide, by decide, ?_⟩
  intro h
  cases hs : Sys.run (Sys.init (managerAt 0 1)) (earlyAcceptanceEvents.take 7) with
  | none =>
    have h2 : (Sys.run (Sys.init (managerAt 0 1)) (earlyAcceptanceEvents.take 7)).isSome =
        true := by decide
    rw [hs] at h2
    cases h2
  | some s =>
    have h2 : (Sys.run (Sys.init (managerAt 0 1)) (earlyAcceptanceEvents.take 7)).map
        (fun s => s.running) = some 2 := by decide
    rw [hs] at h2
    simp only [Option.map_some', Option.some.injEq] at h2
    have h3 := (h (managerAt 0 1) (earlyAcceptanceEvents.take 7) s hs).1
    omega

/-- C15 (amended): in every state reached from the initial state by steps of the
system (`produceBlock`, the run of a spawned submitter, the handling of an
acceptance event, and also gossiped applies and `syncUntilTarget`), when every
acceptance event handled was this node's own (a batch of its end height,
submitted by this node, awaited acceptance, or no submission of this node was
under way), at most one batch submission is under way (running, or submitted
and not yet accepted), and when `batchInProcess` is false there is none. The
condition is needed: the handling of an event that is not the node's own leaves
`batchInProcess` false with a submission under way. -/
theorem one_submission_in_flight (m0 : Manager) (events : List Event) (s : Sys)
    (hrun : Sys.run (Sys.init m0) events = some s)
    (hdue : Sys.acceptancesDue (Sys.init m0) events = true) :
    s.running + s.awaiting.length ≤ 1 ∧
      (s.m.batchInProcess = false → s.running = 0 ∧ s.awaiting = []) ∧
      (∀ (endHeight : Nat) (s2 : Sys), s.acceptanceDue endHeight = false →
        s.step (.accepted endHeight) = some s2 →
        s2.m.batchInProcess = false ∧ 0 < s2.running + s2.awaiting.length) := by
  have hinit : (Sys.init m0).inv := by
    constructor
    · simp [Sys.init]
    · intro _; simp [Sys.init]
  obtain ⟨h1, h2⟩ := run_inv events (Sys.init m0) s hinit hrun hdue
  refine ⟨h1, ?_, ?_⟩
  · intro hf
    have h3 := h2 hf
    refine ⟨by omega, ?_⟩
    apply List.eq_nil_of_length_eq_zero
    omega
  · intro endHeight s2 hnot hstep
    exact step_accepted_not_due s s2 endHeight hnot hstep

/-- Witness S1 for C15: after three blocks the submitter spawned at the third is
the one submission under way; after its run, the acceptance of the batch of end
height 3 and one more block, none is under way and the sync target is 3. -/
theorem one_submission_in_flight_witness :
    Sys.acceptancesDue (Sys.init (managerAt 0 1)) coldStartEvents = true ∧
      (Sys.run (Sys.init (managerAt 0 1)) (coldStartEvents.take 4)).map
        (fun s => (s.m.batchInProcess, s.running, s.awaiting)) = some (true, 0, [3]) ∧
      (∃ s, Sys.run (Sys.init (managerAt 0 1)) (coldStartEvents.take 3) = some s ∧
        s.running = 1 ∧ s.m.batchInProcess = true ∧
        (s.running + s.awaiting.length ≤ 1 ∧
          (s.m.batchInProcess = false → s.running = 0 ∧ s.awaiting = []))) ∧
      (∃ s, Sys.run (Sys.init (managerAt 0 1)) coldStartEvents = some s ∧
        s.m.batchInProcess = false ∧ s.m.syncTarget = 3 ∧ s.m.store.height = 4 ∧
        (s.running + s.awaiting.length ≤ 1 ∧
          (s.m.batchInProcess = false → s.running = 0 ∧ s.awaiting = []))) :=
  ⟨by decide, by decide,
   (match h : Sys.run (Sys.init (managerAt 0 1)) (coldStartEvents.take 3) with
    | some s =>
      ⟨s, rfl,
        by
          have h2 : (Sys.run (Sys.init (managerAt 0 1)) (coldStartEvents.take 3)).map
              (fun s => s.running) = some 1 := by decide
          rw [h] at h2
          simpa using h2,
        by
          have h2 : (Sys.run (Sys.init (managerAt 0 1)) (coldStartEvents.take 3)).map
              (fun s => s.m.batchInProcess) = some true := by decide
          rw [h] at h2
          simpa using h2,
        (one_submission_in_flight (managerAt 0 1) (coldStartEvents.take 3) s h
          (by decide)).1,
        (one_submission_in_flight (managerAt 0 1) (coldStartEvents.take 3) s h
          (by decide)).2.1⟩
    | none => by
      have h2 : (Sys.run (Sys.init (managerAt 0 1)) (coldStartEvents.take 3)).isSome = true := by
        decide
      rw [h] at h2
      cases h2),
   (match h : Sys.run (Sys.init (managerAt 0 1)) coldStartEvents with
    | some s =>
      ⟨s, rfl,
        by
          have h2 : (Sys.run (Sys.init (managerAt 0 1)) coldStartEvents).map
              (fun s => s.m.batchInProcess) = some false := by decide
          rw [h] at h2
          simpa using h2,
        by
          have h2 : (Sys.run (Sys.init (managerAt 0 1)) coldStartEvents).map
              (fun s => s.m.syncTarget) = some 3 := by decide
          rw [h] at h2
          simpa using h2,
        by
          have h2 : (Sys.run (Sys.init (managerAt 0 1)) coldStartEvents).map
              (fun s => s.m.store.height) = some 4 := by decide
          rw [h] at h2
          simpa using h2,
        (one_submission_in_flight (managerAt 0 1) coldStartEvents s h (by decide)).1,
        (one_submission_in_flight (managerAt 0 1) coldStartEvents s h (by decide)).2.1⟩
    | none => by
      have h2 : (Sys.run (Sys.init (managerAt 0 1)) coldStartEvents).isSome = true := by decide
      rw [h] at h2
      cases h2)⟩

/-- C16: `applyBlock`, `processNextDABatch`, `syncUntilTarget` and
`submitNextBatch` (on every path) leave `batchInProcess` as it was;
`produceBlock` leaves it as it was or sets it to true; `waitForSync` returns
the manager with `batchInProcess` as it was, or a state found at a wake-up as
it found it. None of them takes `batchInProcess` from true to false; the
handling of an acceptance event by the sync-target loop sets it to false. -/
theorem batchInProcess_cleared_only_on_acceptance :
    (∀ (env : ApplyEnv) (m : Manager) (block : Block) (commit : Commit),
      (applyBlock env m block commit).m.batchInProcess = m.batchInProcess) ∧
    (∀ (env : ProduceEnv) (m : Manager),
      m.batchInProcess = true → (produceBlock env m).m.batchInProcess = true) ∧
    (∀ (env : DAEnv) (m : Manager) (daHeight : Nat),
      (processNextDABatch env m daHeight).m.batchInProcess = m.batchInProcess) ∧
    (∀ (envs : List SyncEnv) (m : Manager) (syncTarget : Nat),
      (syncUntilTarget envs m syncTarget).m.batchInProcess = m.batchInProcess) ∧
    (∀ (latest : Except Err SLBatch) (wakeups : List Manager) (m : Manager) (r : Outcome),
      waitForSync latest wakeups m = some r →
        r.m.batchInProcess = m.batchInProcess ∨ r.m ∈ wakeups) ∧
    (∀ (env : SubmitEnv) (m : Manager), (submitNextBatch env m).m = m) ∧
    (∀ (m : Manager) (endHeight : Nat),
      (SyncTargetLoop.onAccepted m endHeight).m.batchInProcess = false) := by
  refine ⟨fun env m b c => (applyBlock_frame env m b c).2.1, ?_,
    fun env m h => (processNextDABatch_flag env m h).1,
    fun envs m t => (syncLoop_flag t envs m m.store.height).1, ?_, submitNextBatch_m,
    fun _ _ => rfl⟩
  · intro env m hm
    rcases produceBlock_flag env m with h | h
    · rw [h]; exact hm
    · exact h
  · intro latest wakeups m r h
    unfold waitForSync at h
    split at h
    · split at h
      · simp only [Option.some.injEq] at h
        subst h
        exact Or.inl rfl
      · simp only [Option.some.injEq] at h
        subst h
        exact Or.inl rfl
    · rename_i res
      split at h
      · cases h
      · rename_i m2 hw
        simp only [Option.some.injEq] at h
        subst h
        rcases (wait_result wakeups _ m2 hw).1 with h1 | h1
        · left; rw [h1]
        · exact Or.inr h1

theorem batchInProcess_cleared_only_on_acceptance_witness :
    ({ managerWithFive with batchInProcess := true } : Manager).batchInProcess = true ∧
      (produceBlock produceEnvOk
        { managerWithFive with batchInProcess := true }).m.batchInProcess = true ∧
      (produceBlock produceEnvOk { managerWithFive with batchInProcess := true }).err = none :=
  ⟨rfl,
    batchInProcess_cleared_only_on_acceptance.2.1 produceEnvOk
      { managerWithFive with batchInProcess := true } rfl,
    by decide⟩

/-! ## C17 to C19: the sync target and the start of the producer -/

/-- C17 (as stated, refuted): the handling of an acceptance event of end height
3 takes the sync target from 10 down to 3; `waitForSync` on the not-found
answer takes it from 10 down to `initialHeight - 1 = 0`. -/
theorem syncTarget_can_decrease :
    managerTargetTen.syncTarget = 10 ∧
      (updateSyncParams managerTargetTen 3).m.syncTarget = 3 ∧
      (SyncTargetLoop.onAccepted managerTargetTen 3).m.syncTarget = 3 ∧
      (waitForSync (.error .batchNotFound) [] managerTargetTen).map
        (fun r => r.m.syncTarget) = some 0 := by
  decide

/-- C17 (amended): `updateSyncParams` (on the startup query and on an
acceptance event) sets the sync target to the end height it is given, whatever
the previous value, so the sync target does not decrease exactly when that end
height is at least the previous sync target. `waitForSync` sets it to the end
height of the latest batch, or to `uint64(initialHeight - 1)` on the not-found
answer, under the same condition, and leaves it unchanged on any other
error. -/
theorem syncTarget_writes (m : Manager) :
    (∀ endHeight, (updateSyncParams m endHeight).m.syncTarget = endHeight ∧
      (m.syncTarget ≤ (updateSyncParams m endHeight).m.syncTarget ↔ m.syncTarget ≤ endHeight)) ∧
    (∀ endHeight, (SyncTargetLoop.onAccepted m endHeight).m.syncTarget = endHeight) ∧
    (∀ res, (SyncTargetLoop.start (.ok res) m).m.syncTarget = res.endHeight) ∧
    (∀ e, (SyncTargetLoop.start (.error e) m).m.syncTarget = m.syncTarget) ∧
    (∀ wakeups, (waitForSync (.error .batchNotFound) wakeups m).map (fun r => r.m.syncTarget) =
      some (toUint64 (m.initialHeight - 1))) ∧
    (∀ res wakeups, res.endHeight ≤ m.store.height →
      (waitForSync (.ok res) wakeups m).map (fun r => r.m.syncTarget) = some res.endHeight) ∧
    (∀ e wakeups, e ≠ .batchNotFound →
      (waitForSync (.error e) wakeups m).map (fun r => r.m.syncTarget) = some m.syncTarget) := by
  refine ⟨fun endHeight => ⟨rfl, Iff.rfl⟩, fun _ => rfl, fun _ => rfl, fun _ => rfl,
    fun _ => rfl, ?_, ?_⟩
  · intro res wakeups hle
    have hw : waitForSync.wait wakeups { m with syncTarget := res.endHeight } =
        some { m with syncTarget := res.endHeight } := by
      cases wakeups <;> simp [waitForSync.wait, Nat.not_lt.mpr hle]
    simp [waitForSync, hw]
  · intro e wakeups he
    simp [waitForSync, he]

theorem syncTarget_writes_witness :
    (10 : Nat) ≤ 12 ∧
      (managerTargetTen.syncTarget ≤ (updateSyncParams managerTargetTen 12).m.syncTarget ↔
        managerTargetTen.syncTarget ≤ 12) ∧
      Err.fail 1 ≠ .batchNotFound ∧
      (waitForSync (.error (.fail 1)) [] managerTargetTen).map (fun r => r.m.syncTarget) =
        some managerTargetTen.syncTarget :=
  ⟨by decide, ((syncTarget_writes managerTargetTen).1 12).2, by decide,
    (syncTarget_writes managerTargetTen).2.2.2.2.2.2 (.fail 1) [] (by decide)⟩

/-- C18: on the not-found answer of the latest-batch query, `waitForSync`
returns success at once, whatever the store height and without any wake-up,
with the sync target set to `uint64(initialHeight - 1)`, which is the number
`initialHeight - 1` for an initial height of at least one (0 for 1). When the
query succeeds, it sets the sync target to the end height of the returned batch
and then waits: it returns success at once if the store height has reached that
end height, and otherwise returns, with success, the first state found at a
wake-up whose store height has reached its sync target. On any other error it
returns that error with the manager, and so the sync target, unchanged. -/
theorem waitForSync_outcomes (m : Manager) :
    (∀ wakeups, waitForSync (.error .batchNotFound) wakeups m =
      some ⟨{ m with syncTarget := toUint64 (m.initialHeight - 1) }, [.getLatestBatch], none⟩) ∧
    (1 ≤ m.initialHeight → m.initialHeight ≤ 9223372036854775807 →
      ((toUint64 (m.initialHeight - 1) : Nat) : Int) = m.initialHeight - 1) ∧
    (m.initialHeight = 1 → toUint64 (m.initialHeight - 1) = 0) ∧
    (∀ res wakeups, waitForSync (.ok res) wakeups m =
      (waitForSync.wait wakeups { m with syncTarget := res.endHeight }).map
        (fun m2 => ⟨m2, [.getLatestBatch], none⟩)) ∧
    (∀ res wakeups, res.endHeight ≤ m.store.height →
      waitForSync (.ok res) wakeups m =
        some ⟨{ m with syncTarget := res.endHeight }, [.getLatestBatch], none⟩) ∧
    (∀ res wakeups r, waitForSync (.ok res) wakeups m = some r →
      r.err = none ∧ r.m.syncTarget ≤ r.m.store.height ∧
        (r.m = { m with syncTarget := res.endHeight } ∨ r.m ∈ wakeups)) ∧
    (∀ e wakeups, e ≠ .batchNotFound →
      waitForSync (.error e) wakeups m = some ⟨m, [.getLatestBatch], some e⟩) := by
  refine ⟨fun _ => rfl, toUint64_pred m.initialHeight, ?_, ?_, ?_, ?_, ?_⟩
  · intro h
    rw [h]
    decide
  · intro res wakeups
    unfold waitForSync
    dsimp only
    cases waitForSync.wait wakeups { m with syncTarget := res.endHeight } <;> rfl
  · intro res wakeups hle
    have hw : waitForSync.wait wakeups { m with syncTarget := res.endHeight } =
        some { m with syncTarget := res.endHeight } := by
      cases wakeups <;> simp [waitForSync.wait, Nat.not_lt.mpr hle]
    simp [waitForSync, hw]
  · intro res wakeups r h
    unfold waitForSync at h
    dsimp only at h
    cases hw : waitForSync.wait wakeups { m with syncTarget := res.endHeight } with
    | none => simp [hw] at h
    | some m2 =>
      simp only [hw, Option.some.injEq] at h
      subst h
      obtain ⟨h1, h2⟩ := wait_result wakeups _ m2 hw
      exact ⟨rfl, h2, h1⟩
  · intro e wakeups he
    simp [waitForSync, he]

theorem waitForSync_outcomes_witness :
    (1 : Int) ≤ (managerAt 0 5).initialHeight ∧
      (managerAt 0 5).initialHeight ≤ 9223372036854775807 ∧
      ((toUint64 ((managerAt 0 5).initialHeight - 1) : Nat) : Int) =
        (managerAt 0 5).initialHeight - 1 ∧
      (waitForSync (.error .batchNotFound) [] (managerAt 0 5)).map
        (fun r => (r.m.syncTarget, r.err)) = some (4, none) ∧
      (waitForSync (.ok { startHeight := 1, endHeight := 10, stateIndex := 2, daHeight := 7 })
          [{ managerAt 4 1 with syncTarget := 10 }, { managerAt 10 1 with syncTarget := 10 }]
          (managerAt 0 1)).map
        (fun r => (r.m.syncTarget, r.m.store.height, r.err)) = some (10, 10, none) :=
  ⟨by decide, by decide,
    (waitForSync_outcomes (managerAt 0 5)).2.1 (by decide) (by decide), by decide, by decide⟩

/-- C19 (the code at the failing input): the sync target is 5 and the store
height 0 when the latest-batch query of `waitForSync` fails with an error other
than not-found. `waitForSync` returns that error, `ProduceBlockLoop` logs it and
goes on: the first `produceBlock` is called at store height 0, below the sync
target 5. -/
theorem produceBlockLoop_produces_after_failed_wait :
    (waitForSync (.error (.fail 1)) [] managerBehind).map (fun r => r.err) =
        some (some (.fail 1)) ∧
      (ProduceBlockLoop.firstProduceState (.error (.fail 1)) [] managerBehind).map
        (fun m => (m.store.height, m.syncTarget)) = some (0, 5) ∧
      ¬ ((5 : Nat) ≤ 0) := by
  decide

/-! ## C20: the SL state index during `syncUntilTarget` -/

/-- C20: let an iteration of the loop of `syncUntilTarget` start in state `m`
(with an executor that hands back the SL state index it is given). The SL batch
is requested at index `lastState.slStateIndex + 1` (`uint64` addition). If the
request fails, the loop goes on from the same state. If `processNextDABatch` for
the DA height of the retrieved batch fails, the loop stops there: no further
call is made and the SL state index is the one of `m`, so the next run requests
the same index. If it succeeds, `updateStateIndex` sets the index to the state
index of the retrieved batch and hands the state to `store.UpdateState`; when
that write succeeds the store holds the new state and the loop goes on from it,
and when it fails `syncUntilTarget` returns. -/
theorem syncUntilTarget_iteration (syncTarget : Nat) (e : SyncEnv) (rest : List SyncEnv)
    (m : Manager) (currentHeight : Nat) (hlt : currentHeight < syncTarget)
    (henv : ∀ k, (e.da.apply k).keepsIndex) :
    (syncUntilTarget.loop syncTarget (e :: rest) m currentHeight).calls.head? =
        some (.slRetrieveBatch (addU64 m.lastState.slStateIndex 1)) ∧
    (∀ err, e.retrieveBatch (addU64 m.lastState.slStateIndex 1) = .error err →
      (syncUntilTarget.loop syncTarget (e :: rest) m currentHeight).m =
        (syncUntilTarget.loop syncTarget rest m currentHeight).m) ∧
    (∀ res p, e.retrieveBatch (addU64 m.lastState.slStateIndex 1) = .ok res →
      p = processNextDABatch e.da m res.daHeight → p.err ≠ none →
      (syncUntilTarget.loop syncTarget (e :: rest) m currentHeight).m = p.m ∧
      (syncUntilTarget.loop syncTarget (e :: rest) m currentHeight).status ≠ .running ∧
      (syncUntilTarget.loop syncTarget (e :: rest) m currentHeight).calls =
        .slRetrieveBatch (addU64 m.lastState.slStateIndex 1) :: p.calls ∧
      p.m.lastState.slStateIndex = m.lastState.slStateIndex ∧
      ∀ target2 e2 rest2 current2, current2 < target2 →
        (syncUntilTarget.loop target2 (e2 :: rest2) p.m current2).calls.head? =
          some (.slRetrieveBatch (addU64 m.lastState.slStateIndex 1))) ∧
    (∀ res p u, e.retrieveBatch (addU64 m.lastState.slStateIndex 1) = .ok res →
      p = processNextDABatch e.da m res.daHeight → p.err = none →
      u = updateStateIndex e.updateState p.m res.stateIndex →
      u.m.lastState.slStateIndex = res.stateIndex ∧
      u.calls = [.updateState u.m.lastState] ∧
      (e.updateState = none →
        u.m.store.state = some u.m.lastState ∧
        (syncUntilTarget.loop syncTarget (e :: rest) m currentHeight).m =
          (syncUntilTarget.loop syncTarget rest u.m u.m.store.height).m ∧
        (syncUntilTarget.loop syncTarget (e :: rest) m currentHeight).calls =
          .slRetrieveBatch (addU64 m.lastState.slStateIndex 1) :: p.calls ++ u.calls ++
            (syncUntilTarget.loop syncTarget rest u.m u.m.store.height).calls) ∧
      (∀ err, e.updateState = some err →
        (syncUntilTarget.loop syncTarget (e :: rest) m currentHeight).m = u.m ∧
        (syncUntilTarget.loop syncTarget (e :: rest) m currentHeight).status = .returned)) := by
  refine ⟨syncLoop_first_call syncTarget e rest m currentHeight hlt, ?_, ?_, ?_⟩
  · intro err hr
    conv => lhs; unfold syncUntilTarget.loop
    simp only [hlt, if_true, hr]
  · intro res p hr hp herr
    subst hp
    have hidx := processNextDABatch_index e.da henv m res.daHeight
    refine ⟨?_, ?_, ?_, hidx, ?_⟩
    · unfold syncUntilTarget.loop
      simp only [hlt, if_true, hr]
      split
      · rfl
      · rfl
      · rename_i hnone; exact absurd hnone herr
    · unfold syncUntilTarget.loop
      simp only [hlt, if_true, hr]
      split
      · simp
      · simp
      · rename_i hnone; exact absurd hnone herr
    · unfold syncUntilTarget.loop
      simp only [hlt, if_true, hr]
      split
      · rfl
      · rfl
      · rename_i hnone; exact absurd hnone herr
    · intro target2 e2 rest2 current2 h2
      rw [syncLoop_first_call target2 e2 rest2 _ current2 h2, hidx]
  · intro res p u hr hp hok hu
    subst hp
    subst hu
    refine ⟨?_, ?_, ?_, ?_⟩
    · unfold updateStateIndex
      split <;> rfl
    · unfold updateStateIndex
      split <;> rfl
    · intro hnone
      refine ⟨?_, ?_, ?_⟩
      · simp [updateStateIndex, hnone, Store.applyWrite]
      · conv => lhs; unfold syncUntilTarget.loop
        simp only [hlt, if_true, hr, hok]
        simp [updateStateIndex, hnone]
      · conv => lhs; unfold syncUntilTarget.loop
        simp only [hlt, if_true, hr, hok]
        simp [updateStateIndex, hnone]
    · intro err hsome
      constructor
      · unfold syncUntilTarget.loop
        simp only [hlt, if_true, hr, hok]
        simp [updateStateIndex, hsome]
      · unfold syncUntilTarget.loop
        simp only [hlt, if_true, hr, hok]
        simp [updateStateIndex, hsome]

theorem syncUntilTarget_iteration_witness :
    (managerAt 0 1).store.height < 10 ∧
      (syncUntilTarget.loop 10 [syncEnvTwoBatches, syncEnvTwoBatches] (managerAt 0 1)
          (managerAt 0 1).store.height).calls.head? =
        some (.slRetrieveBatch (addU64 (managerAt 0 1).lastState.slStateIndex 1)) ∧
      (syncUntilTarget [syncEnvTwoBatches, syncEnvTwoBatches] (managerAt 0 1) 10).m.store.height =
        10 ∧
      (syncUntilTarget [syncEnvTwoBatches, syncEnvTwoBatches]
        (managerAt 0 1) 10).m.lastState.slStateIndex = 2 ∧
      (syncUntilTarget [syncEnvTwoBatches, syncEnvTwoBatches]
        (managerAt 0 1) 10).m.store.state.map (fun st => st.slStateIndex) = some 2 ∧
      (syncUntilTarget [syncEnvTwoBatches, syncEnvTwoBatches] (managerAt 0 1) 10).status =
        .returned ∧
      (syncUntilTarget [syncEnvTimeout, syncEnvTwoBatches] managerWithFive 10).status =
        .returned ∧
      (syncUntilTarget [syncEnvTimeout, syncEnvTwoBatches]
        managerWithFive 10).m.lastState.slStateIndex = 0 ∧
      (syncUntilTarget [syncEnvTimeout, syncEnvTwoBatches] managerWithFive 10).m.store.height =
        5 :=
  ⟨by decide,
    (syncUntilTarget_iteration 10 syncEnvTwoBatches [syncEnvTwoBatches] (managerAt 0 1)
      (managerAt 0 1).store.height (by decide) (fun _ => envOk_keepsIndex)).1,
    by decide, by decide, by decide, by decide, by decide, by decide, by decide⟩

/-! ## C21: the DA fetch and the apply of the fetched batches -/

/-- C21: `fetchBatch` returns an error exactly when the status code of the DA
answer is `StatusError` or `StatusTimeout`; `processNextDABatch` then returns
that error with the manager unchanged, its only call being the DA retrieval (no
block is handed to `applyBlock`). Otherwise, on batches that have a commit for
each of their blocks, `processNextDABatch` is the apply in order of the blocks
of the batches, each with the commit at the same index: either every pair is
applied and it returns success, or the pairs handed to `applyBlock` are those up
to the first one whose `applyBlock` fails, and it returns that error with the
state that call left. -/
theorem processNextDABatch_spec (env : DAEnv) (m : Manager) (daHeight : Nat) :
    ((fetchBatch env daHeight).2 ≠ none ↔
        (env.retrieveBatches daHeight).code = .error ∨
          (env.retrieveBatches daHeight).code = .timeout) ∧
    (fetchBatch env daHeight).1 = env.retrieveBatches daHeight ∧
    (∀ e, (fetchBatch env daHeight).2 = some e →
        processNextDABatch env m daHeight = ⟨m, [.retrieveBatches daHeight], some e⟩ ∧
        appliedPairs (processNextDABatch env m daHeight).calls = []) ∧
    ((fetchBatch env daHeight).2 = none →
      (∀ batch ∈ (env.retrieveBatches daHeight).batches,
        batch.blocks.length ≤ batch.commits.length) →
      processNextDABatch env m daHeight =
          ⟨(applyInOrder env.apply (batchPairs (env.retrieveBatches daHeight).batches) 0 m).m,
            .retrieveBatches daHeight ::
              (applyInOrder env.apply (batchPairs (env.retrieveBatches daHeight).batches) 0 m).calls,
            (applyInOrder env.apply (batchPairs (env.retrieveBatches daHeight).batches) 0 m).err⟩ ∧
        (((processNextDABatch env m daHeight).err = none ∧
            appliedPairs (processNextDABatch env m daHeight).calls =
              batchPairs (env.retrieveBatches daHeight).batches) ∨
          (∃ n block commit e,
            (batchPairs (env.retrieveBatches daHeight).batches)[n]? = some (block, commit) ∧
            appliedPairs (processNextDABatch env m daHeight).calls =
              (batchPairs (env.retrieveBatches daHeight).batches).take (n + 1) ∧
            (applyInOrder env.apply
              ((batchPairs (env.retrieveBatches daHeight).batches).take n) 0 m).err = none ∧
            (applyBlock (env.apply n)
              (applyInOrder env.apply
                ((batchPairs (env.retrieveBatches daHeight).batches).take n) 0 m).m
              block commit).err = some e ∧
            (processNextDABatch env m daHeight).err = some e ∧
            (processNextDABatch env m daHeight).m =
              (applyBlock (env.apply n)
                (applyInOrder env.apply
                  ((batchPairs (env.retrieveBatches daHeight).batches).take n) 0 m).m
                block commit).m))) := by
  refine ⟨?_, ?_, ?_, ?_⟩
  · unfold fetchBatch
    cases hc : (env.retrieveBatches daHeight).code <;> simp [hc]
  · unfold fetchBatch
    cases hc : (env.retrieveBatches daHeight).code <;> simp [hc]
  · intro e he
    have hp : processNextDABatch env m daHeight = ⟨m, [.retrieveBatches daHeight], some e⟩ := by
      unfold processNextDABatch
      rcases hf : fetchBatch env daHeight with ⟨res, err⟩
      rw [hf] at he
      simp only at he
      subst he
      rfl
    rw [hp]
    exact ⟨rfl, rfl⟩
  · intro hnone hwf
    have hres : fetchBatch env daHeight = (env.retrieveBatches daHeight, none) := by
      unfold fetchBatch at hnone ⊢
      cases hc : (env.retrieveBatches daHeight).code <;> simp [hc] at hnone ⊢
    have hp : processNextDABatch env m daHeight =
        ⟨(applyInOrder env.apply (batchPairs (env.retrieveBatches daHeight).batches) 0 m).m,
          .retrieveBatches daHeight ::
            (applyInOrder env.apply (batchPairs (env.retrieveBatches daHeight).batches) 0 m).calls,
          (applyInOrder env.apply
            (batchPairs (env.retrieveBatches daHeight).batches) 0 m).err⟩ := by
      unfold processNextDABatch
      rw [hres]
      dsimp only
      rw [batches_eq_applyInOrder env _ 0 m hwf]
    refine ⟨hp, ?_⟩
    rw [hp]
    rcases applyInOrder_stops env.apply (batchPairs (env.retrieveBatches daHeight).batches) 0 m with
      ⟨h1, h2⟩ | ⟨n, block, commit, e, h1, h2, h3, h4, h5, h6⟩
    · left
      exact ⟨h1, by simpa [appliedPairs] using h2⟩
    · right
      rw [Nat.zero_add] at h4 h6
      exact ⟨n, block, commit, e, h1, by simpa [appliedPairs] using h2, h3, h4, h5, h6⟩

theorem processNextDABatch_spec_witness :
    (fetchBatch daEnvTwoBatches 3).2 = none ∧
      (∀ batch ∈ (daEnvTwoBatches.retrieveBatches 3).batches,
        batch.blocks.length ≤ batch.commits.length) ∧
      (processNextDABatch daEnvTwoBatches managerWithFive 3).err = some (.fail 8) ∧
      appliedPairs (processNextDABatch daEnvTwoBatches managerWithFive 3).calls =
        [(blockAt 6, commitAt 6), (blockAt 7, commitAt 7), (blockAt 8, commitAt 8)] ∧
      (processNextDABatch daEnvTwoBatches managerWithFive 3).m.store.height = 7 ∧
      processNextDABatch daEnvTwoBatches managerWithFive 3 =
        ⟨(applyInOrder daEnvTwoBatches.apply
            (batchPairs (daEnvTwoBatches.retrieveBatches 3).batches) 0 managerWithFive).m,
          .retrieveBatches 3 ::
            (applyInOrder daEnvTwoBatches.apply
              (batchPairs (daEnvTwoBatches.retrieveBatches 3).batches) 0 managerWithFive).calls,
          (applyInOrder daEnvTwoBatches.apply
            (batchPairs (daEnvTwoBatches.retrieveBatches 3).batches) 0 managerWithFive).err⟩ :=
  ⟨by decide, by decide, by decide, by decide, by decide,
    ((processNextDABatch_spec daEnvTwoBatches managerWithFive 3).2.2.2 (by decide)
      (by decide)).1⟩

/-! ## C22: the genesis chunks -/

/-- C22. Let the node hold a genesis document whose JSON encoding is `d`, with
no chunk cached yet, and let the base64 codec decode what it encoded on the
slices of `d`. Then `initGenesisChunks` returns no error and leaves in
`genChunks` a list of `ceil(len(d) / genesisChunkSize)` entries that decode, in
order, to byte strings `cs` with: none longer than `genesisChunkSize`, all but
the last of exactly `genesisChunkSize` bytes, and their concatenation equal to
`d`. A second call returns the same node and no error, and `GetGenesisChunks`
returns the cached list. -/
theorem initGenesisChunks_partition (codec : Codec) (marshal : GenesisDoc → Except Err Bytes)
    (n : Node) (g : GenesisDoc) (d : Bytes)
    (hgenesis : n.genesis = some g) (hmarshal : marshal g = .ok d) (hfresh : n.genChunks = [])
    (hcodec : ∀ c ∈ initGenesisChunks.slices genesisChunkSize d d.length 0,
      codec.decodeString (codec.encodeToString c) = some c) :
    (initGenesisChunks codec marshal n).2 = none ∧
      (initGenesisChunks codec marshal n).1.genesis = n.genesis ∧
      (initGenesisChunks codec marshal n).1.genChunks.length =
        (d.length + genesisChunkSize - 1) / genesisChunkSize ∧
      (∃ cs : List Bytes,
        (initGenesisChunks codec marshal n).1.genChunks.map codec.decodeString = cs.map some ∧
          cs.length = (d.length + genesisChunkSize - 1) / genesisChunkSize ∧
          (∀ c ∈ cs, c.length ≤ genesisChunkSize) ∧
          (∀ c ∈ cs.dropLast, c.length = genesisChunkSize) ∧
          cs.flatten = d) ∧
      initGenesisChunks codec marshal (initGenesisChunks codec marshal n).1 =
        ((initGenesisChunks codec marshal n).1, none) ∧
      GetGenesisChunks codec marshal n =
        ((initGenesisChunks codec marshal n).1,
          .ok (initGenesisChunks codec marshal n).1.genChunks) := by
  have hsize : 0 < genesisChunkSize := by decide
  have hrun : initGenesisChunks codec marshal n =
      ({ n with
         genChunks := (initGenesisChunks.slices genesisChunkSize d d.length 0).map
           codec.encodeToString }, none) := by
    unfold initGenesisChunks
    simp only [hfresh, hgenesis, hmarshal, ne_eq, not_true_eq_false, if_false,
      initGenesisChunks.loop_eq, List.nil_append]
  have hlen := initGenesisChunks.slices_length genesisChunkSize d hsize d.length 0 (by omega)
  rw [Nat.sub_zero] at hlen
  refine ⟨by rw [hrun], by rw [hrun], by rw [hrun]; simpa using hlen, ?_, ?_, ?_⟩
  · refine ⟨initGenesisChunks.slices genesisChunkSize d d.length 0, ?_, hlen,
      initGenesisChunks.slices_le genesisChunkSize d d.length 0,
      initGenesisChunks.slices_full genesisChunkSize d d.length 0, ?_⟩
    · rw [hrun]
      simp only [List.map_map]
      apply List.map_congr_left
      intro c hc
      exact hcodec c hc
    · rw [initGenesisChunks.slices_flatten genesisChunkSize d hsize d.length 0 (by omega)]
      rfl
  · rw [hrun]
    cases hs : initGenesisChunks.slices genesisChunkSize d d.length 0 with
    | nil =>
      unfold initGenesisChunks
      simp only [hgenesis, hmarshal, List.map_nil, ne_eq, not_true_eq_false, if_false,
        initGenesisChunks.loop_eq, List.nil_append, hs]
    | cons s rest =>
      unfold initGenesisChunks
      simp
  · unfold GetGenesisChunks
    rw [hrun]

/-- Witness for C22: the node of the examples, whose genesis document encodes
to 21 bytes, gets the one chunk `eyJjaGFpbl9pZCI6ImR5bWludCJ9`. -/
theorem initGenesisChunks_partition_witness :
    (initGenesisChunks base64Codec (fun _ => .ok genesisJson) nodeExample).1.genChunks =
        [[101, 121, 74, 106, 97, 71, 70, 112, 98, 108, 57, 112, 90, 67, 73, 54, 73, 109, 82, 53,
          98, 87, 108, 117, 100, 67, 74, 57]] ∧
      (genesisJson.length + genesisChunkSize - 1) / genesisChunkSize = 1 ∧
      (initGenesisChunks base64Codec (fun _ => .ok genesisJson) nodeExample).2 = none ∧
      (initGenesisChunks base64Codec (fun _ => .ok genesisJson) nodeExample).1.genChunks.length =
        (genesisJson.length + genesisChunkSize - 1) / genesisChunkSize :=
  ⟨by decide, by decide,
    (initGenesisChunks_partition base64Codec (fun _ => .ok genesisJson) nodeExample
      genesisExample genesisJson rfl rfl rfl (by decide)).1,
    (initGenesisChunks_partition base64Codec (fun _ => .ok genesisJson) nodeExample
      genesisExample genesisJson rfl rfl rfl (by decide)).2.2.1⟩

end Dymint
